import Mathlib

/-!
# Field-ownership deletion planner (`internal/xfn/fieldmanager.go`)

A shallow embedding of the planner that turns "fields owned by a writer in the
observed document but missing from the desired document" into explicit-null
patches, and theorems about it.

Modelling conventions.

* Go `string` is Lean `String`; `strings.Split(s, ".")` and
  `strings.Join(parts, ".")` are `Split` and `Join`.
* A Go `interface{}` holding unstructured JSON is `Value`: the `nil` interface is
  `Value.null`, a `map[string]interface{}` is `Value.map`, a `[]interface{}` is
  `Value.seq`, every other dynamic type is `Value.scalar`.
* A Go map is an association list read with "first binding wins": `mapGet`
  is `m[k]`, `mapSet` is `m[k] = v`, `mapLen` is `len(m)` (the number of
  distinct keys).  Go maps are unordered, so the position of a key in the list
  carries no meaning.
* In-place mutation is explicit state passing: a function that mutates its
  argument returns the new state next to its Go result.
* The iteration order of `for k, v := range m` over a Go map is unspecified; the
  model takes it from a `MapOrder`, and theorems quantify over every `MapOrder`.
-/

namespace Xfn

/-! ## Strings -/

/-- Splitting a character list at every dot; the result is never empty. -/
def splitChars : List Char → List (List Char)
  | [] => [[]]
  | c :: cs =>
    if c = '.' then [] :: splitChars cs
    else
      match splitChars cs with
      | [] => [[c]]
      | w :: ws => (c :: w) :: ws

/-- Joining character lists with a dot between consecutive ones. -/
def joinChars : List (List Char) → List Char
  | [] => []
  | [w] => w
  | w :: w2 :: ws => w ++ '.' :: joinChars (w2 :: ws)

/-- Go `strings.Split(s, ".")`. -/
def Split (s : String) : List String :=
  (splitChars s.data).map String.mk

/-- Go `strings.Join(parts, ".")`. -/
def Join (parts : List String) : String :=
  String.mk (joinChars (parts.map String.data))

/-! ## Tree documents -/

/-- Unstructured JSON value held in a Go `interface{}`. -/
inductive Value where
  | null : Value
  | scalar (repr : String) : Value
  | seq (items : List Value) : Value
  | map (fields : List (String × Value)) : Value

/-- Go `map[string]interface{}`. -/
abbrev Object := List (String × Value)

/-- Go `v, ok := m[k]`. -/
def mapGet : Object → String → Option Value
  | [], _ => none
  | (k, v) :: rest, key => if k = key then some v else mapGet rest key

/-- Go `m[k] = v`: overwrite the binding of `k`, or add one. -/
def mapSet : Object → String → Value → Object
  | [], key, val => [(key, val)]
  | (k, v) :: rest, key, val =>
    if k = key then (k, val) :: rest else (k, v) :: mapSet rest key val

/-- The keys of a Go map, each once. -/
def mapKeys (m : Object) : List String :=
  (m.map Prod.fst).dedup

/-- Go `len(m)`. -/
def mapLen (m : Object) : Nat :=
  (mapKeys m).length

/-- Errors returned by the planner and by the accessor it calls. -/
inductive Error where
  | accessor (depth : Nat) : Error
  | segmentNotMap (segment : String) (position : Nat) : Error
  | wrapped (context : String) (subject : String) (cause : Error) : Error
  deriving DecidableEq

/-- The loop of `NestedFieldNoCopy`, started at value `val` and index `i`. -/
def nestedFrom : Value → List String → Nat → Value × Bool × Option Error
  | val, [], _ => (val, true, none)
  | .null, _ :: _, _ => (.null, false, none)
  | .map m, field :: rest, i =>
    match mapGet m field with
    | none => (.null, false, none)
    | some v => nestedFrom v rest (i + 1)
  | _, _ :: _, i => (.null, false, some (.accessor i))

/-- The accessor `unstructured.NestedFieldNoCopy(obj, fields...)` of
k8s.io/apimachinery: returns `(value, found, err)`.  A `nil` value or a missing
key on the way gives `(nil, false, nil)`; a value on the way that is neither
`nil` nor a map gives `(nil, false, err)`. -/
def NestedFieldNoCopy (obj : Object) (fields : List String) : Value × Bool × Option Error :=
  nestedFrom (.map obj) fields 0

/-- Go `v == nil` for an `interface{}`. -/
def Value.isNil : Value → Bool
  | .null => true
  | _ => false

/-! ## Missing-field detector -/

/-- The function `findMissingFields`: the owned paths that exist (non-nil) in observed and
are not found, or are nil, in desired. -/
def findMissingFields (observed desired : Object) : List String → List String
  | [] => []
  | path :: ownedPaths =>
    let parts := Split path
    match NestedFieldNoCopy observed parts with
    | (observedVal, observedExists, err) =>
      if err.isSome || !observedExists || observedVal.isNil then
        findMissingFields observed desired ownedPaths
      else
        match NestedFieldNoCopy desired parts with
        | (desiredVal, desiredExists, err) =>
          if !desiredExists || (err.isNone && desiredVal.isNil) then
            path :: findMissingFields observed desired ownedPaths
          else
            findMissingFields observed desired ownedPaths

/-! ## Sibling-collapse compactor -/

/-- The value stored in `parentMap[parentPath]`. -/
structure parentInfo where
  parent : String
  children : List String

/-- The statement `parentMap[parentPath].children = append(.., path)`, the entry
being created first when `parentMap[parentPath] == nil`. -/
def addChild : List parentInfo → String → String → List parentInfo
  | [], parentPath, path => [⟨parentPath, [path]⟩]
  | info :: rest, parentPath, path =>
    if info.parent = parentPath then ⟨info.parent, info.children ++ [path]⟩ :: rest
    else info :: addChild rest parentPath path

/-- The first loop of `replaceWithParentIfAllSiblingsDeleted`: group the paths
of more than one segment by their parent path. -/
def groupByParent : List parentInfo → List String → List parentInfo
  | parentMap, [] => parentMap
  | parentMap, path :: paths =>
    let parts := Split path
    if parts.length ≤ 1 then groupByParent parentMap paths
    else groupByParent (addChild parentMap (Join parts.dropLast) path) paths

/-- An iteration order for `for parentPath, info := range parentMap`: Go leaves
the order of a map range unspecified, so the order is any permutation of the
entries, and may differ from one call (one `paths` argument) to the next. -/
structure MapOrder where
  order : List String → List parentInfo → List parentInfo
  perm : ∀ paths infos, (order paths infos).Perm infos

/-- The insertion order, one of the orders a Go map range may take. -/
def MapOrder.insertion : MapOrder :=
  ⟨fun _ infos => infos, fun _ infos => List.Perm.refl infos⟩

/-- The reverse of the insertion order, another order a Go map range may take. -/
def MapOrder.reversed : MapOrder :=
  ⟨fun _ infos => infos.reverse, fun _ infos => List.reverse_perm infos⟩

/-- The variables `result` and `processedPaths` of the second loop. -/
structure loopState where
  result : List String
  processedPaths : List String

/-- The loop `for _, child := range info.children` that keeps the original
child paths, each appended unless already processed. -/
def keepChildren : List String → loopState → loopState
  | [], st => st
  | child :: children, st =>
    if child ∈ st.processedPaths then keepChildren children st
    else keepChildren children ⟨st.result ++ [child], child :: st.processedPaths⟩

/-- The variable `canDeleteParent`: the parent is not found in desired, or is
nil there, or is an empty map there. -/
def canDeleteParent (desired : Object) (parentParts : List String) : Bool :=
  match NestedFieldNoCopy desired parentParts with
  | (desiredParent, desiredExists, _) =>
    if !desiredExists || desiredParent.isNil then true
    else
      match desiredParent with
      | .map desiredParentMap => decide (mapLen desiredParentMap = 0)
      | _ => false

/-- One iteration of the loop `for parentPath, info := range parentMap`. -/
def processGroup (observed desired : Object) (st : loopState) (info : parentInfo) : loopState :=
  let parentParts := Split info.parent
  match NestedFieldNoCopy observed parentParts with
  | (parentObj, parentExists, err) =>
    if !parentExists || err.isSome then keepChildren info.children st
    else
      match parentObj with
      | .map parentMap =>
        if info.children.length = mapLen parentMap then
          if canDeleteParent desired parentParts then
            ⟨if info.parent ∈ st.processedPaths then st.result else st.result ++ [info.parent],
              info.children ++ info.parent :: st.processedPaths⟩
          else keepChildren info.children st
        else keepChildren info.children st
      | _ => keepChildren info.children st

/-- One call of `replaceWithParentIfAllSiblingsDeleted` up to, and without, its
final recursion test: the value of `result` after the three loops. -/
def collapsePass (o : MapOrder) (observed desired : Object) (paths : List String) : List String :=
  let st := (o.order paths (groupByParent [] paths)).foldl (processGroup observed desired) ⟨[], []⟩
  st.result ++ paths.filter (fun path => decide (path ∉ st.processedPaths))

/-- The recursion of `replaceWithParentIfAllSiblingsDeleted`, with a bound on
its depth.  `replaceWithParentIfAllSiblingsDeleted_unfold` shows that the bound
`len(paths)` is never exhausted: the function satisfies the source's equation. -/
def replaceLoop (o : MapOrder) (observed desired : Object) : Nat → List String → List String
  | 0, paths => paths
  | fuel + 1, paths =>
    if paths.length = 0 then paths
    else
      let result := collapsePass o observed desired paths
      if result.length ≠ paths.length then replaceLoop o observed desired fuel result
      else result

/-- The function `replaceWithParentIfAllSiblingsDeleted`: the recursion bounded by
`len(paths)`, its first argument being the order in which the groups are ranged. -/
def replaceWithParentIfAllSiblingsDeleted (o : MapOrder) (observed desired : Object)
    (paths : List String) : List String :=
  replaceLoop o observed desired paths.length paths

/-! ## Null-patch applier -/

/-- The function `ensureParentPath`, with the loop index `i` of the segment reached.  Returns
the mutated map and the error. -/
def ensureParentPathFrom (i : Nat) : Object → List String → Object × Option Error
  | current, [] => (current, none)
  | current, segment :: rest =>
    match mapGet current segment with
    | some (.map nextMap) =>
      match ensureParentPathFrom (i + 1) nextMap rest with
      | (nextMap', err) => (mapSet current segment (.map nextMap'), err)
    | some _ => (current, some (.segmentNotMap segment i))
    | none =>
      match ensureParentPathFrom (i + 1) [] rest with
      | (newMap, err) => (mapSet current segment (.map newMap), err)

/-- The function `ensureParentPath`: returns the mutated map and the error. -/
def ensureParentPath (obj : Object) (path : List String) : Object × Option Error :=
  ensureParentPathFrom 0 obj path

/-- The write `parentMap[fieldName] = val` through the reference `parentMap`
that `NestedFieldNoCopy(obj, path...)` returned: the map found at `path` inside
`obj` is updated in place. -/
def assignNested : Object → List String → String → Value → Object
  | obj, [], fieldName, val => mapSet obj fieldName val
  | obj, segment :: rest, fieldName, val =>
    match mapGet obj segment with
    | some (.map next) => mapSet obj segment (.map (assignNested next rest fieldName val))
    | _ => obj

/-- The body of the loop of `setFieldsToNil` for one path: returns the mutated
document and the error with which the function returns, if it does. -/
def setFieldToNil (obj : Object) (path : String) : Object × Option Error :=
  let parts := Split path
  if parts.length = 0 then (obj, none)
  else if parts.length = 1 then (mapSet obj (parts.headD "") .null, none)
  else
    let parentPath := parts.dropLast
    let fieldName := parts.getLastD ""
    match ensureParentPath obj parentPath with
    | (obj1, some err) => (obj1, some (.wrapped "cannot ensure parent path for" path err))
    | (obj1, none) =>
      match NestedFieldNoCopy obj1 parentPath with
      | (_, _, some err) => (obj1, some (.wrapped "cannot get parent for path" path err))
      | (_, false, none) => (obj1, none)
      | (.map _, true, none) => (assignNested obj1 parentPath fieldName .null, none)
      | (_, true, none) => (obj1, none)

/-- The function `setFieldsToNil`: returns the mutated document and the error. -/
def setFieldsToNil : Object → List String → Object × Option Error
  | obj, [] => (obj, none)
  | obj, path :: pathsToDelete =>
    match setFieldToNil obj path with
    | (obj1, some err) => (obj1, some err)
    | (obj1, none) => setFieldsToNil obj1 pathsToDelete

/-! ## Ownership extractor -/

/-- An element of a structured-merge-diff `fieldpath.Path`: exactly one of the
four members of `fieldpath.PathElement` is set. -/
inductive PathElement where
  | FieldName (name : String) : PathElement
  | Key (fields : List (String × String)) : PathElement
  | Value (value : String) : PathElement
  | Index (index : Int) : PathElement

/-- The field name of a path element, when `pe.FieldName != nil`. -/
def PathElement.fieldName? : PathElement → Option String
  | .FieldName name => some name
  | _ => none

/-- The function `pathToString`: the dot-join of the field names of a path. -/
def pathToString (p : List PathElement) : String :=
  Join (p.filterMap PathElement.fieldName?)

/-- The structured-merge-diff field-set deserializer: `set.FromJSON` followed by
`set.Iterate`, giving the paths of the set in iteration order, or an error. -/
structure FieldSetCodec where
  fromJSON : String → Except Error (List (List PathElement))

/-- The function `parseFieldsV1`: the flattened paths of a raw field-set payload. -/
def parseFieldsV1 (codec : FieldSetCodec) (raw : String) : Except Error (List String) :=
  if raw.length = 0 then .ok []
  else
    match codec.fromJSON raw with
    | .error err => .error (.wrapped "cannot deserialize FieldsV1" raw err)
    | .ok set => if set.isEmpty then .ok [] else .ok (set.map pathToString)

/-- An entry of `metadata.managedFields`; `FieldsV1` is `none` for a nil pointer
and otherwise holds the raw payload. -/
structure ManagedFieldsEntry where
  Manager : String
  Operation : String
  APIVersion : String
  FieldsV1 : Option String

/-- An unstructured object: its content and what `GetManagedFields()` returns. -/
structure Unstructured where
  Object : Object
  managedFields : List ManagedFieldsEntry

/-- The loop of `getOwnedFieldPaths` over the managed-fields entries. -/
def ownedPathsLoop (codec : FieldSetCodec) (fieldManager : String) :
    List ManagedFieldsEntry → List String → Except Error (List String)
  | [], ownedPaths => .ok ownedPaths
  | mf :: rest, ownedPaths =>
    if mf.Manager ≠ fieldManager then ownedPathsLoop codec fieldManager rest ownedPaths
    else
      match mf.FieldsV1 with
      | none => ownedPathsLoop codec fieldManager rest ownedPaths
      | some raw =>
        match parseFieldsV1 codec raw with
        | .error err => .error (.wrapped "cannot parse FieldsV1 for manager" mf.Manager err)
        | .ok paths => ownedPathsLoop codec fieldManager rest (ownedPaths ++ paths)

/-- The function `getOwnedFieldPaths`. -/
def getOwnedFieldPaths (codec : FieldSetCodec) (obj : Unstructured) (fieldManager : String) :
    Except Error (List String) :=
  ownedPathsLoop codec fieldManager obj.managedFields []

/-! ## The planner -/

/-- What `PrepareResourceForFieldDeletion` returns, with the desired document
as the call leaves it. -/
structure PrepareResult where
  paths : List String
  err : Option Error
  desired : Unstructured

/-- The function `PrepareResourceForFieldDeletion`, for observed and desired objects that are
already unstructured. -/
def PrepareResourceForFieldDeletion (codec : FieldSetCodec) (o : MapOrder)
    (observed desired : Unstructured) (fieldManager : String) : PrepareResult :=
  match getOwnedFieldPaths codec observed fieldManager with
  | .error err => ⟨[], some (.wrapped "cannot get owned field paths" "" err), desired⟩
  | .ok ownedPaths =>
    if ownedPaths.length = 0 then ⟨[], none, desired⟩
    else
      let pathsToDelete := findMissingFields observed.Object desired.Object ownedPaths
      let pathsToDelete :=
        replaceWithParentIfAllSiblingsDeleted o observed.Object desired.Object pathsToDelete
      match setFieldsToNil desired.Object pathsToDelete with
      | (obj, err) => ⟨pathsToDelete, err, ⟨obj, desired.managedFields⟩⟩

/-! ## Notions used in the statements -/

/-- A segment: a string without a dot. -/
def isSegment (s : String) : Prop := '.' ∉ s.data

/-- The path resolves in the document to an existing value that is not the
null marker. -/
def resolvesNonNull (doc : Object) (path : String) : Bool :=
  (NestedFieldNoCopy doc (Split path)).2.1 && !(NestedFieldNoCopy doc (Split path)).1.isNil

/-- The path is absent from the document (the lookup does not find it) or holds
the null marker there. -/
def absentOrNull (doc : Object) (path : String) : Bool :=
  !(NestedFieldNoCopy doc (Split path)).2.1 || (NestedFieldNoCopy doc (Split path)).1.isNil

/-- The detector's decision rule as the specification words it: non-null in
observed, and absent or null in desired. -/
def isMissing (observed desired : Object) (path : String) : Bool :=
  resolvesNonNull observed path && absentOrNull desired path

/-! ## Example documents -/

/-- Observed document `a: {b: {c: 1}}`. -/
def exampleNested : Object :=
  [("a", .map [("b", .map [("c", .scalar "1")])])]

/-- Observed document `a: {b: 1, c: 2}`. -/
def exampleTwoChildren : Object :=
  [("a", .map [("b", .scalar "1"), ("c", .scalar "2")])]

/-- Observed document `x: 1`. -/
def exampleTopLevel : Object :=
  [("x", .scalar "1")]

/-! ## The applier, one path at a time, on segments -/

/-- What one iteration of `setFieldsToNil` does to the document, told on the
segments of the path: `none` when the iteration returns an error.  Used to
reason about `setFieldToNil` (see `setFieldToNil_eq`). -/
def writeNil : Object → List String → Option Object
  | obj, [] => some obj
  | obj, [fieldName] => some (mapSet obj fieldName .null)
  | obj, segment :: next :: rest =>
    match mapGet obj segment with
    | some (.map m) => (writeNil m (next :: rest)).map (fun m1 => mapSet obj segment (.map m1))
    | some _ => none
    | none => (writeNil [] (next :: rest)).map (fun m1 => mapSet obj segment (.map m1))

/-! ## Documents as unordered mappings -/

/-- What a lookup shows of a value without looking inside a mapping: the null
marker, a scalar, a sequence, or "a mapping". -/
inductive Kind where
  | null : Kind
  | scalar (repr : String) : Kind
  | seq (items : List Value) : Kind
  | map : Kind

/-- The kind of a value. -/
def Value.kind : Value → Kind
  | .null => .null
  | .scalar repr => .scalar repr
  | .seq items => .seq items
  | .map _ => .map

/-- True for a Go value whose dynamic type is `map[string]interface{}`. -/
def Value.isMap : Value → Bool
  | .map _ => true
  | _ => false

/-- What `NestedFieldNoCopy` shows at a path: the kind of the value, whether it
was found, and the error. -/
def observe (d : Object) (fields : List String) : Kind × Bool × Option Error :=
  ((NestedFieldNoCopy d fields).1.kind, (NestedFieldNoCopy d fields).2)

/-- Two documents are the same unordered mapping: every path shows the same in
both.  (The keys of a mapping are the one-segment extensions that are found, so
this is equality of Go maps, whatever the order of the association lists.) -/
def sameDocument (d1 d2 : Object) : Prop :=
  ∀ fields, observe d1 fields = observe d2 fields

/-- No path of the list is a proper segment-prefix of another. -/
def noAncestorPair (paths : List String) : Prop :=
  ∀ p ∈ paths, ∀ q ∈ paths, Split p <+: Split q → p = q

/-- What every path shows after a successful write of the null marker at `p`,
from what it showed before. -/
def observeAfterWrite (f : List String → Kind × Bool × Option Error) (p : List String)
    (r : List String) : Kind × Bool × Option Error :=
  if r <+: p then (if r = p then (.null, true, none) else (.map, true, none))
  else if p <+: r then (.null, false, none)
  else f r

/-- The write at `p` fails on a document showing `f`: a proper prefix of `p` is
found and is not a mapping. -/
def writeFails (f : List String → Kind × Bool × Option Error) (p : List String) : Prop :=
  ∃ r, r <+: p ∧ r ≠ p ∧ (f r).2.1 = true ∧ (f r).1 ≠ .map

/-- Two runs of the applier agree: both return an error or neither does, and
when they succeed they leave the same document. -/
def runsAgree (x y : Object × Option Error) : Prop :=
  (x.2 = none ↔ y.2 = none) ∧ (x.2 = none → sameDocument x.1 y.1)

/-! ## The compactor: notions used in the statements -/

/-- The key under which the first loop of the compactor groups a path: `none`
for a top-level path, else the dot-join of all segments but the last. -/
def parentOf (path : String) : Option String :=
  if (Split path).length ≤ 1 then none else some (Join (Split path).dropLast)

/-- Go `parentMap[parentPath].children`, empty when the key is absent. -/
def childrenOf : List parentInfo → String → List String
  | [], _ => []
  | info :: rest, parentPath =>
    if info.parent = parentPath then info.children else childrenOf rest parentPath

/-- The branch of the second loop that replaces a group by its parent is taken:
the parent is a map in observed, the group has as many paths as that map has
keys, and `canDeleteParent` holds. -/
def groupCollapses (observed desired : Object) (info : parentInfo) : Bool :=
  match NestedFieldNoCopy observed (Split info.parent) with
  | (.map parentMap, true, none) =>
    decide (info.children.length = mapLen parentMap)
      && canDeleteParent desired (Split info.parent)
  | _ => false

/-- The number of paths held by the groups: the sum of `len(info.children)`. -/
def totalChildren (parentMap : List parentInfo) : Nat :=
  (parentMap.map (fun info => info.children.length)).sum

/-- The path resolves in the document to a mapping without keys. -/
def emptyMapIn (doc : Object) (path : String) : Bool :=
  match NestedFieldNoCopy doc (Split path) with
  | (.map m, true, _) => decide (mapLen m = 0)
  | _ => false

/-- Observed document `a: {b: 1}`. -/
def exampleOneChild : Object :=
  [("a", .map [("b", .scalar "1")])]

/-- Desired document `a: {}`. -/
def exampleEmptyParent : Object :=
  [("a", .map [])]

/-- A deserializer that reads every payload as the field set `{a.b}`. -/
def exampleCodec : FieldSetCodec :=
  ⟨fun _ => .ok [[.FieldName "a", .FieldName "b"]]⟩

/-- An observed object `a: {b: 1}` whose field `a.b` is owned by `manager`. -/
def exampleOwned : Unstructured :=
  ⟨exampleOneChild, [⟨"manager", "Apply", "v1", some "f:a"⟩]⟩

/-- Observed document `a: {b: {c: 1, d: 2}, e: 3}`. -/
def exampleTwoLevels : Object :=
  [("a", .map [("b", .map [("c", .scalar "1"), ("d", .scalar "2")]), ("e", .scalar "3")])]

/-! ## Structural conflicts, as the specification words them -/

/-- Walking the segments from the root of the mapping, some segment's key
exists in the current mapping with a value that is not a mapping.  An absent
key ends the walk: the mappings created from there on are new and hold no key. -/
def hitsNonMap : Object → List String → Bool
  | _, [] => false
  | current, segment :: rest =>
    match mapGet current segment with
    | some (.map next) => hitsNonMap next rest
    | some _ => true
    | none => false

/-- Desired document `a: 1`. -/
def exampleScalarParent : Object :=
  [("a", .scalar "1")]

/-! ## The extractor, as the specification words it -/

/-- The field names of a path, in order: a field-name element gives its name,
a key, value or index selector gives nothing. -/
def fieldNamesOf : List PathElement → List String
  | [] => []
  | .FieldName name :: rest => name :: fieldNamesOf rest
  | .Key _ :: rest => fieldNamesOf rest
  | .Value _ :: rest => fieldNamesOf rest
  | .Index _ :: rest => fieldNamesOf rest

/-- The paths a record contributes when its payload parses: none when the
field-set is absent. -/
def parsedPathsOf (codec : FieldSetCodec) (mf : ManagedFieldsEntry) : List String :=
  match mf.FieldsV1 with
  | none => []
  | some raw =>
    match parseFieldsV1 codec raw with
    | .ok paths => paths
    | .error _ => []

/-- The record belongs to the writer and holds a non-empty payload that the
field-set deserializer rejects. -/
def malformedFor (codec : FieldSetCodec) (fieldManager : String) (mf : ManagedFieldsEntry) :
    Prop :=
  mf.Manager = fieldManager
    ∧ ∃ raw, mf.FieldsV1 = some raw ∧ raw.length ≠ 0 ∧ ∃ err, codec.fromJSON raw = .error err

/-- A deserializer that rejects the payload `bad` and reads every other payload
as the field set `{a.b}`. -/
def examplePickyCodec : FieldSetCodec :=
  ⟨fun raw => if raw = "bad" then .error (.accessor 0)
    else .ok [[.FieldName "a", .FieldName "b"]]⟩

/-- An observed object `a: {b: 1}` with three records: one of `manager`, one of
`manager-2` whose payload is malformed, and one of `manager` again. -/
def exampleThreeRecords : Unstructured :=
  ⟨exampleOneChild,
    [⟨"manager", "Apply", "v1", some "f:a"⟩, ⟨"manager-2", "Apply", "v1", some "bad"⟩,
      ⟨"manager", "Update", "v1", some "f:a"⟩]⟩

/-- An observed object `spec: {a: {b: {c: 1, d: 2}}}`. -/
def examplePartial : Object :=
  [("spec", .map [("a", .map [("b", .map [("c", .scalar "1"), ("d", .scalar "2")])])])]

/-- Observed document `spec: {tier: {cpu: 1, memory: 2}, size: 3}`. -/
def exampleTier : Object :=
  [("spec", .map [("tier", .map [("cpu", .scalar "1"), ("memory", .scalar "2")]),
    ("size", .scalar "3")])]

/-- Desired document `spec: {size: 3}`. -/
def exampleTierDesired : Object :=
  [("spec", .map [("size", .scalar "3")])]

/-- Observed document `labels: {"app.io": 1}`, whose one key holds a dot. -/
def exampleDottedKey : Object :=
  [("labels", .map [("app.io", .scalar "1")])]

/-- Desired document `spec: null`. -/
def exampleNullSpec : Object :=
  [("spec", .null)]

/-- The group of the paths of `L` under the parent `q` exists and is replaced
by `q` in a pass over `L`. -/
def collapsesAt (observed desired : Object) (L : List String) (q : String) : Prop :=
  (∃ c ∈ L, parentOf c = some q)
    ∧ groupCollapses observed desired
        ⟨q, L.filter (fun c => decide (parentOf c = some q))⟩ = true

/-! ## Coverage, and the debug helper -/

/-- The path `p` is covered by the list: `p` itself or an ancestor of `p` (a
path whose segments are a prefix of those of `p`) is in the list. -/
def coveredBy (out : List String) (p : String) : Prop :=
  ∃ x ∈ out, Split x <+: Split p

/-- The value stored under `targetManager` by `DebugManagedFields`. -/
structure TargetManagerInfo where
  manager : String
  operation : String
  apiVersion : String
  fieldsV1 : String
  deriving DecidableEq

/-- The map returned by `DebugManagedFields`, by key; `targetManager` is `none`
for the nil map. -/
structure DebugInfo where
  allManagers : List String
  targetManager : Option TargetManagerInfo
  lookingFor : String
  deriving DecidableEq

/-- The loop of `DebugManagedFields`; `none` when the loop panics on the nil
pointer dereference `mf.FieldsV1.Raw`. -/
def debugLoop (fieldManager : String) :
    List ManagedFieldsEntry → List String → Option TargetManagerInfo →
      Option (List String × Option TargetManagerInfo)
  | [], allManagers, targetManager => some (allManagers, targetManager)
  | mf :: rest, allManagers, targetManager =>
    if mf.Manager = fieldManager then
      match mf.FieldsV1 with
      | none => none
      | some raw =>
        debugLoop fieldManager rest (allManagers ++ [mf.Manager])
          (some ⟨mf.Manager, mf.Operation, mf.APIVersion, raw⟩)
    else debugLoop fieldManager rest (allManagers ++ [mf.Manager]) targetManager

/-- The function `DebugManagedFields`; `none` when it panics. -/
def DebugManagedFields (obj : Unstructured) (fieldManager : String) : Option DebugInfo :=
  match debugLoop fieldManager obj.managedFields [] none with
  | none => none
  | some (allManagers, targetManager) => some ⟨allManagers, targetManager, fieldManager⟩

/-- An object with one record of `manager` whose field-set is absent. -/
def exampleNoFieldSet : Unstructured :=
  ⟨[], [⟨"manager", "Update", "v1", none⟩]⟩

end Xfn

namespace UsageWebhook

/-!
# Usage webhook (`internal/webhook/protection/usage/handler.go`)

The handler that refuses the deletion of a resource that a Usage names.  What
it calls outside its file (the decoders, the client, the index key, the
annotation key, the quoting of `fmt`) is gathered in `Collaborators`; the types it reads are
modelled by the fields it reads of them.
-/

/-- The operation of an admission request (`admissionv1.Operation`, a string):
the four named constants, and `other` for any other string. -/
inductive Operation where
  | Create : Operation
  | Update : Operation
  | Delete : Operation
  | Connect : Operation
  | other (name : String) : Operation
  deriving DecidableEq

/-- What the handler reads of the decoded old object: `GetAPIVersion()`,
`GetKind()`, `GetName()` and `GetAnnotations()` (`none` for a nil map). -/
structure Resource where
  apiVersion : String
  kind : String
  name : String
  annotations : Option (List (String × String))
  deriving DecidableEq

/-- What the handler reads of `metav1.DeleteOptions`. -/
structure DeleteOptions where
  PropagationPolicy : Option String
  deriving DecidableEq

/-- What `inUseMessage` reads of `first.Spec.By`: its `Kind` and the name of its
`ResourceRef`, a pointer that is nil (`none`) until a selector is resolved;
`SetupWebhookWithManager` tests the same pointer of `Spec.Of` against nil. -/
structure UsedBy where
  Kind : String
  ResourceRef : Option String
  deriving DecidableEq

/-- What the handler reads of a `v1beta1.Usage`, a type declared outside this
file: its name, `Spec.By` and `Spec.Reason`, each `none` for a nil pointer. -/
structure Usage where
  Name : String
  By : Option UsedBy
  Reason : Option String
  deriving DecidableEq

/-- What the handler reads of an `admission.Request`. -/
structure Request where
  Operation : Operation
  OldObject : String
  Options : String

/-- What is observed of an `admission.Response`: `Allowed`, `Result.Code` and the
reason or message. -/
structure Response where
  Allowed : Bool
  Code : Int
  Reason : String
  deriving DecidableEq

/-- The collaborators of the handler: the two decoders, the client's `List`
over the in-use index and its `Patch`, the index value and the annotation key
of package `protection`, and the quoting of the verb `%q` of package `fmt`. -/
structure Collaborators where
  unmarshalObject : String → Except String Resource
  unmarshalOptions : String → Except String DeleteOptions
  list : String → Except String (List Usage)
  patch : Resource → Resource → Option String
  inUseIndexValue : String → String → String → String
  annotationKeyDeletionAttempt : String
  quote : String → String

/-- The string of an operation, as `admissionv1` names it. -/
def Operation.name : Operation → String
  | .Create => "CREATE"
  | .Update => "UPDATE"
  | .Delete => "DELETE"
  | .Connect => "CONNECT"
  | .other name => name

/-- The error `errors.Errorf(errFmtUnexpectedOp, request.Operation)`. -/
def unexpectedOp (c : Collaborators) (op : Operation) : String :=
  "unexpected operation " ++ c.quote op.name ++ ", expected \"DELETE\""

/-- The response `admission.Errored(code, err)`. -/
def Errored (code : Int) (err : String) : Response :=
  ⟨false, code, err⟩

/-- The response `admission.Allowed(message)`. -/
def Allowed (message : String) : Response :=
  ⟨true, 200, message⟩

/-- The function `inUseMessage`, given `usages.Items[0]` and the rest of the
list; `none` when it panics on the nil pointer dereference
`first.Spec.By.ResourceRef.Name`. -/
def inUseMessage (c : Collaborators) (first : Usage) (rest : List Usage) : Option String :=
  let count := toString (rest.length + 1)
  match first.By with
  | some usedBy =>
    match usedBy.ResourceRef with
    | none => none
    | some name =>
      some ("This resource is in-use by " ++ count ++ " Usage(s), including the Usage "
        ++ c.quote first.Name ++ " by resource " ++ usedBy.Kind ++ "/" ++ name ++ ".")
  | none =>
    match first.Reason with
    | some reason =>
      some ("This resource is in-use by " ++ count ++ " Usage(s), including the Usage "
        ++ c.quote first.Name ++ " with reason: " ++ c.quote reason ++ ".")
    | none =>
      some ("This resource is in-use by " ++ count ++ " Usage(s), including the Usage "
        ++ c.quote first.Name ++ ".")

/-- The variable `policy`: the propagation policy of the options, or
`metav1.DeletePropagationBackground`. -/
def deletionPolicy (opts : DeleteOptions) : String :=
  match opts.PropagationPolicy with
  | some policy => policy
  | none => "Background"

/-- Go `m[key]` on a `map[string]string`: the empty string for an absent key. -/
def annotationOf (annotations : List (String × String)) (key : String) : String :=
  match annotations.lookup key with
  | some value => value
  | none => ""

/-- The test that guards the patch: the annotations are nil, or the
deletion-attempt annotation differs from the policy. -/
def patchAttempted (c : Collaborators) (u : Resource) (opts : DeleteOptions) : Bool :=
  match u.annotations with
  | none => true
  | some annotations =>
    decide (annotationOf annotations c.annotationKeyDeletionAttempt ≠ deletionPolicy opts)

/-- The object after `xpmeta.AddAnnotations` set the deletion-attempt annotation. -/
def withDeletionAttempt (c : Collaborators) (u : Resource) (opts : DeleteOptions) : Resource :=
  ⟨u.apiVersion, u.kind, u.name,
    some ((c.annotationKeyDeletionAttempt, deletionPolicy opts) ::
      ((u.annotations.getD []).filter
        (fun kv => decide (kv.1 ≠ c.annotationKeyDeletionAttempt))))⟩

/-- The response that refuses the deletion: not allowed, code 409. -/
def conflict (msg : String) : Response :=
  ⟨false, 409, msg⟩

/-- The method `Handler.validateNoUsages`; `none` when it panics. -/
def validateNoUsages (c : Collaborators) (u : Resource) (opts : DeleteOptions) :
    Option Response :=
  match c.list (c.inUseIndexValue u.apiVersion u.kind u.name) with
  | .error err => some (Errored 500 err)
  | .ok [] => some (Allowed "")
  | .ok (first :: rest) =>
    match inUseMessage c first rest with
    | none => none
    | some msg =>
      if patchAttempted c u opts then
        match c.patch (withDeletionAttempt c u opts) u with
        | some err => some (Errored 500 err)
        | none => some (conflict msg)
      else some (conflict msg)

/-- The method `Handler.Handle`; `none` when it panics. -/
def Handle (c : Collaborators) (request : Request) : Option Response :=
  match request.Operation with
  | .Create => some (Errored 400 (unexpectedOp c request.Operation))
  | .Update => some (Errored 400 (unexpectedOp c request.Operation))
  | .Connect => some (Errored 400 (unexpectedOp c request.Operation))
  | .Delete =>
    match c.unmarshalObject request.OldObject with
    | .error err => some (Errored 400 err)
    | .ok u =>
      match c.unmarshalOptions request.Options with
      | .error err => some (Errored 400 err)
      | .ok opts => validateNoUsages c u opts
  | .other _ => some (Errored 400 (unexpectedOp c request.Operation))

/-- Collaborators for which the resource `v1/Bucket/b` is used by one Usage,
by a resource whose reference is resolved, and every call succeeds. -/
def exampleInUse : Collaborators :=
  ⟨fun _ => .ok ⟨"v1", "Bucket", "b", none⟩, fun _ => .ok ⟨none⟩,
    fun _ => .ok [⟨"u1", some ⟨"Cluster", some "c"⟩, none⟩],
    fun _ _ => none, fun a k n => a ++ "." ++ k ++ "." ++ n,
    "crossplane.io/deletion-attempt-with-policy", fun text => "\"" ++ text ++ "\""⟩

/-- Collaborators for which the resource `v1/Bucket/b` is used by one Usage
whose `by` names a kind and holds no resolved reference, and every call
succeeds. -/
def exampleUnresolved : Collaborators :=
  ⟨fun _ => .ok ⟨"v1", "Bucket", "b", none⟩, fun _ => .ok ⟨none⟩,
    fun _ => .ok [⟨"u1", some ⟨"Cluster", none⟩, none⟩],
    fun _ _ => none, fun a k n => a ++ "." ++ k ++ "." ++ n,
    "crossplane.io/deletion-attempt-with-policy", fun text => "\"" ++ text ++ "\""⟩

end UsageWebhook

namespace Xfn

/-- Observed document `a: {b: 1, c: {d: 1, e: 2}}`. -/
def exampleRepeated : Object :=
  [("a", .map [("b", .scalar "1"), ("c", .map [("d", .scalar "1"), ("e", .scalar "2")])])]

/-- Observed document `metadata: {labels: {app: 1, tier: 2}}`. -/
def exampleLabels : Object :=
  [("metadata", .map [("labels", .map [("app", .scalar "1"), ("tier", .scalar "2")])])]

/-- Desired document `metadata: {labels: {tier: 2}}`. -/
def exampleLabelsDesired : Object :=
  [("metadata", .map [("labels", .map [("tier", .scalar "2")])])]

/-! # Theorems -/

/-! ## Facts about `Split` and `Join` -/

theorem splitChars_ne_nil (s : List Char) : splitChars s ≠ [] := by
  induction s with
  | nil => simp [splitChars]
  | cons c cs ih =>
    unfold splitChars
    split
    · simp
    · split
      · simp
      · simp

theorem splitChars_no_dot (s : List Char) : ∀ w ∈ splitChars s, '.' ∉ w := by
  induction s with
  | nil => simp [splitChars]
  | cons c cs ih =>
    unfold splitChars
    split
    · intro w hw
      rcases List.mem_cons.1 hw with h | h
      · simp [h]
      · exact ih w h
    · rename_i hc
      split
      · rename_i h; exact absurd h (splitChars_ne_nil cs)
      · rename_i w ws h
        rw [h] at ih
        intro x hx
        rcases List.mem_cons.1 hx with h1 | h1
        · subst h1
          have := ih w (List.mem_cons_self _ _)
          simp only [List.mem_cons, not_or]
          exact ⟨fun e => hc e.symm, this⟩
        · exact ih x (List.mem_cons_of_mem _ h1)

theorem joinChars_splitChars (s : List Char) : joinChars (splitChars s) = s := by
  induction s with
  | nil => simp [splitChars, joinChars]
  | cons c cs ih =>
    unfold splitChars
    split
    · rename_i hc
      cases h : splitChars cs with
      | nil => exact absurd h (splitChars_ne_nil cs)
      | cons w ws =>
        rw [h] at ih
        simp [joinChars, ih, hc]
    · split
      · rename_i h; exact absurd h (splitChars_ne_nil cs)
      · rename_i w ws h
        rw [h] at ih
        cases ws with
        | nil => simpa [joinChars] using ih
        | cons w2 ws2 =>
          simp only [joinChars] at ih ⊢
          simp [ih]

theorem splitChars_append_dot (w rest : List Char) (hw : '.' ∉ w) :
    splitChars (w ++ '.' :: rest) = w :: splitChars rest := by
  induction w with
  | nil => simp [splitChars]
  | cons c cs ih =>
    have hc : c ≠ '.' := fun e => hw (by simp [e])
    have hcs : '.' ∉ cs := fun e => hw (List.mem_cons_of_mem _ e)
    rw [List.cons_append, splitChars, if_neg hc, ih hcs]

theorem splitChars_of_no_dot (w : List Char) (hw : '.' ∉ w) : splitChars w = [w] := by
  induction w with
  | nil => simp [splitChars]
  | cons c cs ih =>
    have hc : c ≠ '.' := fun e => hw (by simp [e])
    have hcs : '.' ∉ cs := fun e => hw (List.mem_cons_of_mem _ e)
    simp only [splitChars, if_neg hc, ih hcs]

theorem splitChars_joinChars (ws : List (List Char)) (hne : ws ≠ [])
    (hws : ∀ w ∈ ws, '.' ∉ w) : splitChars (joinChars ws) = ws := by
  induction ws with
  | nil => exact absurd rfl hne
  | cons w rest ih =>
    cases rest with
    | nil => simpa [joinChars] using splitChars_of_no_dot w (hws w (List.mem_cons_self _ _))
    | cons w2 ws2 =>
      simp only [joinChars]
      rw [splitChars_append_dot w _ (hws w (List.mem_cons_self _ _)),
        ih (by simp) (fun x hx => hws x (List.mem_cons_of_mem _ hx))]

theorem Split_ne_nil (s : String) : Split s ≠ [] := by
  simp [Split, splitChars_ne_nil]

theorem Split_isSegment (s : String) : ∀ seg ∈ Split s, isSegment seg := by
  intro seg hseg
  simp only [Split, List.mem_map] at hseg
  obtain ⟨w, hw, rfl⟩ := hseg
  exact splitChars_no_dot _ w hw

theorem Join_Split (s : String) : Join (Split s) = s := by
  simp [Join, Split, List.map_map, Function.comp_def, joinChars_splitChars]

theorem Split_Join (parts : List String) (hne : parts ≠ [])
    (hseg : ∀ seg ∈ parts, isSegment seg) : Split (Join parts) = parts := by
  simp only [Split, Join]
  rw [splitChars_joinChars _ (by simpa using hne)]
  · simp [List.map_map, Function.comp_def]
  · intro w hw
    simp only [List.mem_map] at hw
    obtain ⟨seg, hs, rfl⟩ := hw
    exact hseg seg hs

theorem Split_injective {s t : String} (h : Split s = Split t) : s = t := by
  rw [← Join_Split s, ← Join_Split t, h]

/-! ## The accessor -/

theorem nestedFrom_found (fields : List String) :
    ∀ (val : Value) (i : Nat), (nestedFrom val fields i).2.1 = true →
      (nestedFrom val fields i).2.2 = none := by
  induction fields with
  | nil => intro val i _; cases val <;> rfl
  | cons field rest ih =>
    intro val i h
    cases val with
    | null => simp [nestedFrom] at h
    | scalar r => simp [nestedFrom] at h
    | seq xs => simp [nestedFrom] at h
    | map m =>
      simp only [nestedFrom] at h ⊢
      cases hg : mapGet m field with
      | none => simp [hg] at h
      | some v =>
        simp only [hg] at h ⊢
        exact ih v (i + 1) h

theorem NestedFieldNoCopy_found (obj : Object) (fields : List String)
    (h : (NestedFieldNoCopy obj fields).2.1 = true) :
    (NestedFieldNoCopy obj fields).2.2 = none :=
  nestedFrom_found fields _ _ h

/-! ## Missing-field detector -/

theorem findMissingFields_eq_filter (observed desired : Object) (ownedPaths : List String) :
    findMissingFields observed desired ownedPaths
      = ownedPaths.filter (isMissing observed desired) := by
  induction ownedPaths with
  | nil => rfl
  | cons path rest ih =>
    have ho := NestedFieldNoCopy_found observed (Split path)
    have hd := NestedFieldNoCopy_found desired (Split path)
    rw [findMissingFields, List.filter_cons, ← ih]
    simp only [isMissing, resolvesNonNull, absentOrNull]
    rcases Bool.eq_false_or_eq_true (NestedFieldNoCopy observed (Split path)).2.1 with h1 | h1 <;>
    rcases Bool.eq_false_or_eq_true (NestedFieldNoCopy desired (Split path)).2.1 with h2 | h2 <;>
    rcases Bool.eq_false_or_eq_true (NestedFieldNoCopy observed (Split path)).1.isNil with h3 | h3 <;>
    rcases Bool.eq_false_or_eq_true (NestedFieldNoCopy desired (Split path)).1.isNil with h4 | h4 <;>
      simp_all

/-- C1: `findMissingFields` is the owned list filtered, order and multiplicity
kept, by "non-null in observed and absent or null in desired"; so a path is in
the result iff it is owned and that predicate holds for it. -/
theorem findMissingFields_spec (observed desired : Object) (ownedPaths : List String) :
    findMissingFields observed desired ownedPaths
        = ownedPaths.filter (fun p => resolvesNonNull observed p && absentOrNull desired p)
      ∧ ∀ p, p ∈ findMissingFields observed desired ownedPaths
          ↔ p ∈ ownedPaths ∧ resolvesNonNull observed p = true ∧ absentOrNull desired p = true := by
  have h := findMissingFields_eq_filter observed desired ownedPaths
  refine ⟨h, fun p => ?_⟩
  rw [h, List.mem_filter]
  simp [isMissing]

/-! ## The compactor on inputs with at most one group -/

theorem collapsePass_few_groups (o : MapOrder) (observed desired : Object) (paths : List String)
    (h : (groupByParent [] paths).length ≤ 1) :
    collapsePass o observed desired paths
      = collapsePass MapOrder.insertion observed desired paths := by
  have hp := o.perm paths (groupByParent [] paths)
  have : o.order paths (groupByParent [] paths) = groupByParent [] paths := by
    match hg : groupByParent [] paths, h with
    | [], _ => rw [hg] at hp; exact List.Perm.eq_nil hp
    | [g], _ => rw [hg] at hp; exact List.perm_singleton.1 hp
    | _ :: _ :: _, h => simp at h
  simp only [collapsePass, this, MapOrder.insertion]

theorem replaceLoop_step (o : MapOrder) (observed desired : Object) (fuel : Nat)
    (paths result : List String) (hpass : collapsePass o observed desired paths = result)
    (hlen : result.length ≠ paths.length) :
    replaceLoop o observed desired (fuel + 1) paths = replaceLoop o observed desired fuel result := by
  subst hpass
  by_cases h0 : paths.length = 0
  · have : paths = [] := List.length_eq_zero.1 h0
    subst this
    exact absurd (by simp [collapsePass, groupByParent, processGroup,
      (o.perm [] []).eq_nil]) hlen
  · simp only [replaceLoop, h0, if_false, hlen, ne_eq, not_false_eq_true, if_true]

theorem replaceLoop_stop (o : MapOrder) (observed desired : Object) (fuel : Nat)
    (paths result : List String) (hpass : collapsePass o observed desired paths = result)
    (hlen : result.length = paths.length) :
    replaceLoop o observed desired (fuel + 1) paths = result := by
  subst hpass
  by_cases h0 : paths.length = 0
  · have : paths = [] := List.length_eq_zero.1 h0
    subst this
    simp [replaceLoop, collapsePass, groupByParent, (o.perm [] []).eq_nil]
  · simp only [replaceLoop, h0, if_false, hlen, ne_eq, not_true_eq_false]

/-- C2: on observed `a: {b: {c: 1}}` and an empty desired document the compactor
turns `[a.b.c]` into `[a.b]` and stops, and run again on `[a.b]` it returns
`[a]`: its output is not a fixed point. -/
theorem collapse_twice_differs (o1 o2 : MapOrder) :
    replaceWithParentIfAllSiblingsDeleted o1 exampleNested [] ["a.b.c"] = ["a.b"]
      ∧ replaceWithParentIfAllSiblingsDeleted o2 exampleNested []
          (replaceWithParentIfAllSiblingsDeleted o1 exampleNested [] ["a.b.c"]) = ["a"] := by
  have h1 : replaceWithParentIfAllSiblingsDeleted o1 exampleNested [] ["a.b.c"] = ["a.b"] := by
    simp only [replaceWithParentIfAllSiblingsDeleted, List.length_singleton, replaceLoop]
    rw [collapsePass_few_groups o1 _ _ _ (by decide)]
    decide
  refine ⟨h1, ?_⟩
  rw [h1]
  simp only [replaceWithParentIfAllSiblingsDeleted, List.length_singleton, replaceLoop]
  rw [collapsePass_few_groups o2 _ _ _ (by decide)]
  decide
/-- C4: on observed `a: {b: 1, c: 2}`, an empty desired document and the list
`[a.b, a.b]`, the compactor returns `[a]`: the child `c` of `a` exists in observed
and neither `a.c` nor a path below it is in the list, yet `a` replaces the
children, because the two copies of `a.b` are counted as two children. -/
theorem collapse_on_repeated_child (o : MapOrder) :
    replaceWithParentIfAllSiblingsDeleted o exampleTwoChildren [] ["a.b", "a.b"] = ["a"]
      ∧ (NestedFieldNoCopy exampleTwoChildren (Split "a.c")).2.1 = true := by
  refine ⟨?_, by decide⟩
  have h1 : collapsePass o exampleTwoChildren [] ["a.b", "a.b"] = ["a"] := by
    rw [collapsePass_few_groups o _ _ _ (by decide)]; decide
  have h2 : collapsePass o exampleTwoChildren [] ["a"] = ["a"] := by
    rw [collapsePass_few_groups o _ _ _ (by decide)]; decide
  show replaceLoop o exampleTwoChildren [] (1 + 1) ["a.b", "a.b"] = ["a"]
  rw [replaceLoop_step o _ _ _ _ _ h1 (by decide), replaceLoop_stop o _ _ _ _ _ h2 (by decide)]

/-- C6: on the list `[x, x]` of a repeated top-level path the compactor returns
`[x, x]`: the final loop appends every unprocessed path without marking it
processed, so the repetition stays. -/
theorem collapse_keeps_repeated_top_level (o : MapOrder) :
    replaceWithParentIfAllSiblingsDeleted o exampleTopLevel [] ["x", "x"] = ["x", "x"]
      ∧ ¬ (replaceWithParentIfAllSiblingsDeleted o exampleTopLevel [] ["x", "x"]).Nodup := by
  have h1 : collapsePass o exampleTopLevel [] ["x", "x"] = ["x", "x"] := by
    rw [collapsePass_few_groups o _ _ _ (by decide)]; decide
  have h : replaceWithParentIfAllSiblingsDeleted o exampleTopLevel [] ["x", "x"] = ["x", "x"] := by
    show replaceLoop o exampleTopLevel [] (1 + 1) ["x", "x"] = ["x", "x"]
    rw [replaceLoop_stop o _ _ _ _ _ h1 (by decide)]
  refine ⟨h, ?_⟩
  rw [h]
  decide

/-! ## Go maps -/

theorem mapGet_mapSet_self (m : Object) (k : String) (v : Value) :
    mapGet (mapSet m k v) k = some v := by
  induction m with
  | nil => simp [mapSet, mapGet]
  | cons kv rest ih =>
    obtain ⟨k1, v1⟩ := kv
    by_cases h : k1 = k
    · simp [mapSet, mapGet, h]
    · simp [mapSet, mapGet, h, ih]

theorem mapGet_mapSet_other (m : Object) (k k2 : String) (v : Value) (h : k ≠ k2) :
    mapGet (mapSet m k v) k2 = mapGet m k2 := by
  induction m with
  | nil => simp [mapSet, mapGet, h]
  | cons kv rest ih =>
    obtain ⟨k1, v1⟩ := kv
    by_cases h1 : k1 = k
    · subst h1
      simp [mapSet, mapGet, h]
    · by_cases h2 : k1 = k2
      · subst h2
        simp [mapSet, mapGet, h1]
      · simp [mapSet, mapGet, h1, h2, ih]

theorem mapSet_of_mapGet (m : Object) (k : String) (v : Value) (h : mapGet m k = some v) :
    mapSet m k v = m := by
  induction m with
  | nil => simp [mapGet] at h
  | cons kv rest ih =>
    obtain ⟨k1, v1⟩ := kv
    by_cases h1 : k1 = k
    · simp only [mapGet, h1, if_true, Option.some.injEq] at h
      simp [mapSet, h1, h]
    · simp only [mapGet, h1, if_false] at h
      simp [mapSet, h1, ih h]

/-! ## The applier on segments -/

theorem ensureParentPathFrom_nil_ok (path : List String) :
    ∀ i, (ensureParentPathFrom i [] path).2 = none := by
  induction path with
  | nil => intro i; rfl
  | cons segment rest ih =>
    intro i
    simp only [ensureParentPathFrom, mapGet]
    exact ih (i + 1)

/-- A failing `ensureParentPath` leaves the map as it was. -/
theorem ensureParentPathFrom_error (path : List String) :
    ∀ (i : Nat) (obj : Object), (ensureParentPathFrom i obj path).2 ≠ none →
      (ensureParentPathFrom i obj path).1 = obj := by
  induction path with
  | nil => intro i obj h; exact absurd rfl h
  | cons segment rest ih =>
    intro i obj h
    rw [ensureParentPathFrom] at h ⊢
    cases hg : mapGet obj segment with
    | none =>
      rw [hg] at h
      exact absurd (ensureParentPathFrom_nil_ok rest (i + 1)) h
    | some v =>
      cases v with
      | map m =>
        rw [hg] at h
        simp only at h ⊢
        rw [ih (i + 1) m h]
        exact mapSet_of_mapGet obj segment _ hg
      | null => rfl
      | scalar r => rfl
      | seq xs => rfl

theorem mapSet_mapSet_self (m : Object) (k : String) (v v2 : Value) :
    mapSet (mapSet m k v) k v2 = mapSet m k v2 := by
  induction m with
  | nil => simp [mapSet]
  | cons kv rest ih =>
    obtain ⟨k1, v1⟩ := kv
    by_cases h : k1 = k
    · simp [mapSet, h]
    · simp [mapSet, h, ih]

theorem writeNil_cons (obj : Object) (segment : String) (tail : List String) (h : tail ≠ []) :
    writeNil obj (segment :: tail)
      = match mapGet obj segment with
        | some (.map m) => (writeNil m tail).map (fun m1 => mapSet obj segment (.map m1))
        | some _ => none
        | none => (writeNil [] tail).map (fun m1 => mapSet obj segment (.map m1)) := by
  cases tail with
  | nil => exact absurd rfl h
  | cons next rest => rw [writeNil]

theorem dropLast_append_getLastD (l : List String) (d : String) (h : l ≠ []) :
    l.dropLast ++ [l.getLastD d] = l := by
  induction l generalizing d with
  | nil => exact absurd rfl h
  | cons a rest ih =>
    cases rest with
    | nil => simp
    | cons b rest2 =>
      have := ih a (by simp)
      simp only [List.dropLast_cons₂, List.cons_append, List.getLastD_cons] at this ⊢
      rw [this]

/-- Running `ensureParentPath` and then writing through the parent it ensured is
`writeNil` on the whole path. -/
theorem ensure_then_assign (path : List String) (fieldName : String) :
    ∀ (i j : Nat) (obj : Object),
      ((ensureParentPathFrom i obj path).2 = none →
        (∃ m, nestedFrom (.map (ensureParentPathFrom i obj path).1) path j = (.map m, true, none))
          ∧ writeNil obj (path ++ [fieldName])
              = some (assignNested (ensureParentPathFrom i obj path).1 path fieldName .null))
      ∧ ((ensureParentPathFrom i obj path).2 ≠ none →
          writeNil obj (path ++ [fieldName]) = none) := by
  induction path with
  | nil =>
    intro i j obj
    refine ⟨fun _ => ⟨⟨obj, rfl⟩, rfl⟩, fun h => absurd rfl h⟩
  | cons segment rest ih =>
    intro i j obj
    rw [List.cons_append, writeNil_cons obj segment _ (by simp), ensureParentPathFrom]
    cases hg : mapGet obj segment with
    | none =>
      obtain ⟨ih1, ih2⟩ := ih (i + 1) (j + 1) []
      simp only
      refine ⟨fun h => ?_, fun h => ?_⟩
      · obtain ⟨⟨m, hm⟩, hw⟩ := ih1 h
        refine ⟨⟨m, ?_⟩, ?_⟩
        · simp only [nestedFrom, mapGet_mapSet_self, hm]
        · simp only [hw, Option.map_some', assignNested, mapGet_mapSet_self, mapSet_mapSet_self]
      · exact absurd (ensureParentPathFrom_nil_ok rest (i + 1)) h
    | some v =>
      cases v with
      | map m0 =>
        obtain ⟨ih1, ih2⟩ := ih (i + 1) (j + 1) m0
        simp only
        refine ⟨fun h => ?_, fun h => ?_⟩
        · obtain ⟨⟨m, hm⟩, hw⟩ := ih1 h
          refine ⟨⟨m, ?_⟩, ?_⟩
          · simp only [nestedFrom, mapGet_mapSet_self, hm]
          · simp only [hw, Option.map_some', assignNested, mapGet_mapSet_self,
              mapSet_mapSet_self]
        · simp only [ih2 h, Option.map_none']
      | null => exact ⟨fun h => by simp at h, fun _ => rfl⟩
      | scalar r => exact ⟨fun h => by simp at h, fun _ => rfl⟩
      | seq xs => exact ⟨fun h => by simp at h, fun _ => rfl⟩

theorem setFieldToNil_unfold (obj : Object) (path : String) (hlen : 2 ≤ (Split path).length) :
    setFieldToNil obj path
      = match ensureParentPath obj (Split path).dropLast with
        | (obj1, some err) => (obj1, some (.wrapped "cannot ensure parent path for" path err))
        | (obj1, none) =>
          match NestedFieldNoCopy obj1 (Split path).dropLast with
          | (_, _, some err) => (obj1, some (.wrapped "cannot get parent for path" path err))
          | (_, false, none) => (obj1, none)
          | (.map _, true, none) =>
            (assignNested obj1 (Split path).dropLast ((Split path).getLastD "") .null, none)
          | (_, true, none) => (obj1, none) := by
  unfold setFieldToNil
  have hlen0 : ¬ (Split path).length = 0 := by omega
  have hlen1 : ¬ (Split path).length = 1 := by omega
  simp only [hlen0, hlen1, if_false]

/-- A successful iteration of `setFieldsToNil` is `writeNil` on the segments. -/
theorem setFieldToNil_of_writeNil_some (obj obj1 : Object) (path : String)
    (h : writeNil obj (Split path) = some obj1) : setFieldToNil obj path = (obj1, none) := by
  by_cases hlen : 2 ≤ (Split path).length
  · rw [setFieldToNil_unfold obj path hlen]
    have hsplit := dropLast_append_getLastD (Split path) "" (Split_ne_nil path)
    rw [← hsplit] at h
    obtain ⟨e1, e2⟩ := ensure_then_assign (Split path).dropLast ((Split path).getLastD "") 0 0 obj
    revert h e1 e2
    unfold ensureParentPath NestedFieldNoCopy
    generalize (Split path).dropLast = parent
    generalize (Split path).getLastD "" = fieldName
    rcases ensureParentPathFrom 0 obj parent with ⟨o1, err1⟩
    intro h e1 e2
    cases err1 with
    | some err => rw [e2 (by simp)] at h; exact absurd h (by simp)
    | none =>
      obtain ⟨⟨m, hm⟩, hw⟩ := e1 rfl
      rw [hw, Option.some.injEq] at h
      simp only at hm h
      simp only [hm, h]
  · unfold setFieldToNil
    cases hp : Split path with
    | nil => exact absurd hp (Split_ne_nil path)
    | cons k rest =>
      cases rest with
      | nil =>
        rw [hp] at h
        simp only [writeNil, Option.some.injEq] at h
        simp [h]
      | cons k2 rest2 => rw [hp] at hlen; simp at hlen

/-- A failing iteration of `setFieldsToNil` leaves the document as it was. -/
theorem setFieldToNil_of_writeNil_none (obj : Object) (path : String)
    (h : writeNil obj (Split path) = none) :
    (setFieldToNil obj path).1 = obj ∧ (setFieldToNil obj path).2 ≠ none := by
  by_cases hlen : 2 ≤ (Split path).length
  · rw [setFieldToNil_unfold obj path hlen]
    have hsplit := dropLast_append_getLastD (Split path) "" (Split_ne_nil path)
    rw [← hsplit] at h
    obtain ⟨e1, e2⟩ := ensure_then_assign (Split path).dropLast ((Split path).getLastD "") 0 0 obj
    have hatom := ensureParentPathFrom_error (Split path).dropLast 0 obj
    revert h e1 e2 hatom
    unfold ensureParentPath NestedFieldNoCopy
    generalize (Split path).dropLast = parent
    generalize (Split path).getLastD "" = fieldName
    rcases ensureParentPathFrom 0 obj parent with ⟨o1, err1⟩
    intro h e1 e2 hatom
    cases err1 with
    | none => rw [(e1 rfl).2] at h; exact absurd h (by simp)
    | some err =>
      have h1 := hatom (by simp)
      simp only at h1
      subst h1
      simp
  · cases hp : Split path with
    | nil => exact absurd hp (Split_ne_nil path)
    | cons k rest =>
      cases rest with
      | nil => rw [hp] at h; simp [writeNil] at h
      | cons k2 rest2 => rw [hp] at hlen; simp at hlen

/-! ## Lookups after one write -/

theorem nestedFrom_null (fields : List String) (i : Nat) (h : fields ≠ []) :
    nestedFrom .null fields i = (.null, false, none) := by
  cases fields with
  | nil => exact absurd rfl h
  | cons f rest => rfl

theorem nestedFrom_empty_map (fields : List String) (i : Nat) (h : fields ≠ []) :
    nestedFrom (.map []) fields i = (.null, false, none) := by
  cases fields with
  | nil => exact absurd rfl h
  | cons f rest => rfl

theorem nestedFrom_map_cons (m : Object) (field : String) (rest : List String) (i : Nat) :
    nestedFrom (.map m) (field :: rest) i
      = match mapGet m field with
        | none => (.null, false, none)
        | some v => nestedFrom v rest (i + 1) := by
  rw [nestedFrom]

/-- The first segment of a written path is rebound, nothing else is. -/
theorem writeNil_head (obj obj1 : Object) (segment : String) (tail : List String)
    (h : writeNil obj (segment :: tail) = some obj1) :
    ∃ v, obj1 = mapSet obj segment v
      ∧ (tail = [] → v = .null)
      ∧ (tail ≠ [] → ∃ m1, v = .map m1 ∧
          ((∃ m, mapGet obj segment = some (.map m) ∧ writeNil m tail = some m1)
            ∨ (mapGet obj segment = none ∧ writeNil [] tail = some m1))) := by
  cases tail with
  | nil =>
    simp only [writeNil, Option.some.injEq] at h
    exact ⟨.null, h.symm, fun _ => rfl, fun hne => absurd rfl hne⟩
  | cons next rest =>
    rw [writeNil] at h
    cases hg : mapGet obj segment with
    | none =>
      rw [hg] at h
      simp only [Option.map_eq_some'] at h
      obtain ⟨m1, hm1, rfl⟩ := h
      exact ⟨.map m1, rfl, fun hnil => by simp at hnil, fun _ => ⟨m1, rfl, Or.inr ⟨rfl, hm1⟩⟩⟩
    | some v =>
      cases v with
      | map m =>
        rw [hg] at h
        simp only [Option.map_eq_some'] at h
        obtain ⟨m1, hm1, rfl⟩ := h
        exact ⟨.map m1, rfl, fun hnil => by simp at hnil,
          fun _ => ⟨m1, rfl, Or.inl ⟨m, rfl, hm1⟩⟩⟩
      | null => rw [hg] at h; simp at h
      | scalar r => rw [hg] at h; simp at h
      | seq xs => rw [hg] at h; simp at h

/-- Frame of one write: a lookup along a path that neither lies on the written
path nor passes through it gives what it gave before. -/
theorem writeNil_frame (p : List String) :
    ∀ (obj obj1 : Object) (r : List String) (i : Nat), writeNil obj p = some obj1 →
      ¬ r <+: p → ¬ p <+: r →
      nestedFrom (.map obj1) r i = nestedFrom (.map obj) r i := by
  induction p with
  | nil => intro obj obj1 r i _ _ h2; exact absurd (List.nil_prefix) h2
  | cons k tail ih =>
    intro obj obj1 r i hw h1 h2
    cases r with
    | nil => exact absurd (List.nil_prefix) h1
    | cons k2 r2 =>
      obtain ⟨v, rfl, hv0, hv1⟩ := writeNil_head obj obj1 k tail hw
      rw [nestedFrom_map_cons, nestedFrom_map_cons]
      by_cases hk : k = k2
      · subst hk
        have h1' : ¬ r2 <+: tail := fun h => h1 ((List.prefix_cons_inj k).2 h)
        have h2' : ¬ tail <+: r2 := fun h => h2 ((List.prefix_cons_inj k).2 h)
        have htail : tail ≠ [] := fun h => h2' (h ▸ List.nil_prefix)
        have hr2 : r2 ≠ [] := fun h => h1' (h ▸ List.nil_prefix)
        obtain ⟨m1, rfl, hcase⟩ := hv1 htail
        rw [mapGet_mapSet_self]
        rcases hcase with ⟨m, hg, hm⟩ | ⟨hg, hm⟩
        · rw [hg]
          exact ih m m1 r2 (i + 1) hm h1' h2'
        · rw [hg]
          simp only
          rw [ih [] m1 r2 (i + 1) hm h1' h2', nestedFrom_empty_map r2 _ hr2]
      · rw [mapGet_mapSet_other obj k k2 v hk]

/-- After a write the written path holds the null marker under a key that exists. -/
theorem writeNil_at (p : List String) (hp : p ≠ []) :
    ∀ (obj obj1 : Object) (i : Nat), writeNil obj p = some obj1 →
      nestedFrom (.map obj1) p i = (.null, true, none) := by
  induction p with
  | nil => exact absurd rfl hp
  | cons k tail ih =>
    intro obj obj1 i hw
    obtain ⟨v, rfl, hv0, hv1⟩ := writeNil_head obj obj1 k tail hw
    rw [nestedFrom_map_cons, mapGet_mapSet_self]
    by_cases htail : tail = []
    · subst htail
      rw [hv0 rfl]
      rfl
    · obtain ⟨m1, rfl, hcase⟩ := hv1 htail
      rcases hcase with ⟨m, _, hm⟩ | ⟨_, hm⟩
      · exact ih htail m m1 (i + 1) hm
      · exact ih htail [] m1 (i + 1) hm

/-! ## The applier on a list of paths -/

theorem setFieldsToNil_cons_some (d d1 : Object) (p : String) (rest : List String)
    (h : writeNil d (Split p) = some d1) :
    setFieldsToNil d (p :: rest) = setFieldsToNil d1 rest := by
  rw [setFieldsToNil, setFieldToNil_of_writeNil_some d d1 p h]

theorem setFieldsToNil_cons_none (d : Object) (p : String) (rest : List String)
    (h : writeNil d (Split p) = none) :
    (setFieldsToNil d (p :: rest)).1 = d ∧ (setFieldsToNil d (p :: rest)).2 ≠ none := by
  obtain ⟨h1, h2⟩ := setFieldToNil_of_writeNil_none d p h
  rw [setFieldsToNil]
  rcases hs : setFieldToNil d p with ⟨o1, err⟩
  rw [hs] at h1 h2
  cases err with
  | none => exact absurd rfl h2
  | some e => exact ⟨h1, by simp⟩

theorem setFieldsToNil_frame_segments (P : List String) :
    ∀ (d : Object) (r : List String) (i : Nat),
      (∀ p ∈ P, ¬ Split p <+: r ∧ ¬ r <+: Split p) →
      nestedFrom (.map (setFieldsToNil d P).1) r i = nestedFrom (.map d) r i := by
  induction P with
  | nil => intro d r i _; rfl
  | cons p rest ih =>
    intro d r i h
    cases hw : writeNil d (Split p) with
    | none => rw [(setFieldsToNil_cons_none d p rest hw).1]
    | some d1 =>
      rw [setFieldsToNil_cons_some d d1 p rest hw,
        ih d1 r i (fun q hq => h q (List.mem_cons_of_mem _ hq))]
      have hp := h p (List.mem_cons_self _ _)
      exact writeNil_frame (Split p) d d1 r i hw hp.2 hp.1

/-- C9: a lookup along a path `r` that no planned path is a segment-prefix of
(or equal to) and that is a segment-prefix of no planned path gives, after
`setFieldsToNil`, what it gave before. -/
theorem setFieldsToNil_frame (d : Object) (P : List String) (r : String)
    (h : ∀ p ∈ P, ¬ Split p <+: Split r ∧ ¬ Split r <+: Split p) :
    NestedFieldNoCopy (setFieldsToNil d P).1 (Split r) = NestedFieldNoCopy d (Split r) :=
  setFieldsToNil_frame_segments P d (Split r) 0 h

theorem setFieldsToNil_frame_witness :
    (∀ p ∈ ["a.b"], ¬ Split p <+: Split "a.c" ∧ ¬ Split "a.c" <+: Split p)
      ∧ NestedFieldNoCopy (setFieldsToNil exampleTwoChildren ["a.b"]).1 (Split "a.c")
          = NestedFieldNoCopy exampleTwoChildren (Split "a.c") :=
  ⟨by decide, setFieldsToNil_frame exampleTwoChildren ["a.b"] "a.c" (by decide)⟩

theorem setFieldsToNil_null_of_antichain (P : List String) :
    ∀ (d : Object), (setFieldsToNil d P).2 = none →
      (∀ p ∈ P, ∀ q ∈ P, Split p <+: Split q → p = q) →
      ∀ p ∈ P, NestedFieldNoCopy (setFieldsToNil d P).1 (Split p) = (.null, true, none) := by
  induction P with
  | nil => intro d _ _ p hp; simp at hp
  | cons p0 rest ih =>
    intro d hok hanti p hp
    cases hw : writeNil d (Split p0) with
    | none => exact absurd hok (setFieldsToNil_cons_none d p0 rest hw).2
    | some d1 =>
      rw [setFieldsToNil_cons_some d d1 p0 rest hw] at hok ⊢
      by_cases hmem : p ∈ rest
      · exact ih d1 hok (fun a ha b hb => hanti a (List.mem_cons_of_mem _ ha) b
          (List.mem_cons_of_mem _ hb)) p hmem
      · have hpe : p = p0 := by
          rcases List.mem_cons.1 hp with h | h
          · exact h
          · exact absurd h hmem
        subst hpe
        unfold NestedFieldNoCopy
        rw [setFieldsToNil_frame_segments rest d1 (Split p) 0 ?_]
        · exact writeNil_at (Split p) (Split_ne_nil p) d d1 0 hw
        · intro q hq
          refine ⟨fun hpre => ?_, fun hpre => ?_⟩
          · have := hanti q (List.mem_cons_of_mem _ hq) p (List.mem_cons_self _ _) hpre
            exact hmem (this ▸ hq)
          · have := hanti p (List.mem_cons_self _ _) q (List.mem_cons_of_mem _ hq) hpre
            exact hmem (this ▸ hq)

/-- C8, as stated, fails: `setFieldsToNil` on the empty document and the list
`[a.b, a]` returns no error, and afterwards `a.b` is not found (its parent `a`
holds the null marker). -/
theorem setFieldsToNil_descendant_lost :
    (setFieldsToNil [] ["a.b", "a"]).2 = none
      ∧ "a.b" ∈ ["a.b", "a"]
      ∧ (NestedFieldNoCopy (setFieldsToNil [] ["a.b", "a"]).1 (Split "a.b")).2.1 = false := by
  decide

/-- C8, amended: when `setFieldsToNil` returns no error and no path of the list
is a proper segment-prefix of another, every path of the list afterwards
resolves to a key that exists and holds the null marker. -/
theorem setFieldsToNil_leaves_null (d : Object) (P : List String)
    (hok : (setFieldsToNil d P).2 = none)
    (hanti : ∀ p ∈ P, ∀ q ∈ P, Split p <+: Split q → p = q) :
    ∀ p ∈ P, NestedFieldNoCopy (setFieldsToNil d P).1 (Split p) = (.null, true, none) :=
  setFieldsToNil_null_of_antichain P d hok hanti

theorem setFieldsToNil_leaves_null_witness :
    (setFieldsToNil exampleTwoChildren ["a.b", "x.y"]).2 = none
      ∧ (∀ p ∈ ["a.b", "x.y"], ∀ q ∈ ["a.b", "x.y"], Split p <+: Split q → p = q)
      ∧ ∀ p ∈ ["a.b", "x.y"],
          NestedFieldNoCopy (setFieldsToNil exampleTwoChildren ["a.b", "x.y"]).1 (Split p)
            = (.null, true, none) :=
  ⟨by decide, by decide,
    setFieldsToNil_leaves_null exampleTwoChildren ["a.b", "x.y"] (by decide) (by decide)⟩

/-! ## One write, as seen by lookups -/

theorem nestedFrom_append (a b : List String) :
    ∀ (val : Value) (i : Nat),
      nestedFrom val (a ++ b) i
        = if (nestedFrom val a i).2.1 = true then
            nestedFrom (nestedFrom val a i).1 b (i + a.length)
          else nestedFrom val a i := by
  induction a with
  | nil => intro val i; simp [nestedFrom]
  | cons k rest ih =>
    intro val i
    cases val with
    | null => simp [nestedFrom]
    | scalar r => simp [nestedFrom]
    | seq xs => simp [nestedFrom]
    | map m =>
      rw [List.cons_append, nestedFrom_map_cons, nestedFrom_map_cons]
      cases hg : mapGet m k with
      | none => simp
      | some v =>
        simp only [ih v (i + 1), List.length_cons]
        have : i + 1 + rest.length = i + (rest.length + 1) := by omega
        rw [this]

/-- After a write every proper prefix of the written path is a mapping. -/
theorem writeNil_above (p : List String) :
    ∀ (obj obj1 : Object) (r : List String) (i : Nat), writeNil obj p = some obj1 →
      r <+: p → r ≠ p → ∃ m, nestedFrom (.map obj1) r i = (.map m, true, none) := by
  induction p with
  | nil => intro obj obj1 r i _ h1 h2; exact absurd (List.prefix_nil.1 h1) h2
  | cons k tail ih =>
    intro obj obj1 r i hw h1 h2
    cases r with
    | nil => exact ⟨obj1, rfl⟩
    | cons k2 r2 =>
      obtain ⟨rfl, h1'⟩ := List.cons_prefix_cons.1 h1
      have h2' : r2 ≠ tail := fun h => h2 (by rw [h])
      have htail : tail ≠ [] := fun h => h2' (by subst h; exact List.prefix_nil.1 h1')
      obtain ⟨v, rfl, _, hv1⟩ := writeNil_head obj obj1 k2 tail hw
      obtain ⟨m1, rfl, hcase⟩ := hv1 htail
      rw [nestedFrom_map_cons, mapGet_mapSet_self]
      rcases hcase with ⟨m, _, hm⟩ | ⟨_, hm⟩
      · exact ih m m1 r2 (i + 1) hm h1' h2'
      · exact ih [] m1 r2 (i + 1) hm h1' h2'

/-- After a write nothing is found below the written path. -/
theorem writeNil_below (p : List String) (hp : p ≠ []) (obj obj1 : Object) (r : List String)
    (i : Nat) (hw : writeNil obj p = some obj1) (h1 : p <+: r) (h2 : r ≠ p) :
    nestedFrom (.map obj1) r i = (.null, false, none) := by
  obtain ⟨s, rfl⟩ := h1
  have hs : s ≠ [] := fun h => h2 (by simp [h])
  rw [nestedFrom_append, writeNil_at p hp obj obj1 i hw]
  simp only [if_true]
  exact nestedFrom_null s _ hs

theorem observe_after_write (d d1 : Object) (p : List String) (hp : p ≠ [])
    (hw : writeNil d p = some d1) : observe d1 = observeAfterWrite (observe d) p := by
  funext r
  unfold observeAfterWrite observe NestedFieldNoCopy
  by_cases h1 : r <+: p
  · by_cases h2 : r = p
    · subst h2
      simp [writeNil_at r hp d d1 0 hw, Value.kind]
    · obtain ⟨m, hm⟩ := writeNil_above p d d1 r 0 hw h1 h2
      simp [h1, h2, hm, Value.kind]
  · by_cases h3 : p <+: r
    · have h2 : r ≠ p := fun h => h1 (h ▸ List.prefix_refl _)
      simp [h1, h3, writeNil_below p hp d d1 r 0 hw h3 h2, Value.kind]
    · simp [h1, h3, writeNil_frame p d d1 r 0 hw h1 h3]

theorem writeNil_none_iff (p : List String) :
    ∀ (d : Object) (i : Nat),
      writeNil d p = none ↔
        ∃ r, r <+: p ∧ r ≠ p ∧ (nestedFrom (.map d) r i).2.1 = true
          ∧ (nestedFrom (.map d) r i).1.kind ≠ .map := by
  induction p with
  | nil =>
    intro d i
    constructor
    · intro h; simp [writeNil] at h
    · rintro ⟨r, h1, h2, _⟩; exact absurd (List.prefix_nil.1 h1) h2
  | cons k tail ih =>
    intro d i
    by_cases htail : tail = []
    · subst htail
      constructor
      · intro h; simp [writeNil] at h
      · rintro ⟨r, h1, h2, _, h4⟩
        cases r with
        | nil => simp [nestedFrom, Value.kind] at h4
        | cons k2 r2 =>
          obtain ⟨rfl, h1'⟩ := List.cons_prefix_cons.1 h1
          exact absurd (by rw [List.prefix_nil.1 h1']) h2
    · rw [writeNil_cons d k tail htail]
      constructor
      · intro h
        cases hg : mapGet d k with
        | none =>
          rw [hg] at h
          simp only [Option.map_eq_none'] at h
          obtain ⟨r, h1, h2, h3, _⟩ := (ih [] (i + 1)).1 h
          cases r with
          | nil => rename_i h4; simp [nestedFrom, Value.kind] at h4
          | cons k2 r2 => simp [nestedFrom, mapGet] at h3
        | some v =>
          cases v with
          | map m =>
            rw [hg] at h
            simp only [Option.map_eq_none'] at h
            obtain ⟨r, h1, h2, h3, h4⟩ := (ih m (i + 1)).1 h
            refine ⟨k :: r, (List.prefix_cons_inj k).2 h1, fun e => h2 (List.cons.inj e).2, ?_, ?_⟩
            · rw [nestedFrom_map_cons, hg]; exact h3
            · rw [nestedFrom_map_cons, hg]; exact h4
          | null =>
            refine ⟨[k], by simp, by simpa using Ne.symm htail, ?_, ?_⟩ <;>
              simp [nestedFrom, hg, Value.kind]
          | scalar s =>
            refine ⟨[k], by simp, by simpa using Ne.symm htail, ?_, ?_⟩ <;>
              simp [nestedFrom, hg, Value.kind]
          | seq xs =>
            refine ⟨[k], by simp, by simpa using Ne.symm htail, ?_, ?_⟩ <;>
              simp [nestedFrom, hg, Value.kind]
      · rintro ⟨r, h1, h2, h3, h4⟩
        cases r with
        | nil => simp [nestedFrom, Value.kind] at h4
        | cons k2 r2 =>
          obtain ⟨rfl, h1'⟩ := List.cons_prefix_cons.1 h1
          have h2' : r2 ≠ tail := fun h => h2 (by rw [h])
          rw [nestedFrom_map_cons] at h3 h4
          cases hg : mapGet d k2 with
          | none => rw [hg] at h3; simp at h3
          | some v =>
            rw [hg] at h3 h4
            simp only at h3 h4
            cases v with
            | map m =>
              simp only [Option.map_eq_none']
              exact (ih m (i + 1)).2 ⟨r2, h1', h2', h3, h4⟩
            | null => rfl
            | scalar s => rfl
            | seq xs => rfl

theorem writeNil_none_iff_writeFails (d : Object) (p : List String) :
    writeNil d p = none ↔ writeFails (observe d) p :=
  writeNil_none_iff p d 0

/-! ## Two writes commute when neither path lies on the other -/

theorem writeFails_after (f : List String → Kind × Bool × Option Error) (p q : List String)
    (hpq : p <+: q → p = q) (hp : ¬ writeFails f p) :
    writeFails (observeAfterWrite f p) q ↔ writeFails f q := by
  constructor
  · rintro ⟨r, h1, h2, h3, h4⟩
    unfold observeAfterWrite at h3 h4
    by_cases hrp : r <+: p
    · by_cases hre : r = p
      · subst hre
        exact absurd (hpq h1) h2
      · simp [hrp, hre] at h4
    · by_cases hpr : p <+: r
      · simp [hrp, hpr] at h3
      · simp only [hrp, hpr, if_false] at h3 h4
        exact ⟨r, h1, h2, h3, h4⟩
  · rintro ⟨r, h1, h2, h3, h4⟩
    have hrp : ¬ r <+: p := by
      intro hrp
      by_cases hre : r = p
      · subst hre
        exact h2 (hpq h1)
      · exact hp ⟨r, hrp, hre, h3, h4⟩
    have hpr : ¬ p <+: r := by
      intro hpr
      have := hpq (hpr.trans h1)
      subst this
      exact hrp h1
    refine ⟨r, h1, h2, ?_, ?_⟩ <;> simp [observeAfterWrite, hrp, hpr, h3, h4]

theorem observeAfterWrite_comm (f : List String → Kind × Bool × Option Error)
    (p q : List String) (hpq : ¬ p <+: q) (hqp : ¬ q <+: p) :
    observeAfterWrite (observeAfterWrite f p) q
      = observeAfterWrite (observeAfterWrite f q) p := by
  funext r
  unfold observeAfterWrite
  have hne : ¬ q = p := fun h => hqp (h ▸ List.prefix_refl _)
  by_cases heq : r = q
  · subst heq
    simp [hqp, hpq, hne]
  · by_cases hep : r = p
    · subst hep
      simp [hqp, hpq, heq]
    · by_cases hrq : r <+: q <;> by_cases hrp : r <+: p <;> by_cases hqr : q <+: r <;>
        by_cases hpr : p <+: r <;>
        simp only [hrq, hrp, hqr, hpr, heq, hep, if_true, if_false] <;>
        first
        | rfl
        | exact absurd (hqr.trans hrp) hqp
        | exact absurd (hpr.trans hrq) hpq

theorem sameDocument_refl (d : Object) : sameDocument d d := fun _ => rfl

theorem sameDocument_trans {d1 d2 d3 : Object} (h1 : sameDocument d1 d2)
    (h2 : sameDocument d2 d3) : sameDocument d1 d3 := fun r => (h1 r).trans (h2 r)

theorem sameDocument_iff (d1 d2 : Object) : sameDocument d1 d2 ↔ observe d1 = observe d2 :=
  ⟨fun h => funext h, fun h r => congrFun h r⟩

theorem runsAgree_refl (x : Object × Option Error) : runsAgree x x :=
  ⟨Iff.rfl, fun _ => sameDocument_refl _⟩

theorem runsAgree_trans {x y z : Object × Option Error} (h1 : runsAgree x y)
    (h2 : runsAgree y z) : runsAgree x z :=
  ⟨h1.1.trans h2.1, fun h => sameDocument_trans (h1.2 h) (h2.2 (h1.1.1 h))⟩

theorem runsAgree_of_errors {x y : Object × Option Error} (hx : x.2 ≠ none) (hy : y.2 ≠ none) :
    runsAgree x y :=
  ⟨⟨fun h => absurd h hx, fun h => absurd h hy⟩, fun h => absurd h hx⟩

/-- The applier treats two copies of the same unordered mapping alike. -/
theorem setFieldsToNil_congr (P : List String) :
    ∀ (d1 d2 : Object), sameDocument d1 d2 →
      runsAgree (setFieldsToNil d1 P) (setFieldsToNil d2 P) := by
  induction P with
  | nil => intro d1 d2 h; exact ⟨Iff.rfl, fun _ => h⟩
  | cons p rest ih =>
    intro d1 d2 h
    have hobs := (sameDocument_iff d1 d2).1 h
    cases hw1 : writeNil d1 (Split p) with
    | none =>
      have hw2 : writeNil d2 (Split p) = none := by
        rw [writeNil_none_iff_writeFails, ← hobs, ← writeNil_none_iff_writeFails]; exact hw1
      exact runsAgree_of_errors (setFieldsToNil_cons_none d1 p rest hw1).2
        (setFieldsToNil_cons_none d2 p rest hw2).2
    | some e1 =>
      cases hw2 : writeNil d2 (Split p) with
      | none =>
        rw [writeNil_none_iff_writeFails, ← hobs, ← writeNil_none_iff_writeFails, hw1] at hw2
        exact absurd hw2 (by simp)
      | some e2 =>
        rw [setFieldsToNil_cons_some d1 e1 p rest hw1, setFieldsToNil_cons_some d2 e2 p rest hw2]
        apply ih
        rw [sameDocument_iff, observe_after_write d1 e1 _ (Split_ne_nil p) hw1,
          observe_after_write d2 e2 _ (Split_ne_nil p) hw2, hobs]

theorem setFieldsToNil_append (A B : List String) :
    ∀ (d : Object),
      setFieldsToNil d (A ++ B)
        = if (setFieldsToNil d A).2 = none then setFieldsToNil (setFieldsToNil d A).1 B
          else setFieldsToNil d A := by
  induction A with
  | nil => intro d; simp [setFieldsToNil]
  | cons p rest ih =>
    intro d
    cases hw : writeNil d (Split p) with
    | some d1 =>
      rw [List.cons_append, setFieldsToNil_cons_some d d1 p _ hw,
        setFieldsToNil_cons_some d d1 p _ hw, ih d1]
    | none =>
      have h1 := setFieldToNil_of_writeNil_none d p hw
      rw [List.cons_append, setFieldsToNil, setFieldsToNil]
      rcases hs : setFieldToNil d p with ⟨o1, err⟩
      rw [hs] at h1
      cases err with
      | none => exact absurd rfl h1.2
      | some e => simp

theorem runsAgree_append (A A2 B : List String) (d : Object)
    (h : runsAgree (setFieldsToNil d A) (setFieldsToNil d A2)) :
    runsAgree (setFieldsToNil d (A ++ B)) (setFieldsToNil d (A2 ++ B)) := by
  rw [setFieldsToNil_append, setFieldsToNil_append]
  by_cases h1 : (setFieldsToNil d A).2 = none
  · have h2 := h.1.1 h1
    rw [if_pos h1, if_pos h2]
    exact setFieldsToNil_congr B _ _ (h.2 h1)
  · have h2 : ¬ (setFieldsToNil d A2).2 = none := fun e => h1 (h.1.2 e)
    rw [if_neg h1, if_neg h2]
    exact runsAgree_of_errors h1 h2

theorem setFieldsToNil_single (d : Object) (p : String) :
    (∀ d1, writeNil d (Split p) = some d1 → setFieldsToNil d [p] = (d1, none))
      ∧ (writeNil d (Split p) = none → (setFieldsToNil d [p]).2 ≠ none) := by
  refine ⟨fun d1 h => ?_, fun h => (setFieldsToNil_cons_none d p [] h).2⟩
  rw [setFieldsToNil_cons_some d d1 p [] h]
  rfl

/-- Writing two paths, neither a proper segment-prefix of the other, in either
order. -/
theorem setFieldsToNil_swap (d : Object) (p q : String)
    (hpq : Split p <+: Split q → p = q) (hqp : Split q <+: Split p → q = p) :
    runsAgree (setFieldsToNil d [p, q]) (setFieldsToNil d [q, p]) := by
  by_cases he : p = q
  · subst he; exact runsAgree_refl _
  have hpq1 : ¬ Split p <+: Split q := fun h => he (hpq h)
  have hqp1 : ¬ Split q <+: Split p := fun h => he (hqp h).symm
  have hpq2 : Split p <+: Split q → Split p = Split q := fun h => absurd h hpq1
  have hqp2 : Split q <+: Split p → Split q = Split p := fun h => absurd h hqp1
  cases hwp : writeNil d (Split p) with
  | none =>
    have hfp := (writeNil_none_iff_writeFails d _).1 hwp
    cases hwq : writeNil d (Split q) with
    | none =>
      exact runsAgree_of_errors (setFieldsToNil_cons_none d p _ hwp).2
        (setFieldsToNil_cons_none d q _ hwq).2
    | some dq =>
      have hfq : ¬ writeFails (observe d) (Split q) := by
        rw [← writeNil_none_iff_writeFails, hwq]; simp
      have : writeNil dq (Split p) = none := by
        rw [writeNil_none_iff_writeFails, observe_after_write d dq _ (Split_ne_nil q) hwq,
          writeFails_after _ _ _ hqp2 hfq]
        exact hfp
      refine runsAgree_of_errors (setFieldsToNil_cons_none d p _ hwp).2 ?_
      rw [setFieldsToNil_cons_some d dq q _ hwq]
      exact (setFieldsToNil_single dq p).2 this
  | some dp =>
    have hfp : ¬ writeFails (observe d) (Split p) := by
      rw [← writeNil_none_iff_writeFails, hwp]; simp
    have hop := observe_after_write d dp _ (Split_ne_nil p) hwp
    cases hwq : writeNil d (Split q) with
    | none =>
      have hfq := (writeNil_none_iff_writeFails d _).1 hwq
      have : writeNil dp (Split q) = none := by
        rw [writeNil_none_iff_writeFails, hop, writeFails_after _ _ _ hpq2 hfp]
        exact hfq
      refine runsAgree_of_errors ?_ (setFieldsToNil_cons_none d q _ hwq).2
      rw [setFieldsToNil_cons_some d dp p _ hwp]
      exact (setFieldsToNil_single dp q).2 this
    | some dq =>
      have hfq : ¬ writeFails (observe d) (Split q) := by
        rw [← writeNil_none_iff_writeFails, hwq]; simp
      have hoq := observe_after_write d dq _ (Split_ne_nil q) hwq
      have h1 : writeNil dp (Split q) ≠ none := by
        rw [Ne, writeNil_none_iff_writeFails, hop, writeFails_after _ _ _ hpq2 hfp]
        exact hfq
      have h2 : writeNil dq (Split p) ≠ none := by
        rw [Ne, writeNil_none_iff_writeFails, hoq, writeFails_after _ _ _ hqp2 hfq]
        exact hfp
      obtain ⟨dpq, hdpq⟩ := Option.ne_none_iff_exists'.1 h1
      obtain ⟨dqp, hdqp⟩ := Option.ne_none_iff_exists'.1 h2
      rw [setFieldsToNil_cons_some d dp p _ hwp, setFieldsToNil_cons_some d dq q _ hwq,
        (setFieldsToNil_single dp q).1 dpq hdpq, (setFieldsToNil_single dq p).1 dqp hdqp]
      refine ⟨Iff.rfl, fun _ => ?_⟩
      show sameDocument dpq dqp
      rw [sameDocument_iff, observe_after_write dp dpq _ (Split_ne_nil q) hdpq,
        observe_after_write dq dqp _ (Split_ne_nil p) hdqp, hop, hoq]
      exact observeAfterWrite_comm _ _ _ hpq1 hqp1

theorem setFieldsToNil_perm_agree {P P2 : List String} (hperm : P.Perm P2) :
    ∀ (d : Object), noAncestorPair P →
      runsAgree (setFieldsToNil d P) (setFieldsToNil d P2) := by
  induction hperm with
  | nil => intro d _; exact runsAgree_refl _
  | cons x _ ih =>
    rename_i l1 l2
    intro d hanti
    cases hw : writeNil d (Split x) with
    | none =>
      exact runsAgree_of_errors (setFieldsToNil_cons_none d x _ hw).2
        (setFieldsToNil_cons_none d x _ hw).2
    | some d1 =>
      rw [setFieldsToNil_cons_some d d1 x _ hw, setFieldsToNil_cons_some d d1 x _ hw]
      exact ih d1 (fun a ha b hb => hanti a (List.mem_cons_of_mem _ ha) b
        (List.mem_cons_of_mem _ hb))
  | swap x y l =>
    intro d hanti
    have hy : y ∈ y :: x :: l := List.mem_cons_self _ _
    have hx : x ∈ y :: x :: l := List.mem_cons_of_mem _ (List.mem_cons_self _ _)
    exact runsAgree_append [y, x] [x, y] l d
      (setFieldsToNil_swap d y x (hanti y hy x hx) (hanti x hx y hy))
  | trans h1 _ ih1 ih2 =>
    intro d hanti
    refine runsAgree_trans (ih1 d hanti) (ih2 d ?_)
    intro a ha b hb
    exact hanti a (h1.mem_iff.2 ha) b (h1.mem_iff.2 hb)

/-- C10, as stated, fails: `[a, a.b]` and `[a.b, a]` are permutations of each
other, and on the empty document `setFieldsToNil` returns an error for the
first and none for the second. -/
theorem setFieldsToNil_order_matters :
    ["a", "a.b"].Perm ["a.b", "a"]
      ∧ (setFieldsToNil [] ["a", "a.b"]).2 ≠ none
      ∧ (setFieldsToNil [] ["a.b", "a"]).2 = none :=
  ⟨List.Perm.swap _ _ _, by decide, by decide⟩

/-- C10, amended: for two path lists that are permutations of each other and in
which no path is a proper segment-prefix of another, `setFieldsToNil` returns an
error for both or for neither, and when it succeeds it leaves the same document
(the same unordered mapping). -/
theorem setFieldsToNil_perm (d : Object) (P P2 : List String) (hperm : P.Perm P2)
    (hanti : noAncestorPair P) :
    ((setFieldsToNil d P).2 = none ↔ (setFieldsToNil d P2).2 = none)
      ∧ ((setFieldsToNil d P).2 = none →
          sameDocument (setFieldsToNil d P).1 (setFieldsToNil d P2).1) :=
  setFieldsToNil_perm_agree hperm d hanti

theorem setFieldsToNil_perm_witness :
    ["a.b", "x.y"].Perm ["x.y", "a.b"] ∧ noAncestorPair ["a.b", "x.y"]
      ∧ ((setFieldsToNil exampleTwoChildren ["a.b", "x.y"]).2 = none
          ↔ (setFieldsToNil exampleTwoChildren ["x.y", "a.b"]).2 = none)
      ∧ ((setFieldsToNil exampleTwoChildren ["a.b", "x.y"]).2 = none →
          sameDocument (setFieldsToNil exampleTwoChildren ["a.b", "x.y"]).1
            (setFieldsToNil exampleTwoChildren ["x.y", "a.b"]).1) :=
  ⟨List.Perm.swap _ _ _, by unfold noAncestorPair; decide,
    setFieldsToNil_perm exampleTwoChildren ["a.b", "x.y"] ["x.y", "a.b"]
      (List.Perm.swap _ _ _) (by unfold noAncestorPair; decide)⟩

/-! ## Grouping by parent -/

theorem groupByParent_cons (pm : List parentInfo) (path : String) (paths : List String) :
    groupByParent pm (path :: paths)
      = match parentOf path with
        | none => groupByParent pm paths
        | some q => groupByParent (addChild pm q path) paths := by
  rw [groupByParent, parentOf]
  by_cases h : (Split path).length ≤ 1 <;> simp [h]

theorem childrenOf_addChild (pm : List parentInfo) (q c q2 : String) :
    childrenOf (addChild pm q c) q2
      = if q2 = q then childrenOf pm q ++ [c] else childrenOf pm q2 := by
  induction pm with
  | nil =>
    by_cases h : q2 = q
    · subst h; simp [addChild, childrenOf]
    · have : ¬ q = q2 := fun e => h e.symm
      simp [addChild, childrenOf, h, this]
  | cons info rest ih =>
    by_cases h1 : info.parent = q
    · by_cases h2 : q2 = q
      · subst h2; simp [addChild, childrenOf, h1]
      · have : ¬ q = q2 := fun e => h2 e.symm
        subst h1
        simp [addChild, childrenOf, h2, this]
    · by_cases h2 : q2 = q
      · subst h2
        simp [addChild, childrenOf, h1, ih]
      · by_cases h3 : info.parent = q2
        · simp [addChild, childrenOf, h1, h2, h3]
        · simp [addChild, childrenOf, h1, h2, h3, ih]

theorem parents_addChild (pm : List parentInfo) (q c : String) :
    (addChild pm q c).map parentInfo.parent
      = if q ∈ pm.map parentInfo.parent then pm.map parentInfo.parent
        else pm.map parentInfo.parent ++ [q] := by
  induction pm with
  | nil => simp [addChild]
  | cons info rest ih =>
    by_cases h1 : info.parent = q
    · simp [addChild, h1]
    · have : ¬ q = info.parent := fun e => h1 e.symm
      simp only [addChild, h1, if_false, List.map_cons, ih, List.mem_cons, this, false_or]
      split <;> simp

theorem parents_addChild_nodup (pm : List parentInfo) (q c : String)
    (h : (pm.map parentInfo.parent).Nodup) :
    ((addChild pm q c).map parentInfo.parent).Nodup := by
  rw [parents_addChild]
  split
  · exact h
  · rename_i hq
    exact List.Nodup.append h (List.nodup_singleton q) (by simpa using hq)

theorem childrenOf_of_mem (pm : List parentInfo) (h : (pm.map parentInfo.parent).Nodup)
    (g : parentInfo) (hg : g ∈ pm) : childrenOf pm g.parent = g.children := by
  induction pm with
  | nil => simp at hg
  | cons info rest ih =>
    rw [List.map_cons, List.nodup_cons] at h
    rcases List.mem_cons.1 hg with rfl | hmem
    · simp [childrenOf]
    · have : info.parent ≠ g.parent := by
        intro e
        exact h.1 (e ▸ List.mem_map_of_mem _ hmem)
      simp only [childrenOf, this, if_false]
      exact ih h.2 hmem

theorem groupByParent_facts (paths : List String) :
    ∀ (pm : List parentInfo), (pm.map parentInfo.parent).Nodup →
      ((groupByParent pm paths).map parentInfo.parent).Nodup
        ∧ (∀ q, childrenOf (groupByParent pm paths) q
            = childrenOf pm q ++ paths.filter (fun c => decide (parentOf c = some q)))
        ∧ (∀ q, q ∈ (groupByParent pm paths).map parentInfo.parent
            ↔ q ∈ pm.map parentInfo.parent ∨ ∃ c ∈ paths, parentOf c = some q) := by
  induction paths with
  | nil => intro pm h; simp [groupByParent, h]
  | cons path rest ih =>
    intro pm h
    rw [groupByParent_cons]
    cases hp : parentOf path with
    | none =>
      obtain ⟨h1, h2, h3⟩ := ih pm h
      refine ⟨h1, fun q => ?_, fun q => ?_⟩
      · rw [h2 q, List.filter_cons]
        simp [hp]
      · rw [h3 q]
        simp [hp]
    | some q0 =>
      obtain ⟨h1, h2, h3⟩ := ih (addChild pm q0 path) (parents_addChild_nodup pm q0 path h)
      refine ⟨h1, fun q => ?_, fun q => ?_⟩
      · simp only
        rw [h2 q, childrenOf_addChild, List.filter_cons]
        by_cases hq : q = q0
        · subst hq; simp [hp]
        · have : ¬ q0 = q := fun e => hq e.symm
          simp [hq, hp, this]
      · simp only
        rw [h3 q, parents_addChild]
        by_cases hq : q = q0
        · subst hq
          constructor
          · intro _; exact Or.inr ⟨path, List.mem_cons_self _ _, hp⟩
          · intro _
            left
            split
            · assumption
            · simp
        · have hne : ¬ q0 = q := fun e => hq e.symm
          constructor
          · rintro (hm | ⟨c, hc, hpc⟩)
            · left
              split at hm
              · exact hm
              · simpa [hq] using hm
            · exact Or.inr ⟨c, List.mem_cons_of_mem _ hc, hpc⟩
          · rintro (hm | ⟨c, hc, hpc⟩)
            · left
              split
              · exact hm
              · simp [hm]
            · rcases List.mem_cons.1 hc with rfl | hc2
              · rw [hp] at hpc
                exact absurd (Option.some.inj hpc) hne
              · exact Or.inr ⟨c, hc2, hpc⟩

/-- The groups of a path list: one per parent, holding, in order, the paths of
the list under that parent. -/
theorem groups_spec (paths : List String) :
    ((groupByParent [] paths).map parentInfo.parent).Nodup
      ∧ (∀ g ∈ groupByParent [] paths,
          g.children = paths.filter (fun c => decide (parentOf c = some g.parent))
            ∧ g.children ≠ [])
      ∧ (∀ c ∈ paths, ∀ q, parentOf c = some q →
          ∃ g ∈ groupByParent [] paths, g.parent = q ∧ c ∈ g.children) := by
  obtain ⟨h1, h2, h3⟩ := groupByParent_facts paths [] (by simp)
  have hch : ∀ g ∈ groupByParent [] paths,
      g.children = paths.filter (fun c => decide (parentOf c = some g.parent)) := by
    intro g hg
    rw [← childrenOf_of_mem _ h1 g hg, h2 g.parent]
    simp [childrenOf]
  refine ⟨h1, fun g hg => ⟨hch g hg, ?_⟩, fun c hc q hq => ?_⟩
  · have := (h3 g.parent).1 (List.mem_map_of_mem _ hg)
    simp only [List.map_nil, List.not_mem_nil, false_or] at this
    obtain ⟨c, hc, hpc⟩ := this
    rw [hch g hg]
    intro hnil
    have : c ∈ paths.filter (fun c => decide (parentOf c = some g.parent)) :=
      List.mem_filter.2 ⟨hc, by simpa using hpc⟩
    rw [hnil] at this
    simp at this
  · have := (h3 q).2 (Or.inr ⟨c, hc, hq⟩)
    obtain ⟨g, hg, rfl⟩ := List.mem_map.1 this
    refine ⟨g, hg, rfl, ?_⟩
    rw [hch g hg]
    exact List.mem_filter.2 ⟨hc, by simpa using hq⟩

/-! ## The second loop of the compactor -/

theorem processGroup_eq (observed desired : Object) (st : loopState) (info : parentInfo) :
    processGroup observed desired st info
      = if groupCollapses observed desired info = true then
          ⟨if info.parent ∈ st.processedPaths then st.result else st.result ++ [info.parent],
            info.children ++ info.parent :: st.processedPaths⟩
        else keepChildren info.children st := by
  have hf := NestedFieldNoCopy_found observed (Split info.parent)
  unfold processGroup groupCollapses
  simp only []
  generalize hN : NestedFieldNoCopy observed (Split info.parent) = res
  rw [hN] at hf
  obtain ⟨v, found, err⟩ := res
  simp only at hf ⊢
  cases found with
  | false => simp
  | true =>
    have : err = none := hf rfl
    subst this
    cases v with
    | null => simp
    | scalar r => simp
    | seq xs => simp
    | map m =>
      by_cases h1 : info.children.length = mapLen m
      · by_cases h2 : canDeleteParent desired (Split info.parent) = true
        · simp [h1, h2]
        · simp [h1, h2]
      · simp [h1]

theorem keepChildren_processed (children : List String) :
    ∀ (st : loopState) (x : String),
      x ∈ (keepChildren children st).processedPaths ↔ x ∈ st.processedPaths ∨ x ∈ children := by
  induction children with
  | nil => intro st x; simp [keepChildren]
  | cons c rest ih =>
    intro st x
    rw [keepChildren]
    split
    · rename_i hc
      rw [ih]
      constructor
      · rintro (h | h)
        · exact Or.inl h
        · exact Or.inr (List.mem_cons_of_mem _ h)
      · rintro (h | h)
        · exact Or.inl h
        · rcases List.mem_cons.1 h with rfl | h
          · exact Or.inl hc
          · exact Or.inr h
    · rw [ih]
      simp only [List.mem_cons]
      tauto

theorem keepChildren_result (children : List String) :
    ∀ (st : loopState) (x : String),
      x ∈ (keepChildren children st).result ↔
        x ∈ st.result ∨ (x ∈ children ∧ x ∉ st.processedPaths) := by
  induction children with
  | nil => intro st x; simp [keepChildren]
  | cons c rest ih =>
    intro st x
    rw [keepChildren]
    split
    · rename_i hc
      rw [ih]
      constructor
      · rintro (h | ⟨h1, h2⟩)
        · exact Or.inl h
        · exact Or.inr ⟨List.mem_cons_of_mem _ h1, h2⟩
      · rintro (h | ⟨h1, h2⟩)
        · exact Or.inl h
        · rcases List.mem_cons.1 h1 with rfl | h
          · exact absurd hc h2
          · exact Or.inr ⟨h, h2⟩
    · rename_i hc
      rw [ih]
      simp only [List.mem_append, List.mem_cons, List.not_mem_nil, or_false]
      by_cases hx : x = c
      · subst hx
        simp [hc]
      · simp [hx]

/-- The loop invariant: `result` has no repetition and holds processed paths only. -/
theorem keepChildren_inv (children : List String) :
    ∀ (st : loopState), st.result.Nodup → (∀ x ∈ st.result, x ∈ st.processedPaths) →
      (keepChildren children st).result.Nodup
        ∧ (∀ x ∈ (keepChildren children st).result,
            x ∈ (keepChildren children st).processedPaths) := by
  induction children with
  | nil => intro st h1 h2; exact ⟨h1, h2⟩
  | cons c rest ih =>
    intro st h1 h2
    rw [keepChildren]
    split
    · exact ih st h1 h2
    · rename_i hc
      apply ih
      · exact List.Nodup.append h1 (List.nodup_singleton c)
          (by
            intro a ha hb
            rw [List.mem_singleton] at hb
            subst hb
            exact hc (h2 a ha))
      · intro x hx
        simp only [List.mem_append, List.mem_singleton] at hx
        rcases hx with h | h
        · exact List.mem_cons_of_mem _ (h2 x h)
        · subst h; exact List.mem_cons_self _ _

theorem keepChildren_length (children : List String) :
    ∀ (st : loopState),
      (keepChildren children st).result.length ≤ st.result.length + children.length := by
  induction children with
  | nil => intro st; simp [keepChildren]
  | cons c rest ih =>
    intro st
    rw [keepChildren]
    split
    · have := ih st
      simp only [List.length_cons]
      omega
    · have := ih ⟨st.result ++ [c], c :: st.processedPaths⟩
      simp only [List.length_append, List.length_singleton, List.length_cons, List.length_nil] at this ⊢
      omega

theorem processGroup_processed (observed desired : Object) (st : loopState) (g : parentInfo)
    (x : String) :
    x ∈ (processGroup observed desired st g).processedPaths ↔
      x ∈ st.processedPaths ∨ x ∈ g.children
        ∨ (groupCollapses observed desired g = true ∧ x = g.parent) := by
  rw [processGroup_eq]
  split
  · rename_i h
    simp only [List.mem_append, List.mem_cons, h, true_and]
    tauto
  · rename_i h
    rw [keepChildren_processed]
    simp [h]

theorem processGroup_result (observed desired : Object) (st : loopState) (g : parentInfo)
    (x : String) :
    x ∈ (processGroup observed desired st g).result ↔
      x ∈ st.result
        ∨ (groupCollapses observed desired g = false ∧ x ∈ g.children ∧ x ∉ st.processedPaths)
        ∨ (groupCollapses observed desired g = true ∧ x = g.parent ∧ x ∉ st.processedPaths) := by
  rw [processGroup_eq]
  split
  · rename_i h
    simp only [h, true_and, Bool.true_eq_false, false_and, false_or]
    split
    · rename_i hp
      constructor
      · intro hx; exact Or.inl hx
      · rintro (hx | ⟨rfl, hx⟩)
        · exact hx
        · exact absurd hp hx
    · rename_i hp
      simp only [List.mem_append, List.mem_singleton]
      constructor
      · rintro (hx | rfl)
        · exact Or.inl hx
        · exact Or.inr ⟨rfl, hp⟩
      · rintro (hx | ⟨rfl, _⟩)
        · exact Or.inl hx
        · exact Or.inr rfl
  · rename_i h
    rw [keepChildren_result]
    simp [h]

theorem processGroup_inv (observed desired : Object) (st : loopState) (g : parentInfo)
    (h1 : st.result.Nodup) (h2 : ∀ x ∈ st.result, x ∈ st.processedPaths) :
    (processGroup observed desired st g).result.Nodup
      ∧ (∀ x ∈ (processGroup observed desired st g).result,
          x ∈ (processGroup observed desired st g).processedPaths) := by
  rw [processGroup_eq]
  split
  · split
    · rename_i hp
      exact ⟨h1, fun x hx => List.mem_append_right _ (List.mem_cons_of_mem _ (h2 x hx))⟩
    · rename_i hp
      refine ⟨List.Nodup.append h1 (List.nodup_singleton _) ?_, fun x hx => ?_⟩
      · intro a ha hb
        rw [List.mem_singleton] at hb
        rw [hb] at ha
        exact hp (h2 _ ha)
      · simp only [List.mem_append, List.mem_singleton] at hx
        rcases hx with h | h
        · exact List.mem_append_right _ (List.mem_cons_of_mem _ (h2 x h))
        · subst h; exact List.mem_append_right _ (List.mem_cons_self _ _)
  · exact keepChildren_inv g.children st h1 h2

theorem processGroup_length (observed desired : Object) (st : loopState) (g : parentInfo)
    (hne : g.children ≠ []) :
    (processGroup observed desired st g).result.length
      ≤ st.result.length + g.children.length := by
  rw [processGroup_eq]
  have hpos : 0 < g.children.length := List.length_pos.2 hne
  split
  · split
    · simp only; omega
    · simp only [List.length_append, List.length_singleton]; omega
  · exact keepChildren_length g.children st

theorem foldl_processGroup_processed (observed desired : Object) (gs : List parentInfo) :
    ∀ (st : loopState) (x : String),
      x ∈ (gs.foldl (processGroup observed desired) st).processedPaths ↔
        x ∈ st.processedPaths
          ∨ ∃ g ∈ gs, x ∈ g.children ∨ (groupCollapses observed desired g = true ∧ x = g.parent) := by
  induction gs with
  | nil => intro st x; simp
  | cons g rest ih =>
    intro st x
    rw [List.foldl_cons, ih, processGroup_processed]
    constructor
    · rintro ((h | h | h) | ⟨g2, hg2, h⟩)
      · exact Or.inl h
      · exact Or.inr ⟨g, List.mem_cons_self _ _, Or.inl h⟩
      · exact Or.inr ⟨g, List.mem_cons_self _ _, Or.inr h⟩
      · exact Or.inr ⟨g2, List.mem_cons_of_mem _ hg2, h⟩
    · rintro (h | ⟨g2, hg2, h⟩)
      · exact Or.inl (Or.inl h)
      · rcases List.mem_cons.1 hg2 with rfl | hg3
        · rcases h with h | h
          · exact Or.inl (Or.inr (Or.inl h))
          · exact Or.inl (Or.inr (Or.inr h))
        · exact Or.inr ⟨g2, hg3, h⟩

theorem foldl_processGroup_result (observed desired : Object) (gs : List parentInfo) :
    ∀ (st : loopState) (x : String),
      x ∈ (gs.foldl (processGroup observed desired) st).result →
        x ∈ st.result
          ∨ ∃ g ∈ gs, (groupCollapses observed desired g = false ∧ x ∈ g.children)
              ∨ (groupCollapses observed desired g = true ∧ x = g.parent) := by
  induction gs with
  | nil => intro st x h; exact Or.inl h
  | cons g rest ih =>
    intro st x h
    rw [List.foldl_cons] at h
    rcases ih _ x h with h1 | ⟨g2, hg2, h2⟩
    · rcases (processGroup_result observed desired st g x).1 h1 with h3 | ⟨h3, h4, _⟩ | ⟨h3, h4, _⟩
      · exact Or.inl h3
      · exact Or.inr ⟨g, List.mem_cons_self _ _, Or.inl ⟨h3, h4⟩⟩
      · exact Or.inr ⟨g, List.mem_cons_self _ _, Or.inr ⟨h3, h4⟩⟩
    · exact Or.inr ⟨g2, List.mem_cons_of_mem _ hg2, h2⟩

theorem foldl_processGroup_inv (observed desired : Object) (gs : List parentInfo) :
    ∀ (st : loopState), st.result.Nodup → (∀ x ∈ st.result, x ∈ st.processedPaths) →
      (gs.foldl (processGroup observed desired) st).result.Nodup
        ∧ (∀ x ∈ (gs.foldl (processGroup observed desired) st).result,
            x ∈ (gs.foldl (processGroup observed desired) st).processedPaths) := by
  induction gs with
  | nil => intro st h1 h2; exact ⟨h1, h2⟩
  | cons g rest ih =>
    intro st h1 h2
    rw [List.foldl_cons]
    obtain ⟨h3, h4⟩ := processGroup_inv observed desired st g h1 h2
    exact ih _ h3 h4

theorem foldl_processGroup_length (observed desired : Object) (gs : List parentInfo) :
    ∀ (st : loopState), (∀ g ∈ gs, g.children ≠ []) →
      (gs.foldl (processGroup observed desired) st).result.length
        ≤ st.result.length + totalChildren gs := by
  induction gs with
  | nil => intro st _; simp [totalChildren]
  | cons g rest ih =>
    intro st h
    rw [List.foldl_cons]
    have h1 := ih (processGroup observed desired st g) (fun g2 hg2 => h g2 (List.mem_cons_of_mem _ hg2))
    have h2 := processGroup_length observed desired st g (h g (List.mem_cons_self _ _))
    simp only [totalChildren, List.map_cons, List.sum_cons] at h1 ⊢
    omega

theorem totalChildren_addChild (pm : List parentInfo) (q c : String) :
    totalChildren (addChild pm q c) = totalChildren pm + 1 := by
  induction pm with
  | nil => simp [addChild, totalChildren]
  | cons info rest ih =>
    by_cases h : info.parent = q
    · simp only [addChild, h, if_true, totalChildren, List.map_cons, List.sum_cons,
        List.length_append, List.length_singleton]
      omega
    · simp only [totalChildren] at ih
      simp only [addChild, h, if_false, totalChildren, List.map_cons, List.sum_cons, ih]
      omega

theorem totalChildren_groupByParent (paths : List String) :
    ∀ (pm : List parentInfo),
      totalChildren (groupByParent pm paths)
        = totalChildren pm + (paths.filter (fun c => (parentOf c).isSome)).length := by
  induction paths with
  | nil => intro pm; simp [groupByParent]
  | cons path rest ih =>
    intro pm
    rw [groupByParent_cons, List.filter_cons]
    cases hp : parentOf path with
    | none => simp [ih]
    | some q =>
      simp only [ih, totalChildren_addChild, Option.isSome_some, if_true, List.length_cons]
      omega

theorem filter_length_le_of_imp (l : List String) (p q : String → Bool)
    (h : ∀ a ∈ l, p a = true → q a = true) : (l.filter p).length ≤ (l.filter q).length := by
  induction l with
  | nil => simp
  | cons a rest ih =>
    have ih2 := ih (fun b hb => h b (List.mem_cons_of_mem _ hb))
    rw [List.filter_cons, List.filter_cons]
    by_cases hp : p a = true
    · rw [if_pos hp, if_pos (h a (List.mem_cons_self _ _) hp)]
      simp only [List.length_cons]
      omega
    · rw [if_neg hp]
      split
      · simp only [List.length_cons]; omega
      · exact ih2

/-! ## One pass of the compactor -/

/-- Where the paths of a pass's result come from: a path of the input that is
not in a collapsing group, or the parent of a collapsing group. -/
theorem collapsePass_mem (o : MapOrder) (observed desired : Object) (paths : List String)
    (x : String) (hx : x ∈ collapsePass o observed desired paths) :
    (x ∈ paths ∧ ∀ g ∈ groupByParent [] paths,
        groupCollapses observed desired g = true → x ∉ g.children)
      ∨ ∃ g ∈ groupByParent [] paths, groupCollapses observed desired g = true ∧ x = g.parent := by
  obtain ⟨hnd, hch, hgrp⟩ := groups_spec paths
  have hperm := o.perm paths (groupByParent [] paths)
  unfold collapsePass at hx
  simp only [List.mem_append, List.mem_filter, decide_eq_true_eq] at hx
  rcases hx with hx | ⟨hx1, hx2⟩
  · rcases foldl_processGroup_result observed desired _ _ x hx with h | ⟨g, hg, h⟩
    · simp at h
    · have hg2 : g ∈ groupByParent [] paths := hperm.mem_iff.1 hg
      rcases h with ⟨hc, hxc⟩ | ⟨hc, rfl⟩
      · left
        have hxg := hxc
        rw [(hch g hg2).1, List.mem_filter] at hxg
        refine ⟨hxg.1, fun g3 hg3 hc3 hx3 => ?_⟩
        rw [(hch g3 hg3).1, List.mem_filter] at hx3
        have e1 : parentOf x = some g.parent := by simpa using hxg.2
        have e2 : parentOf x = some g3.parent := by simpa using hx3.2
        have e3 : g.parent = g3.parent := Option.some.inj (e1.symm.trans e2)
        have := List.inj_on_of_nodup_map hnd hg2 hg3 e3
        subst this
        rw [hc] at hc3
        exact absurd hc3 (by simp)
      · exact Or.inr ⟨g, hg2, hc, rfl⟩
  · left
    refine ⟨hx1, fun g hg _ hxg => hx2 ?_⟩
    rw [foldl_processGroup_processed]
    exact Or.inr ⟨g, hperm.mem_iff.2 hg, Or.inl hxg⟩

/-- A pass keeps a list without repetition free of repetition. -/
theorem collapsePass_nodup (o : MapOrder) (observed desired : Object) (paths : List String)
    (h : paths.Nodup) : (collapsePass o observed desired paths).Nodup := by
  unfold collapsePass
  obtain ⟨h1, h2⟩ := foldl_processGroup_inv observed desired
    (o.order paths (groupByParent [] paths)) ⟨[], []⟩ List.nodup_nil (by simp)
  refine List.Nodup.append h1 (h.filter _) ?_
  intro a ha hb
  rw [List.mem_filter] at hb
  simp only [decide_eq_true_eq] at hb
  exact hb.2 (h2 a ha)

/-- A pass never makes the list longer. -/
theorem collapsePass_length_le (o : MapOrder) (observed desired : Object)
    (paths : List String) :
    (collapsePass o observed desired paths).length ≤ paths.length := by
  obtain ⟨hnd, hch, hgrp⟩ := groups_spec paths
  have hperm := o.perm paths (groupByParent [] paths)
  unfold collapsePass
  simp only [List.length_append]
  have h1 := foldl_processGroup_length observed desired
    (o.order paths (groupByParent [] paths)) ⟨[], []⟩
    (fun g hg => (hch g (hperm.mem_iff.1 hg)).2)
  have h2 : totalChildren (o.order paths (groupByParent [] paths))
      = totalChildren (groupByParent [] paths) := by
    unfold totalChildren
    exact (hperm.map _).sum_eq
  have h3 := totalChildren_groupByParent paths []
  have h4 := List.length_eq_length_filter_add (l := paths) (fun c => (parentOf c).isSome)
  have h5 : (paths.filter (fun path => decide (path ∉
      ((o.order paths (groupByParent [] paths)).foldl (processGroup observed desired)
        ⟨[], []⟩).processedPaths))).length
      ≤ (paths.filter (fun c => !(parentOf c).isSome)).length := by
    apply filter_length_le_of_imp
    intro c hmem hc
    simp only [decide_eq_true_eq] at hc
    cases hp : parentOf c with
    | none => simp
    | some q =>
      exfalso
      obtain ⟨g, hg, _, hcg⟩ := hgrp c hmem q hp
      apply hc
      rw [foldl_processGroup_processed]
      exact Or.inr ⟨g, hperm.mem_iff.2 hg, Or.inl hcg⟩
  have h6 : totalChildren ([] : List parentInfo) = 0 := rfl
  simp only [List.length_nil] at h1
  omega

/-! ## The recursion of the compactor -/

theorem replaceLoop_nil (o : MapOrder) (observed desired : Object) (fuel : Nat) :
    replaceLoop o observed desired fuel [] = [] := by
  cases fuel <;> simp [replaceLoop]

theorem replaceLoop_succ (o : MapOrder) (observed desired : Object) (fuel : Nat)
    (paths : List String) (h : paths ≠ []) :
    replaceLoop o observed desired (fuel + 1) paths
      = if (collapsePass o observed desired paths).length ≠ paths.length then
          replaceLoop o observed desired fuel (collapsePass o observed desired paths)
        else collapsePass o observed desired paths := by
  have : ¬ paths.length = 0 := fun e => h (List.length_eq_zero.1 e)
  simp only [replaceLoop, this, if_false]

/-- More fuel than the length of the list changes nothing. -/
theorem replaceLoop_fuel (o : MapOrder) (observed desired : Object) :
    ∀ (fuel : Nat) (paths : List String), paths.length ≤ fuel →
      ∀ fuel2, paths.length ≤ fuel2 →
        replaceLoop o observed desired fuel paths = replaceLoop o observed desired fuel2 paths := by
  intro fuel
  induction fuel with
  | zero =>
    intro paths h fuel2 _
    have : paths = [] := List.length_eq_zero.1 (Nat.le_zero.1 h)
    subst this
    rw [replaceLoop_nil, replaceLoop_nil]
  | succ k ih =>
    intro paths h fuel2 h2
    by_cases hp : paths = []
    · subst hp; rw [replaceLoop_nil, replaceLoop_nil]
    · have hpos : 0 < paths.length := List.length_pos.2 hp
      obtain ⟨k2, rfl⟩ : ∃ k2, fuel2 = k2 + 1 := ⟨fuel2 - 1, by omega⟩
      rw [replaceLoop_succ _ _ _ _ _ hp, replaceLoop_succ _ _ _ _ _ hp]
      have hle := collapsePass_length_le o observed desired paths
      by_cases hlen : (collapsePass o observed desired paths).length ≠ paths.length
      · rw [if_pos hlen, if_pos hlen]
        exact ih _ (by omega) k2 (by omega)
      · rw [if_neg hlen, if_neg hlen]

/-- The compactor satisfies the equation of its source: return an empty list as
it is; else run one pass and recurse on the result when its length differs from
the input's.  The recursion is on a strictly shorter list. -/
theorem replaceWithParentIfAllSiblingsDeleted_unfold (o : MapOrder) (observed desired : Object)
    (paths : List String) :
    replaceWithParentIfAllSiblingsDeleted o observed desired paths
      = if paths.length = 0 then paths
        else if (collapsePass o observed desired paths).length ≠ paths.length then
          replaceWithParentIfAllSiblingsDeleted o observed desired
            (collapsePass o observed desired paths)
        else collapsePass o observed desired paths := by
  unfold replaceWithParentIfAllSiblingsDeleted
  by_cases hp : paths = []
  · subst hp; simp [replaceLoop]
  · have hpos : 0 < paths.length := List.length_pos.2 hp
    have h0 : ¬ paths.length = 0 := by omega
    obtain ⟨n, hn⟩ : ∃ n, paths.length = n + 1 := ⟨paths.length - 1, by omega⟩
    rw [if_neg h0, hn, replaceLoop_succ _ _ _ _ _ hp, ← hn]
    have hle := collapsePass_length_le o observed desired paths
    by_cases hlen : (collapsePass o observed desired paths).length ≠ paths.length
    · rw [if_pos hlen, if_pos hlen]
      exact replaceLoop_fuel o observed desired n _ (by omega) _ (le_refl _)
    · rw [if_neg hlen, if_neg hlen]

/-- A property of paths that holds of the input and of every parent that a
pass substitutes holds of the compactor's output. -/
theorem replaceLoop_forall (o : MapOrder) (observed desired : Object) (P : String → Prop)
    (hP : ∀ g : parentInfo, groupCollapses observed desired g = true → P g.parent) :
    ∀ (fuel : Nat) (paths : List String), (∀ x ∈ paths, P x) →
      ∀ x ∈ replaceLoop o observed desired fuel paths, P x := by
  intro fuel
  induction fuel with
  | zero => intro paths h x hx; exact h x hx
  | succ k ih =>
    intro paths h x hx
    by_cases hp : paths = []
    · subst hp; rw [replaceLoop_nil] at hx; simp at hx
    · rw [replaceLoop_succ _ _ _ _ _ hp] at hx
      have hpass : ∀ y ∈ collapsePass o observed desired paths, P y := by
        intro y hy
        rcases collapsePass_mem o observed desired paths y hy with ⟨h1, _⟩ | ⟨g, _, hc, rfl⟩
        · exact h y h1
        · exact hP g hc
      split at hx
      · exact ih _ hpass x hx
      · exact hpass x hx

/-! ## The deletion plan -/

theorem canDeleteParent_spec (desired : Object) (q : String)
    (h : canDeleteParent desired (Split q) = true) :
    absentOrNull desired q = true ∨ emptyMapIn desired q = true := by
  unfold canDeleteParent at h
  unfold absentOrNull emptyMapIn
  generalize NestedFieldNoCopy desired (Split q) = res at h ⊢
  obtain ⟨v, found, err⟩ := res
  simp only at h ⊢
  cases found with
  | false => simp
  | true =>
    cases v with
    | null => simp [Value.isNil]
    | scalar r => simp [Value.isNil] at h
    | seq xs => simp [Value.isNil] at h
    | map m => simpa [Value.isNil] using h

theorem groupCollapses_spec (observed desired : Object) (g : parentInfo)
    (h : groupCollapses observed desired g = true) :
    (∃ m, NestedFieldNoCopy observed (Split g.parent) = (.map m, true, none)
        ∧ g.children.length = mapLen m)
      ∧ canDeleteParent desired (Split g.parent) = true := by
  unfold groupCollapses at h
  generalize hN : NestedFieldNoCopy observed (Split g.parent) = res at h
  obtain ⟨v, found, err⟩ := res
  cases v with
  | null => simp at h
  | scalar r => simp at h
  | seq xs => simp at h
  | map m =>
    cases found with
    | false => simp at h
    | true =>
      cases err with
      | some e => simp at h
      | none =>
        simp only [Bool.and_eq_true, decide_eq_true_eq] at h
        exact ⟨⟨m, rfl, h.1⟩, h.2⟩

theorem groupCollapses_deletable (observed desired : Object) (g : parentInfo)
    (h : groupCollapses observed desired g = true) :
    resolvesNonNull observed g.parent = true
      ∧ (absentOrNull desired g.parent = true ∨ emptyMapIn desired g.parent = true) := by
  obtain ⟨⟨m, hm, _⟩, hc⟩ := groupCollapses_spec observed desired g h
  refine ⟨?_, canDeleteParent_spec desired g.parent hc⟩
  simp [resolvesNonNull, hm, Value.isNil]

/-- C7, as stated, fails: with observed `a: {b: 1}`, the path `a.b` owned, and
desired `a: {}`, the plan is `[a]`, and `a` is present in desired and not null
there (it is an empty mapping). -/
theorem plan_holds_present_parent :
    "a" ∈ (PrepareResourceForFieldDeletion exampleCodec MapOrder.insertion exampleOwned
        ⟨exampleEmptyParent, []⟩ "manager").paths
      ∧ absentOrNull exampleEmptyParent "a" = false := by
  decide

/-- C7, amended: every path of the plan that `PrepareResourceForFieldDeletion`
returns resolves in observed to an existing non-null value and, in desired as
it was before the call, is absent, null, or an empty mapping. -/
theorem plan_paths_deletable (codec : FieldSetCodec) (o : MapOrder)
    (observed desired : Unstructured) (fieldManager : String) :
    ∀ p ∈ (PrepareResourceForFieldDeletion codec o observed desired fieldManager).paths,
      resolvesNonNull observed.Object p = true
        ∧ (absentOrNull desired.Object p = true ∨ emptyMapIn desired.Object p = true) := by
  intro p hp
  unfold PrepareResourceForFieldDeletion at hp
  cases hown : getOwnedFieldPaths codec observed fieldManager with
  | error e => rw [hown] at hp; simp at hp
  | ok ownedPaths =>
    rw [hown] at hp
    simp only at hp
    split at hp
    · simp at hp
    · simp only at hp
      refine replaceLoop_forall o observed.Object desired.Object
        (fun p => resolvesNonNull observed.Object p = true
          ∧ (absentOrNull desired.Object p = true ∨ emptyMapIn desired.Object p = true))
        (fun g hg => groupCollapses_deletable _ _ g hg) _ _ ?_ p hp
      intro x hx
      rw [findMissingFields_eq_filter, List.mem_filter] at hx
      simp only [isMissing, Bool.and_eq_true] at hx
      exact ⟨hx.2.1, Or.inl hx.2.2⟩

/-! ## Children of a collapsed parent -/

theorem mem_mapKeys (m : Object) (k : String) : k ∈ mapKeys m ↔ mapGet m k ≠ none := by
  unfold mapKeys
  rw [List.mem_dedup]
  induction m with
  | nil => simp [mapGet]
  | cons kv rest ih =>
    obtain ⟨k1, v1⟩ := kv
    by_cases h : k1 = k
    · simp [mapGet, h]
    · have : ¬ k = k1 := fun e => h e.symm
      simp only [List.map_cons, List.mem_cons, this, false_or, mapGet, h, if_false]
      exact ih

theorem joinChars_append_singleton (ws : List (List Char)) (w : List Char) (h : ws ≠ []) :
    joinChars (ws ++ [w]) = joinChars ws ++ '.' :: w := by
  induction ws with
  | nil => exact absurd rfl h
  | cons a rest ih =>
    cases rest with
    | nil => simp [joinChars]
    | cons b rest2 =>
      have := ih (by simp)
      rw [List.cons_append] at this
      show a ++ '.' :: joinChars (b :: (rest2 ++ [w])) = (a ++ '.' :: joinChars (b :: rest2)) ++ '.' :: w
      rw [this]
      simp

/-- The path of the child `name` of `parent`: `parent + "." + name`. -/
theorem Join_Split_append (parent name : String) :
    Join (Split parent ++ [name]) = Join [parent, name] := by
  unfold Join Split
  rw [List.map_append, List.map_map]
  have : (String.data ∘ String.mk) = id := by funext x; rfl
  rw [this, List.map_id, List.map_singleton,
    joinChars_append_singleton _ _ (splitChars_ne_nil _), joinChars_splitChars]
  simp [joinChars]

/-- A path grouped under `q` is `q` followed by one more segment. -/
theorem parentOf_spec (c q : String) (h : parentOf c = some q) :
    Split c = Split q ++ [(Split c).getLastD ""] := by
  unfold parentOf at h
  split at h
  · exact absurd h (by simp)
  · rename_i hlen
    have hq : Join (Split c).dropLast = q := Option.some.inj h
    have hne : (Split c).dropLast ≠ [] := by
      intro e
      have := congrArg List.length e
      simp only [List.length_dropLast, List.length_nil] at this
      omega
    have hseg : ∀ seg ∈ (Split c).dropLast, isSegment seg :=
      fun seg hs => Split_isSegment c seg (List.dropLast_subset _ hs)
    rw [← hq, Split_Join _ hne hseg]
    exact (dropLast_append_getLastD (Split c) "" (Split_ne_nil c)).symm

/-- A path found below a mapping passes through one of its keys. -/
theorem key_of_found_below (obs : Object) (qs : List String) (m : Object) (k : String)
    (rest : List String) (hq : NestedFieldNoCopy obs qs = (.map m, true, none))
    (hy : (NestedFieldNoCopy obs (qs ++ k :: rest)).2.1 = true) : k ∈ mapKeys m := by
  unfold NestedFieldNoCopy at hq hy
  rw [nestedFrom_append, hq] at hy
  simp only [if_true] at hy
  rw [nestedFrom_map_cons] at hy
  rw [mem_mapKeys]
  intro e
  rw [e] at hy
  simp at hy

/-- When a group collapses, and the list has no repetition and holds only paths
found in observed, the group holds the path of every key of the parent. -/
theorem collapsing_group_covers (observed desired : Object) (paths : List String)
    (hnd : paths.Nodup)
    (hres : ∀ p ∈ paths, (NestedFieldNoCopy observed (Split p)).2.1 = true)
    (g : parentInfo) (hg : g ∈ groupByParent [] paths)
    (hc : groupCollapses observed desired g = true) :
    ∃ m, NestedFieldNoCopy observed (Split g.parent) = (.map m, true, none)
      ∧ ∀ k ∈ mapKeys m, ∃ c ∈ g.children, c ∈ paths ∧ Split c = Split g.parent ++ [k] := by
  obtain ⟨_, hch, _⟩ := groups_spec paths
  obtain ⟨⟨m, hm, hlen⟩, _⟩ := groupCollapses_spec observed desired g hc
  obtain ⟨hchildren, _⟩ := hch g hg
  refine ⟨m, hm, ?_⟩
  have hsplit : ∀ c ∈ g.children, c ∈ paths
      ∧ Split c = Split g.parent ++ [(Split c).getLastD ""] := by
    intro c hcm
    rw [hchildren, List.mem_filter] at hcm
    exact ⟨hcm.1, parentOf_spec c g.parent (by simpa using hcm.2)⟩
  have hnodup : g.children.Nodup := by rw [hchildren]; exact hnd.filter _
  have hinj : ∀ c1 ∈ g.children, ∀ c2 ∈ g.children,
      (Split c1).getLastD "" = (Split c2).getLastD "" → c1 = c2 := by
    intro c1 h1 c2 h2 e
    apply Split_injective
    rw [(hsplit c1 h1).2, (hsplit c2 h2).2, e]
  have hnd2 : (g.children.map (fun c => (Split c).getLastD "")).Nodup :=
    List.Nodup.map_on hinj hnodup
  have hsub : g.children.map (fun c => (Split c).getLastD "") ⊆ mapKeys m := by
    intro k hk
    obtain ⟨c, hcm, rfl⟩ := List.mem_map.1 hk
    have h1 := hres c (hsplit c hcm).1
    rw [(hsplit c hcm).2] at h1
    exact key_of_found_below observed _ m _ [] hm h1
  have hperm := (List.subperm_of_subset hnd2 hsub).perm_of_length_le
    (by rw [List.length_map, hlen]; exact le_refl _)
  intro k hk
  have := hperm.mem_iff.2 hk
  obtain ⟨c, hcm, rfl⟩ := List.mem_map.1 this
  exact ⟨c, hcm, (hsplit c hcm).1, (hsplit c hcm).2⟩

/-! ## Invariants of a pass -/

theorem collapsePass_found (o : MapOrder) (observed desired : Object) (paths : List String)
    (hres : ∀ p ∈ paths, (NestedFieldNoCopy observed (Split p)).2.1 = true) :
    ∀ p ∈ collapsePass o observed desired paths,
      (NestedFieldNoCopy observed (Split p)).2.1 = true := by
  intro p hp
  rcases collapsePass_mem o observed desired paths p hp with ⟨h1, _⟩ | ⟨g, _, hc, rfl⟩
  · exact hres p h1
  · obtain ⟨⟨m, hm, _⟩, _⟩ := groupCollapses_spec observed desired g hc
    rw [hm]

/-- A proper prefix extends by one segment to a prefix. -/
theorem prefix_next {a b : List String} (h : a <+: b) (hne : a ≠ b) :
    ∃ k rest, b = a ++ k :: rest := by
  obtain ⟨s, rfl⟩ := h
  cases s with
  | nil => exact absurd (by simp) hne
  | cons k rest => exact ⟨k, rest, rfl⟩

/-- A pass keeps a list free of ancestor pairs, when the list has no repetition
and holds only paths found in observed. -/
theorem collapsePass_noAncestorPair (o : MapOrder) (observed desired : Object)
    (paths : List String) (hnd : paths.Nodup)
    (hres : ∀ p ∈ paths, (NestedFieldNoCopy observed (Split p)).2.1 = true)
    (hanti : noAncestorPair paths) :
    noAncestorPair (collapsePass o observed desired paths) := by
  obtain ⟨_, hch, _⟩ := groups_spec paths
  have hcover := collapsing_group_covers observed desired paths hnd hres
  have hchild : ∀ g ∈ groupByParent [] paths, ∃ c ∈ g.children, c ∈ paths
      ∧ ∃ l, Split c = Split g.parent ++ [l] := by
    intro g hg
    obtain ⟨hchildren, hne⟩ := hch g hg
    obtain ⟨c, hc⟩ := List.exists_mem_of_ne_nil _ hne
    have hc2 := hc
    rw [hchildren, List.mem_filter] at hc2
    exact ⟨c, hc, hc2.1, _, parentOf_spec c g.parent (by simpa using hc2.2)⟩
  intro x hx y hy hpre
  rcases collapsePass_mem o observed desired paths x hx with ⟨hx1, hx2⟩ | ⟨g1, hg1, hc1, rfl⟩
  · rcases collapsePass_mem o observed desired paths y hy with ⟨hy1, _⟩ | ⟨g2, hg2, hc2, rfl⟩
    · exact hanti x hx1 y hy1 hpre
    · exfalso
      obtain ⟨c, _, hcp, l, hcl⟩ := hchild g2 hg2
      have h1 : Split x <+: Split c := by
        rw [hcl]; exact hpre.trans (List.prefix_append _ _)
      have := hanti x hx1 c hcp h1
      subst this
      rw [hcl] at hpre
      have := hpre.length_le
      simp only [List.length_append, List.length_singleton] at this
      omega
  · obtain ⟨m, hm, hkeys⟩ := hcover g1 hg1 hc1
    have hstep : ∀ y2 : String, (NestedFieldNoCopy observed (Split y2)).2.1 = true →
        Split g1.parent <+: Split y2 → g1.parent ≠ y2 →
        ∃ c ∈ g1.children, c ∈ paths ∧ ∃ k, Split c = Split g1.parent ++ [k]
          ∧ Split c <+: Split y2 := by
      intro y2 hfound hp hne
      have hne2 : Split g1.parent ≠ Split y2 := fun e => hne (Split_injective e)
      obtain ⟨k, rest, hk⟩ := prefix_next hp hne2
      rw [hk] at hfound
      have hkm := key_of_found_below observed _ m k rest hm hfound
      obtain ⟨c, hcg, hcp, hcs⟩ := hkeys k hkm
      refine ⟨c, hcg, hcp, k, hcs, ?_⟩
      rw [hcs, hk]
      exact ⟨rest, by simp⟩
    by_cases hne : g1.parent = y
    · exact hne
    · exfalso
      rcases collapsePass_mem o observed desired paths y hy with ⟨hy1, hy2⟩ | ⟨g2, hg2, hc2, rfl⟩
      · obtain ⟨c, hcg, hcp, k, _, hcy⟩ := hstep y (hres y hy1) hpre hne
        have := hanti c hcp y hy1 hcy
        subst this
        exact hy2 g1 hg1 hc1 hcg
      · obtain ⟨⟨m2, hm2, _⟩, _⟩ := groupCollapses_spec observed desired g2 hc2
        obtain ⟨c, hcg, hcp, k, hck, hcy⟩ := hstep g2.parent (by rw [hm2]) hpre hne
        obtain ⟨c2, _, hcp2, l, hcl⟩ := hchild g2 hg2
        have h1 : Split c <+: Split c2 := by
          rw [hcl]; exact hcy.trans (List.prefix_append _ _)
        have := hanti c hcp c2 hcp2 h1
        subst this
        rw [hcl] at hcy
        have := hcy.length_le
        simp only [List.length_append, List.length_singleton] at this
        omega

/-- A property of lists that every pass preserves holds of the compactor's
output when it holds of its input. -/
theorem replaceLoop_invariant (o : MapOrder) (observed desired : Object)
    (I : List String → Prop) (hI : ∀ L, I L → I (collapsePass o observed desired L)) :
    ∀ (fuel : Nat) (paths : List String), I paths →
      I (replaceLoop o observed desired fuel paths) := by
  intro fuel
  induction fuel with
  | zero => intro paths h; exact h
  | succ k ih =>
    intro paths h
    by_cases hp : paths = []
    · subst hp; rw [replaceLoop_nil]; exact h
    · rw [replaceLoop_succ _ _ _ _ _ hp]
      split
      · exact ih _ (hI _ h)
      · exact hI _ h

/-- The compactor's output is its input after some number of passes. -/
theorem replaceLoop_iterate (o : MapOrder) (observed desired : Object) :
    ∀ (fuel : Nat) (paths : List String),
      ∃ n, replaceLoop o observed desired fuel paths
        = (collapsePass o observed desired)^[n] paths := by
  intro fuel
  induction fuel with
  | zero => intro paths; exact ⟨0, rfl⟩
  | succ k ih =>
    intro paths
    by_cases hp : paths = []
    · subst hp; exact ⟨0, by rw [replaceLoop_nil]; rfl⟩
    · rw [replaceLoop_succ _ _ _ _ _ hp]
      split
      · obtain ⟨n, hn⟩ := ih (collapsePass o observed desired paths)
        exact ⟨n + 1, by rw [hn]; rfl⟩
      · exact ⟨1, rfl⟩

theorem iterate_pass_inv (o : MapOrder) (observed desired : Object) (M : List String)
    (hnd : M.Nodup) (hres : ∀ p ∈ M, (NestedFieldNoCopy observed (Split p)).2.1 = true) :
    ∀ n, ((collapsePass o observed desired)^[n] M).Nodup
      ∧ ∀ p ∈ (collapsePass o observed desired)^[n] M,
          (NestedFieldNoCopy observed (Split p)).2.1 = true := by
  intro n
  induction n with
  | zero => exact ⟨hnd, hres⟩
  | succ k ih =>
    rw [Function.iterate_succ_apply']
    exact ⟨collapsePass_nodup o observed desired _ ih.1,
      collapsePass_found o observed desired _ ih.2⟩

theorem first_pass_with (o : MapOrder) (observed desired : Object) (M : List String)
    (q : String) (hq : q ∉ M) :
    ∀ n, q ∈ (collapsePass o observed desired)^[n] M →
      ∃ k, q ∉ (collapsePass o observed desired)^[k] M
        ∧ q ∈ collapsePass o observed desired ((collapsePass o observed desired)^[k] M) := by
  intro n
  induction n with
  | zero => intro h; exact absurd h hq
  | succ k ih =>
    intro h
    rw [Function.iterate_succ_apply'] at h
    by_cases hk : q ∈ (collapsePass o observed desired)^[k] M
    · exact ih hk
    · exact ⟨k, hk, h⟩

/-! ## Collapse soundness and coverage of the plan -/

/-- C3, as stated, fails: on observed `a: {b: {c: 1, d: 2}, e: 3}`, an empty
desired document and `M = [a.b.c, a.b.d, a.e]` the compactor returns `a`, which
is not in `M`, and the observed child `a.b` of `a` is not in `M` (it was
introduced by the first pass). -/
theorem collapse_child_not_in_input :
    "a" ∈ replaceWithParentIfAllSiblingsDeleted MapOrder.insertion exampleTwoLevels []
        ["a.b.c", "a.b.d", "a.e"]
      ∧ "a" ∉ ["a.b.c", "a.b.d", "a.e"]
      ∧ (NestedFieldNoCopy exampleTwoLevels (Split "a.b")).2.1 = true
      ∧ "a.b" ∉ ["a.b.c", "a.b.d", "a.e"] := by
  decide

/-- C3, amended: for a list `M` without repetition whose paths are all found in
observed, a path `q` of the compactor's output that is not in `M` is absent,
null or an empty mapping in desired and is a mapping in observed, and the path
`q.k` of every key `k` of that mapping is in the list on which the pass that
introduced `q` ran (`M` after some number of passes, not yet holding `q`). -/
theorem collapse_soundness (o : MapOrder) (observed desired : Object) (M : List String)
    (hnd : M.Nodup) (hres : ∀ p ∈ M, (NestedFieldNoCopy observed (Split p)).2.1 = true)
    (q : String) (hq : q ∈ replaceWithParentIfAllSiblingsDeleted o observed desired M)
    (hnew : q ∉ M) :
    (absentOrNull desired q = true ∨ emptyMapIn desired q = true)
      ∧ ∃ (n : Nat) (m : Object), q ∉ (collapsePass o observed desired)^[n] M
          ∧ NestedFieldNoCopy observed (Split q) = (.map m, true, none)
          ∧ ∀ k ∈ mapKeys m, Join [q, k] ∈ (collapsePass o observed desired)^[n] M := by
  obtain ⟨n, hn⟩ := replaceLoop_iterate o observed desired M.length M
  unfold replaceWithParentIfAllSiblingsDeleted at hq
  rw [hn] at hq
  obtain ⟨k, hk1, hk2⟩ := first_pass_with o observed desired M q hnew n hq
  obtain ⟨hnd2, hres2⟩ := iterate_pass_inv o observed desired M hnd hres k
  rcases collapsePass_mem o observed desired _ q hk2 with ⟨h1, _⟩ | ⟨g, hg, hc, rfl⟩
  · exact absurd h1 hk1
  · obtain ⟨m, hm, hkeys⟩ := collapsing_group_covers observed desired _ hnd2 hres2 g hg hc
    refine ⟨(groupCollapses_deletable observed desired g hc).2, k, m, hk1, hm, ?_⟩
    intro key hkey
    obtain ⟨c, _, hcp, hcs⟩ := hkeys key hkey
    have : c = Join [g.parent, key] := by
      rw [← Join_Split c, hcs, Join_Split_append]
    rw [← this]
    exact hcp

theorem collapse_soundness_witness :
    ["a.b.c", "a.b.d", "a.e"].Nodup
      ∧ (∀ p ∈ ["a.b.c", "a.b.d", "a.e"],
          (NestedFieldNoCopy exampleTwoLevels (Split p)).2.1 = true)
      ∧ "a" ∈ replaceWithParentIfAllSiblingsDeleted MapOrder.insertion exampleTwoLevels []
          ["a.b.c", "a.b.d", "a.e"]
      ∧ "a" ∉ ["a.b.c", "a.b.d", "a.e"]
      ∧ (absentOrNull [] "a" = true ∨ emptyMapIn [] "a" = true)
      ∧ ∃ (n : Nat) (m : Object),
          "a" ∉ (collapsePass MapOrder.insertion exampleTwoLevels [])^[n]
              ["a.b.c", "a.b.d", "a.e"]
          ∧ NestedFieldNoCopy exampleTwoLevels (Split "a") = (.map m, true, none)
          ∧ ∀ k ∈ mapKeys m, Join ["a", k]
              ∈ (collapsePass MapOrder.insertion exampleTwoLevels [])^[n]
                  ["a.b.c", "a.b.d", "a.e"] :=
  ⟨by decide, by decide, by decide, by decide,
    collapse_soundness MapOrder.insertion exampleTwoLevels [] ["a.b.c", "a.b.d", "a.e"]
      (by decide) (by decide) "a" (by decide) (by decide)⟩

/-- C5, as stated, fails: on observed `a: {b: {c: 1, d: 2}, e: 3}`, an empty
desired document and the owned paths `[a.b, a.b.c]` the final plan holds both
`a.b` and its descendant `a.b.c`. -/
theorem plan_with_ancestor_pair :
    ¬ noAncestorPair (replaceWithParentIfAllSiblingsDeleted MapOrder.insertion
        exampleTwoLevels [] (findMissingFields exampleTwoLevels [] ["a.b", "a.b.c"])) := by
  intro h
  have := h "a.b" (by decide) "a.b.c" (by decide) (by decide)
  exact absurd this (by decide)

/-- The hypothesis "no path twice" of the amended C5 is needed: with observed
`a: {b: 1, c: {d: 1, e: 2}}` the missing paths `[a.b, a.b, a.c.d]` hold no
ancestor pair, and the plan `[a.c.d, a]` holds one (the repeated `a.b` is
counted as two children of `a`). -/
theorem plan_with_repeated_path :
    noAncestorPair (findMissingFields exampleRepeated [] ["a.b", "a.b", "a.c.d"])
      ∧ ¬ noAncestorPair (replaceWithParentIfAllSiblingsDeleted MapOrder.insertion
          exampleRepeated [] (findMissingFields exampleRepeated [] ["a.b", "a.b", "a.c.d"])) := by
  refine ⟨by unfold noAncestorPair; decide, fun h => ?_⟩
  have := h "a" (by decide) "a.c.d" (by decide) (by decide)
  exact absurd this (by decide)

/-- C5, amended: when the missing paths (the output of `findMissingFields`) hold
no path twice and no path that is a proper segment-prefix of another, the final
plan (`findMissingFields` followed by the compactor) holds no two paths of which
one is a proper segment-prefix of the other. -/
theorem plan_no_ancestor_pair (o : MapOrder) (observed desired : Object)
    (ownedPaths : List String)
    (hnd : (findMissingFields observed desired ownedPaths).Nodup)
    (hanti : noAncestorPair (findMissingFields observed desired ownedPaths)) :
    noAncestorPair (replaceWithParentIfAllSiblingsDeleted o observed desired
      (findMissingFields observed desired ownedPaths)) := by
  have hfilter := findMissingFields_eq_filter observed desired ownedPaths
  have h := replaceLoop_invariant o observed desired
    (fun L => L.Nodup ∧ (∀ p ∈ L, (NestedFieldNoCopy observed (Split p)).2.1 = true)
      ∧ noAncestorPair L)
    (fun L hL => ⟨collapsePass_nodup o observed desired L hL.1,
      collapsePass_found o observed desired L hL.2.1,
      collapsePass_noAncestorPair o observed desired L hL.1 hL.2.1 hL.2.2⟩)
    (findMissingFields observed desired ownedPaths).length
    (findMissingFields observed desired ownedPaths) ?_
  · exact h.2.2
  · refine ⟨hnd, fun p hp => ?_, hanti⟩
    rw [hfilter, List.mem_filter] at hp
    have := hp.2
    simp only [isMissing, resolvesNonNull, Bool.and_eq_true] at this
    exact this.1.1

theorem plan_no_ancestor_pair_witness :
    (findMissingFields exampleLabels exampleLabelsDesired
        ["metadata.labels", "metadata.labels.app"]).Nodup
      ∧ noAncestorPair (findMissingFields exampleLabels exampleLabelsDesired
          ["metadata.labels", "metadata.labels.app"])
      ∧ replaceWithParentIfAllSiblingsDeleted MapOrder.insertion exampleLabels
          exampleLabelsDesired (findMissingFields exampleLabels exampleLabelsDesired
            ["metadata.labels", "metadata.labels.app"]) = ["metadata.labels.app"]
      ∧ noAncestorPair (replaceWithParentIfAllSiblingsDeleted MapOrder.insertion
          exampleLabels exampleLabelsDesired (findMissingFields exampleLabels
            exampleLabelsDesired ["metadata.labels", "metadata.labels.app"])) :=
  ⟨by decide, by unfold noAncestorPair; decide, by decide,
    plan_no_ancestor_pair MapOrder.insertion exampleLabels exampleLabelsDesired
      ["metadata.labels", "metadata.labels.app"] (by decide)
      (by unfold noAncestorPair; decide)⟩

theorem plan_paths_deletable_witness :
    "a" ∈ (PrepareResourceForFieldDeletion exampleCodec MapOrder.insertion exampleOwned
        ⟨[], []⟩ "manager").paths
      ∧ resolvesNonNull exampleOwned.Object "a" = true
      ∧ (absentOrNull [] "a" = true ∨ emptyMapIn [] "a" = true) :=
  ⟨by decide,
    plan_paths_deletable exampleCodec MapOrder.insertion exampleOwned ⟨[], []⟩ "manager" "a"
      (by decide)⟩

/-! ## Structural conflicts -/

theorem ensureParentPathFrom_error_iff (path : List String) :
    ∀ (i : Nat) (obj : Object),
      (ensureParentPathFrom i obj path).2 ≠ none ↔ hitsNonMap obj path = true := by
  induction path with
  | nil => intro i obj; simp [ensureParentPathFrom, hitsNonMap]
  | cons segment rest ih =>
    intro i obj
    rw [ensureParentPathFrom, hitsNonMap]
    cases hg : mapGet obj segment with
    | none =>
      simp only
      constructor
      · intro h; exact absurd (ensureParentPathFrom_nil_ok rest (i + 1)) h
      · intro h; exact absurd h (by simp)
    | some v =>
      cases v with
      | map m => exact ih (i + 1) m
      | null => simp
      | scalar r => simp
      | seq xs => simp

theorem setFieldsToNil_single_error_iff (d : Object) (p : String) :
    (setFieldsToNil d [p]).2 ≠ none ↔ writeNil d (Split p) = none := by
  constructor
  · intro h
    cases hw : writeNil d (Split p) with
    | none => rfl
    | some d1 =>
      rw [(setFieldsToNil_single d p).1 d1 hw] at h
      exact absurd rfl h
  · exact (setFieldsToNil_single d p).2

theorem writeNil_none_iff_ensure (d : Object) (p : String) :
    writeNil d (Split p) = none ↔ (ensureParentPath d (Split p).dropLast).2 ≠ none := by
  have hsplit := dropLast_append_getLastD (Split p) "" (Split_ne_nil p)
  obtain ⟨e1, e2⟩ := ensure_then_assign (Split p).dropLast ((Split p).getLastD "") 0 0 d
  rw [hsplit] at e1 e2
  unfold ensureParentPath
  constructor
  · intro h hnone
    rw [(e1 hnone).2] at h
    exact absurd h (by simp)
  · exact e2

/-- C11: for a path of two segments or more, `setFieldsToNil` on that one path
returns an error iff the walk along the parent segments meets a key that exists
with a value that is not a mapping; otherwise every intermediate segment is a
mapping afterwards, and one that did not exist before holds nothing but the
next segment of the path: it was created empty. -/
theorem structural_conflict_iff (d : Object) (p : String) (hlen : 2 ≤ (Split p).length) :
    ((setFieldsToNil d [p]).2 ≠ none ↔ hitsNonMap d (Split p).dropLast = true)
      ∧ ((setFieldsToNil d [p]).2 = none →
          ∀ r, r <+: (Split p).dropLast → r ≠ [] →
            (∃ m, NestedFieldNoCopy (setFieldsToNil d [p]).1 r = (.map m, true, none))
              ∧ ((NestedFieldNoCopy d r).2.1 = false →
                  ∀ k, ¬ (r ++ [k]) <+: Split p →
                    (NestedFieldNoCopy (setFieldsToNil d [p]).1 (r ++ [k])).2.1 = false)) := by
  refine ⟨?_, ?_⟩
  · rw [setFieldsToNil_single_error_iff, writeNil_none_iff_ensure]
    exact ensureParentPathFrom_error_iff _ 0 d
  · intro hok r hr hne
    have hsplit := dropLast_append_getLastD (Split p) "" (Split_ne_nil p)
    cases hw : writeNil d (Split p) with
    | none => exact absurd hok ((setFieldsToNil_single d p).2 hw)
    | some d1 =>
      rw [(setFieldsToNil_single d p).1 d1 hw]
      have hrp : r <+: Split p := by
        rw [← hsplit]; exact hr.trans (List.prefix_append _ _)
      have hrlen : r.length < (Split p).length := by
        have h1 := hr.length_le
        rw [List.length_dropLast] at h1
        omega
      have hrne : r ≠ Split p := fun e => by rw [e] at hrlen; omega
      refine ⟨writeNil_above (Split p) d d1 r 0 hw hrp hrne, fun hnf k hk => ?_⟩
      have hk2 : ¬ Split p <+: r ++ [k] := by
        intro hpre
        have h1 := hpre.length_le
        simp only [List.length_append, List.length_singleton] at h1
        have h2 : (Split p).length = (r ++ [k]).length := by
          simp only [List.length_append, List.length_singleton]
          omega
        have h3 : Split p = r ++ [k] := List.IsPrefix.eq_of_length hpre h2
        exact hk (h3 ▸ List.prefix_refl _)
      show (nestedFrom (.map d1) (r ++ [k]) 0).2.1 = false
      rw [writeNil_frame (Split p) d d1 (r ++ [k]) 0 hw hk hk2, nestedFrom_append]
      unfold NestedFieldNoCopy at hnf
      simp [hnf]

theorem structural_conflict_iff_witness :
    2 ≤ (Split "a.b.c").length
      ∧ ((setFieldsToNil exampleScalarParent ["a.b.c"]).2 ≠ none
          ↔ hitsNonMap exampleScalarParent (Split "a.b.c").dropLast = true)
      ∧ ((setFieldsToNil exampleScalarParent ["a.b.c"]).2 = none →
          ∀ r, r <+: (Split "a.b.c").dropLast → r ≠ [] →
            (∃ m, NestedFieldNoCopy (setFieldsToNil exampleScalarParent ["a.b.c"]).1 r
                = (.map m, true, none))
              ∧ ((NestedFieldNoCopy exampleScalarParent r).2.1 = false →
                  ∀ k, ¬ (r ++ [k]) <+: Split "a.b.c" →
                    (NestedFieldNoCopy (setFieldsToNil exampleScalarParent ["a.b.c"]).1
                      (r ++ [k])).2.1 = false)) :=
  ⟨by decide, structural_conflict_iff exampleScalarParent "a.b.c" (by decide)⟩

/-! ## Termination of the compactor -/

/-- C12: one pass returns a list no longer than its input, and the compactor
satisfies the source's recursive equation with the recursive call made only on
a strictly shorter list; the recursion is therefore well-founded on the length
of the list, and the function returns for every input. -/
theorem compactor_terminates (o : MapOrder) (observed desired : Object) (M : List String) :
    (collapsePass o observed desired M).length ≤ M.length
      ∧ replaceWithParentIfAllSiblingsDeleted o observed desired M
          = (if M.length = 0 then M
             else if (collapsePass o observed desired M).length < M.length then
               replaceWithParentIfAllSiblingsDeleted o observed desired
                 (collapsePass o observed desired M)
             else collapsePass o observed desired M)
      ∧ ((collapsePass o observed desired M).length ≠ M.length ↔
          (collapsePass o observed desired M).length < M.length) := by
  have hle := collapsePass_length_le o observed desired M
  have hiff : (collapsePass o observed desired M).length ≠ M.length ↔
      (collapsePass o observed desired M).length < M.length := by omega
  refine ⟨hle, ?_, hiff⟩
  rw [replaceWithParentIfAllSiblingsDeleted_unfold]
  by_cases h0 : M.length = 0
  · simp [h0]
  · by_cases h1 : (collapsePass o observed desired M).length ≠ M.length
    · rw [if_neg h0, if_neg h0, if_pos h1, if_pos (hiff.1 h1)]
    · rw [if_neg h0, if_neg h0, if_neg h1, if_neg (fun h => h1 (hiff.2 h))]

/-! ## The ownership extractor -/

theorem ownedPathsLoop_ok (codec : FieldSetCodec) (fieldManager : String)
    (mfs : List ManagedFieldsEntry) :
    ∀ (acc : List String),
      (∀ mf ∈ mfs, mf.Manager = fieldManager → ∀ raw, mf.FieldsV1 = some raw →
        ∃ paths, parseFieldsV1 codec raw = .ok paths) →
      ownedPathsLoop codec fieldManager mfs acc
        = .ok (acc ++ ((mfs.filter (fun mf => decide (mf.Manager = fieldManager))).map
            (parsedPathsOf codec)).flatten) := by
  induction mfs with
  | nil => intro acc _; simp [ownedPathsLoop]
  | cons mf rest ih =>
    intro acc h
    have hrest := fun acc2 => ih acc2 (fun mf2 h2 => h mf2 (List.mem_cons_of_mem _ h2))
    rw [ownedPathsLoop, List.filter_cons]
    by_cases hm : mf.Manager = fieldManager
    · simp only [hm, ne_eq, not_true_eq_false, if_false, decide_True, if_true, List.map_cons,
        List.flatten_cons]
      cases hf : mf.FieldsV1 with
      | none =>
        simp only [parsedPathsOf, hf, List.nil_append]
        exact hrest acc
      | some raw =>
        obtain ⟨paths, hp⟩ := h mf (List.mem_cons_self _ _) hm raw hf
        simp only [parsedPathsOf, hf, hp]
        rw [hrest (acc ++ paths), List.append_assoc]
    · simp only [hm, ne_eq, not_false_eq_true, if_true, decide_False]
      exact hrest acc

/-- C14: when every record of the writer parses, `getOwnedFieldPaths` returns
the concatenation, in record order and without deduplication, of the parsed
paths of exactly the records whose `Manager` equals the target string (a record
without field-set giving none); any other record contributes nothing. -/
theorem getOwnedFieldPaths_exact (codec : FieldSetCodec) (obj : Unstructured)
    (fieldManager : String)
    (hparse : ∀ mf ∈ obj.managedFields, mf.Manager = fieldManager →
      ∀ raw, mf.FieldsV1 = some raw → ∃ paths, parseFieldsV1 codec raw = .ok paths) :
    getOwnedFieldPaths codec obj fieldManager
      = .ok (((obj.managedFields.filter (fun mf => decide (mf.Manager = fieldManager))).map
          (parsedPathsOf codec)).flatten) := by
  unfold getOwnedFieldPaths
  rw [ownedPathsLoop_ok codec fieldManager obj.managedFields [] hparse]
  rfl

theorem getOwnedFieldPaths_exact_witness :
    (∀ mf ∈ exampleThreeRecords.managedFields, mf.Manager = "manager" →
        ∀ raw, mf.FieldsV1 = some raw → ∃ paths, parseFieldsV1 examplePickyCodec raw = .ok paths)
      ∧ getOwnedFieldPaths examplePickyCodec exampleThreeRecords "manager"
          = .ok (((exampleThreeRecords.managedFields.filter
              (fun mf => decide (mf.Manager = "manager"))).map
                (parsedPathsOf examplePickyCodec)).flatten)
      ∧ getOwnedFieldPaths examplePickyCodec exampleThreeRecords "manager"
          = .ok ["a.b", "a.b"] :=
  have h : ∀ mf ∈ exampleThreeRecords.managedFields, mf.Manager = "manager" →
      ∀ raw, mf.FieldsV1 = some raw →
        ∃ paths, parseFieldsV1 examplePickyCodec raw = .ok paths := by
    intro mf hmf hm raw hraw
    simp only [exampleThreeRecords, List.mem_cons, List.mem_singleton, List.not_mem_nil,
      or_false] at hmf
    rcases hmf with rfl | rfl | rfl
    · cases hraw; exact ⟨_, rfl⟩
    · exact absurd hm (by decide)
    · cases hraw; exact ⟨_, rfl⟩
  ⟨h, getOwnedFieldPaths_exact examplePickyCodec exampleThreeRecords "manager" h, rfl⟩

theorem parseFieldsV1_error_iff (codec : FieldSetCodec) (raw : String) :
    (∃ err, parseFieldsV1 codec raw = .error err)
      ↔ raw.length ≠ 0 ∧ ∃ err, codec.fromJSON raw = .error err := by
  unfold parseFieldsV1
  by_cases h0 : raw.length = 0
  · simp [h0]
  · simp only [h0, if_false, ne_eq, not_false_eq_true, true_and]
    cases hj : codec.fromJSON raw with
    | error e => simp
    | ok set =>
      simp only
      constructor
      · rintro ⟨err, herr⟩
        split at herr <;> cases herr
      · rintro ⟨err, herr⟩
        cases herr

theorem ownedPathsLoop_error_iff (codec : FieldSetCodec) (fieldManager : String)
    (mfs : List ManagedFieldsEntry) :
    ∀ (acc : List String),
      (∃ err, ownedPathsLoop codec fieldManager mfs acc = .error err)
        ↔ ∃ mf ∈ mfs, malformedFor codec fieldManager mf := by
  induction mfs with
  | nil => intro acc; simp [ownedPathsLoop]
  | cons mf rest ih =>
    intro acc
    rw [ownedPathsLoop]
    simp only [List.mem_cons, exists_eq_or_imp]
    by_cases hm : mf.Manager = fieldManager
    · simp only [hm, ne_eq, not_true_eq_false, if_false]
      cases hf : mf.FieldsV1 with
      | none =>
        simp only
        rw [ih acc]
        constructor
        · intro h; exact Or.inr h
        · rintro (⟨_, raw, hraw, _⟩ | h)
          · rw [hf] at hraw; cases hraw
          · exact h
      | some raw =>
        simp only
        cases hp : parseFieldsV1 codec raw with
        | error e =>
          simp only
          have := (parseFieldsV1_error_iff codec raw).1 ⟨e, hp⟩
          constructor
          · intro _; exact Or.inl ⟨hm, raw, hf, this.1, this.2⟩
          · intro _; exact ⟨_, rfl⟩
        | ok paths =>
          simp only
          rw [ih (acc ++ paths)]
          constructor
          · intro h; exact Or.inr h
          · rintro (⟨_, raw2, hraw, hlen, herr⟩ | h)
            · rw [hf] at hraw
              cases hraw
              obtain ⟨e, he⟩ := (parseFieldsV1_error_iff codec raw).2 ⟨hlen, herr⟩
              rw [hp] at he
              cases he
            · exact h
    · simp only [hm, ne_eq, not_false_eq_true, if_true]
      rw [ih acc]
      constructor
      · intro h; exact Or.inr h
      · rintro (⟨h, _⟩ | h)
        · exact absurd h hm
        · exact h

/-- C15: `getOwnedFieldPaths` returns an error, and so no paths, iff some record
of the target writer holds a non-empty payload that the deserializer rejects (a
record of another writer never matters); and then
`PrepareResourceForFieldDeletion` returns an error with an empty plan and leaves
desired as it was. -/
theorem getOwnedFieldPaths_error_iff (codec : FieldSetCodec) (obj : Unstructured)
    (fieldManager : String) :
    ((∃ err, getOwnedFieldPaths codec obj fieldManager = .error err)
        ↔ ∃ mf ∈ obj.managedFields, malformedFor codec fieldManager mf)
      ∧ ∀ (o : MapOrder) (desired : Unstructured) (err : Error),
          getOwnedFieldPaths codec obj fieldManager = .error err →
            (PrepareResourceForFieldDeletion codec o obj desired fieldManager).paths = []
              ∧ (PrepareResourceForFieldDeletion codec o obj desired fieldManager).err ≠ none
              ∧ (PrepareResourceForFieldDeletion codec o obj desired fieldManager).desired
                  = desired := by
  refine ⟨ownedPathsLoop_error_iff codec fieldManager obj.managedFields [], ?_⟩
  intro o desired err herr
  unfold PrepareResourceForFieldDeletion
  rw [herr]
  exact ⟨rfl, by simp, rfl⟩

theorem getOwnedFieldPaths_error_iff_witness :
    (∃ err, getOwnedFieldPaths examplePickyCodec exampleThreeRecords "manager-2" = .error err)
      ∧ (∃ mf ∈ exampleThreeRecords.managedFields, malformedFor examplePickyCodec "manager-2" mf)
      ∧ (PrepareResourceForFieldDeletion examplePickyCodec MapOrder.insertion
          exampleThreeRecords ⟨[], []⟩ "manager-2").paths = [] :=
  have h : ∃ err, getOwnedFieldPaths examplePickyCodec exampleThreeRecords "manager-2"
      = .error err := ⟨_, rfl⟩
  ⟨h, (getOwnedFieldPaths_error_iff examplePickyCodec exampleThreeRecords "manager-2").1.1 h,
    ((getOwnedFieldPaths_error_iff examplePickyCodec exampleThreeRecords "manager-2").2
      MapOrder.insertion ⟨[], []⟩ _ h.choose_spec).1⟩

/-! ## Path flattening -/

theorem filterMap_fieldName (p : List PathElement) :
    p.filterMap PathElement.fieldName? = fieldNamesOf p := by
  induction p with
  | nil => rfl
  | cons pe rest ih =>
    cases pe <;> simp [List.filterMap_cons, PathElement.fieldName?, fieldNamesOf, ih]

/-- C16: `pathToString` is the dot-join of the field names of the path, in
order; an element that is not a field name (a key, value or index selector)
contributes nothing, wherever it stands. -/
theorem pathToString_spec (p : List PathElement) :
    pathToString p = Join (fieldNamesOf p)
      ∧ ∀ (pe : PathElement) (a b : List PathElement), pe.fieldName? = none →
          pathToString (a ++ pe :: b) = pathToString (a ++ b) := by
  refine ⟨by rw [pathToString, filterMap_fieldName], fun pe a b h => ?_⟩
  simp [pathToString, List.filterMap_append, List.filterMap_cons, h]

theorem joinChars_eq_nil (ws : List (List Char)) (h : joinChars ws = []) :
    ∀ w ∈ ws, w = [] := by
  cases ws with
  | nil => simp
  | cons w rest =>
    cases rest with
    | nil => simpa [joinChars] using h
    | cons w2 rest2 => simp [joinChars] at h

/-- C17, as stated, fails: the non-empty path `[0]`, a lone index selector,
flattens to the empty string, and `parseFieldsV1` hands that string on. -/
theorem pathToString_of_selectors_only :
    [PathElement.Index 0] ≠ [] ∧ pathToString [PathElement.Index 0] = ""
      ∧ parseFieldsV1 ⟨fun _ => .ok [[PathElement.Index 0]]⟩ "f" = .ok [""] :=
  ⟨List.cons_ne_nil _ _, rfl, rfl⟩

/-- C17, amended: for a field path that holds at least one field-name element
with a non-empty name, the string produced by `pathToString` is non-empty. -/
theorem pathToString_nonempty (p : List PathElement) (name : String)
    (hmem : PathElement.FieldName name ∈ p) (hname : name ≠ "") : pathToString p ≠ "" := by
  intro h
  have hjoin : joinChars ((p.filterMap PathElement.fieldName?).map String.data) = [] := by
    have := congrArg String.data h
    simpa [pathToString, Join] using this
  have hin : name ∈ p.filterMap PathElement.fieldName? :=
    List.mem_filterMap.2 ⟨_, hmem, rfl⟩
  have := joinChars_eq_nil _ hjoin name.data (List.mem_map_of_mem _ hin)
  apply hname
  cases name
  simp only at this
  rw [this]

theorem pathToString_nonempty_witness :
    PathElement.FieldName "spec" ∈ [PathElement.FieldName "spec", PathElement.Index 0]
      ∧ "spec" ≠ "" ∧ pathToString [PathElement.FieldName "spec", PathElement.Index 0] ≠ "" :=
  ⟨List.mem_cons_self _ _, by decide,
    pathToString_nonempty _ "spec" (List.mem_cons_self _ _) (by decide)⟩

/-! ## The compactor on a list with one group -/

theorem groupByParent_same_parent (q : String) (L : List String)
    (hall : ∀ c ∈ L, parentOf c = some q) :
    ∀ cs, groupByParent [⟨q, cs⟩] L = [⟨q, cs ++ L⟩] := by
  induction L with
  | nil => intro cs; simp [groupByParent]
  | cons c rest ih =>
    intro cs
    rw [groupByParent_cons, hall c (List.mem_cons_self _ _)]
    simp only [addChild, if_true]
    rw [ih (fun x hx => hall x (List.mem_cons_of_mem _ hx))]
    simp

theorem groupByParent_one_group (q : String) (L : List String) (hne : L ≠ [])
    (hall : ∀ c ∈ L, parentOf c = some q) : groupByParent [] L = [⟨q, L⟩] := by
  cases L with
  | nil => exact absurd rfl hne
  | cons c rest =>
    rw [groupByParent_cons, hall c (List.mem_cons_self _ _)]
    simp only [addChild]
    rw [groupByParent_same_parent q rest (fun x hx => hall x (List.mem_cons_of_mem _ hx))]
    simp

theorem collapsePass_one_group (o : MapOrder) (observed desired : Object) (L : List String)
    (g : parentInfo) (hg : groupByParent [] L = [g]) :
    collapsePass o observed desired L
      = (processGroup observed desired ⟨[], []⟩ g).result
          ++ L.filter (fun path =>
              decide (path ∉ (processGroup observed desired ⟨[], []⟩ g).processedPaths)) := by
  rw [collapsePass_few_groups o observed desired L (by rw [hg]; simp)]
  simp only [collapsePass, MapOrder.insertion, hg, List.foldl_cons, List.foldl_nil]

theorem collapsePass_top_level (o : MapOrder) (observed desired : Object) (x : String)
    (h : parentOf x = none) : collapsePass o observed desired [x] = [x] := by
  have hg : groupByParent [] [x] = [] := by
    rw [groupByParent_cons, h]; rfl
  rw [collapsePass_few_groups o observed desired [x] (by rw [hg]; simp)]
  simp [collapsePass, MapOrder.insertion, hg]

theorem replace_singleton (o : MapOrder) (observed desired : Object) (x : String) :
    replaceWithParentIfAllSiblingsDeleted o observed desired [x]
      = collapsePass o observed desired [x] := by
  show replaceLoop o observed desired (0 + 1) [x] = _
  rw [replaceLoop_succ _ _ _ _ _ (by simp)]
  split
  · rfl
  · rfl

theorem collapsePass_kept_singleton (o : MapOrder) (observed desired : Object) (p q : String)
    (hp : parentOf p = some q) (hc : groupCollapses observed desired ⟨q, [p]⟩ = false) :
    collapsePass o observed desired [p] = [p] := by
  have hg : groupByParent [] [p] = [⟨q, [p]⟩] :=
    groupByParent_one_group q [p] (by simp) (by simpa using hp)
  rw [collapsePass_one_group o observed desired [p] _ hg, processGroup_eq, hc]
  simp [keepChildren]

/-- C19: for a path `p` of two segments or more whose parent is a mapping with
at least two keys in observed, the compactor returns `[p]` for the list `[p]`. -/
theorem partial_ownership_kept (o : MapOrder) (observed desired : Object) (p q : String)
    (m : Object) (hp : parentOf p = some q)
    (hq : NestedFieldNoCopy observed (Split q) = (.map m, true, none))
    (hlen : 2 ≤ mapLen m) :
    replaceWithParentIfAllSiblingsDeleted o observed desired [p] = [p] := by
  rw [replace_singleton]
  apply collapsePass_kept_singleton o observed desired p q hp
  unfold groupCollapses
  simp only [hq, List.length_singleton]
  have : ¬ 1 = mapLen m := by omega
  simp [this]

theorem partial_ownership_kept_witness :
    parentOf "spec.a.b.c" = some "spec.a.b"
      ∧ NestedFieldNoCopy examplePartial (Split "spec.a.b")
          = (.map [("c", .scalar "1"), ("d", .scalar "2")], true, none)
      ∧ 2 ≤ mapLen [("c", Value.scalar "1"), ("d", Value.scalar "2")]
      ∧ replaceWithParentIfAllSiblingsDeleted MapOrder.insertion examplePartial []
          ["spec.a.b.c"] = ["spec.a.b.c"] :=
  ⟨by decide, rfl, by decide,
    partial_ownership_kept MapOrder.insertion examplePartial [] "spec.a.b.c" "spec.a.b"
      [("c", .scalar "1"), ("d", .scalar "2")] (by decide) rfl (by decide)⟩

/-! ## Nothing owned -/

/-- C20: when extraction succeeds with an empty owned-path list,
`PrepareResourceForFieldDeletion` returns an empty plan and no error and leaves
the desired document as it was. -/
theorem nothing_owned_nothing_done (codec : FieldSetCodec) (o : MapOrder)
    (observed desired : Unstructured) (fieldManager : String)
    (h : getOwnedFieldPaths codec observed fieldManager = .ok []) :
    PrepareResourceForFieldDeletion codec o observed desired fieldManager
      = ⟨[], none, desired⟩ := by
  unfold PrepareResourceForFieldDeletion
  rw [h]
  rfl

theorem nothing_owned_nothing_done_witness :
    getOwnedFieldPaths examplePickyCodec exampleThreeRecords "nobody" = .ok []
      ∧ PrepareResourceForFieldDeletion examplePickyCodec MapOrder.insertion
          exampleThreeRecords ⟨exampleEmptyParent, []⟩ "nobody"
          = ⟨[], none, ⟨exampleEmptyParent, []⟩⟩ :=
  ⟨rfl, nothing_owned_nothing_done examplePickyCodec MapOrder.insertion exampleThreeRecords
    ⟨exampleEmptyParent, []⟩ "nobody" rfl⟩

/-! ## A full sibling set -/

/-- The path of the child `k` of `q`, for a key `k` without a dot: its segments
are those of `q` followed by `k`, and it is grouped under `q`. -/
theorem child_path_spec (q k : String) (hk : isSegment k) :
    Split (Join [q, k]) = Split q ++ [k] ∧ parentOf (Join [q, k]) = some q := by
  have hs : Split (Join [q, k]) = Split q ++ [k] := by
    rw [← Join_Split_append, Split_Join _ (by simp)]
    intro seg hseg
    rcases List.mem_append.1 hseg with h | h
    · exact Split_isSegment q seg h
    · rw [List.mem_singleton] at h; rw [h]; exact hk
  refine ⟨hs, ?_⟩
  unfold parentOf
  rw [hs]
  have hlen : ¬ (Split q ++ [k]).length ≤ 1 := by
    have := List.length_pos.2 (Split_ne_nil q)
    simp only [List.length_append, List.length_singleton]
    omega
  rw [if_neg hlen, List.dropLast_concat, Join_Split]

theorem collapsePass_collapsed (o : MapOrder) (observed desired : Object) (L : List String)
    (q : String) (hne : L ≠ []) (hall : ∀ c ∈ L, parentOf c = some q)
    (hc : groupCollapses observed desired ⟨q, L⟩ = true) :
    collapsePass o observed desired L = [q] := by
  rw [collapsePass_one_group o observed desired L _ (groupByParent_one_group q L hne hall),
    processGroup_eq, if_pos hc]
  simp only [List.not_mem_nil, if_false, List.nil_append]
  have : L.filter (fun path => decide (path ∉ L ++ [q])) = [] := by
    rw [List.filter_eq_nil_iff]
    intro a ha
    simp [ha]
  rw [this]
  rfl

theorem collapsePass_singleton_cases (o : MapOrder) (observed desired : Object) (q : String) :
    collapsePass o observed desired [q] = [q]
      ∨ ∃ r, parentOf q = some r ∧ collapsePass o observed desired [q] = [r] := by
  cases hp : parentOf q with
  | none => exact Or.inl (collapsePass_top_level o observed desired q hp)
  | some r =>
    cases hc : groupCollapses observed desired ⟨r, [q]⟩ with
    | false => exact Or.inl (collapsePass_kept_singleton o observed desired q r hp hc)
    | true =>
      exact Or.inr ⟨r, rfl,
        collapsePass_collapsed o observed desired [q] r (by simp) (by simpa using hp) hc⟩

/-- C18, as stated, fails in two ways.  With observed `labels: {"app.io": 1}`
the path of the only child of `labels` is `labels.app.io`, which the compactor
groups under `labels.app`, and it is returned as it is.  With observed
`spec: {tier: {cpu, memory}, size}` and desired `spec: null` the children of
`spec.tier` collapse to `spec.tier`, and `setFieldsToNil` then returns an error
(`spec` holds nil, not a map) and `spec.tier` is not found in desired. -/
theorem full_sibling_set_failures :
    (NestedFieldNoCopy exampleDottedKey (Split "labels")
          = (.map [("app.io", .scalar "1")], true, none)
        ∧ (NestedFieldNoCopy [] (Split "labels")).2.1 = false
        ∧ (mapKeys [("app.io", Value.scalar "1")]).map (fun k => Join ["labels", k])
            = ["labels.app.io"]
        ∧ "labels.app.io" ∈ replaceWithParentIfAllSiblingsDeleted MapOrder.insertion
            exampleDottedKey [] ["labels.app.io"])
      ∧ ((NestedFieldNoCopy exampleNullSpec (Split "spec.tier")).2.1 = false
        ∧ replaceWithParentIfAllSiblingsDeleted MapOrder.insertion exampleTier exampleNullSpec
            ["spec.tier.cpu", "spec.tier.memory"] = ["spec.tier"]
        ∧ (setFieldsToNil exampleNullSpec ["spec.tier"]).2 ≠ none
        ∧ (NestedFieldNoCopy (setFieldsToNil exampleNullSpec ["spec.tier"]).1
            (Split "spec.tier")).2.1 = false) := by
  refine ⟨⟨rfl, by decide, by decide, by decide⟩, by decide, by decide, by decide, by decide⟩

/-- C18, amended: let `q` be a non-empty mapping in observed whose keys hold no
dot, not found in desired, and let `M` hold exactly the paths of the children of
`q`, each once.  Then the compactor returns the single path `q` or the single
path of the parent of `q`, none of the child paths is in the output, and when
`setFieldsToNil` on the output returns no error the chosen path is found in
desired afterwards and holds the null marker. -/
theorem full_sibling_set_collapses (o : MapOrder) (observed desired : Object) (q : String)
    (m : Object) (M : List String)
    (hq : NestedFieldNoCopy observed (Split q) = (.map m, true, none))
    (hne : mapKeys m ≠ [])
    (habs : (NestedFieldNoCopy desired (Split q)).2.1 = false)
    (hseg : ∀ k ∈ mapKeys m, isSegment k)
    (hM : M.Perm ((mapKeys m).map (fun k => Join [q, k]))) :
    (replaceWithParentIfAllSiblingsDeleted o observed desired M = [q]
        ∨ ∃ r, parentOf q = some r
            ∧ replaceWithParentIfAllSiblingsDeleted o observed desired M = [r])
      ∧ (∀ k ∈ mapKeys m,
          Join [q, k] ∉ replaceWithParentIfAllSiblingsDeleted o observed desired M)
      ∧ ((setFieldsToNil desired
            (replaceWithParentIfAllSiblingsDeleted o observed desired M)).2 = none →
          ∀ x ∈ replaceWithParentIfAllSiblingsDeleted o observed desired M,
            NestedFieldNoCopy (setFieldsToNil desired
                (replaceWithParentIfAllSiblingsDeleted o observed desired M)).1 (Split x)
              = (.null, true, none)) := by
  have hall : ∀ c ∈ M, parentOf c = some q := by
    intro c hc
    obtain ⟨k, hk, rfl⟩ := List.mem_map.1 (hM.mem_iff.1 hc)
    exact (child_path_spec q k (hseg k hk)).2
  have hMne : M ≠ [] := by
    intro e
    rw [e] at hM
    have := hM.symm.eq_nil
    simp only [List.map_eq_nil_iff] at this
    exact hne this
  have hlen : M.length = mapLen m := by
    rw [hM.length_eq, List.length_map]; rfl
  have hcan : canDeleteParent desired (Split q) = true := by
    unfold canDeleteParent
    generalize NestedFieldNoCopy desired (Split q) = res at habs
    obtain ⟨v, found, err⟩ := res
    simp only at habs
    subst habs
    simp
  have hc : groupCollapses observed desired ⟨q, M⟩ = true := by
    unfold groupCollapses
    simp only [hq, hlen, hcan, decide_True, Bool.and_self]
  have hpass := collapsePass_collapsed o observed desired M q hMne hall hc
  have hout : replaceWithParentIfAllSiblingsDeleted o observed desired M = [q]
      ∨ ∃ r, parentOf q = some r
          ∧ replaceWithParentIfAllSiblingsDeleted o observed desired M = [r] := by
    rw [replaceWithParentIfAllSiblingsDeleted_unfold, hpass]
    have h0 : ¬ M.length = 0 := fun e => hMne (List.length_eq_zero.1 e)
    rw [if_neg h0]
    split
    · rw [replace_singleton]
      exact collapsePass_singleton_cases o observed desired q
    · exact Or.inl rfl
  refine ⟨hout, fun k hk hmem => ?_, fun hok x hx => ?_⟩
  · have hs := (child_path_spec q k (hseg k hk)).1
    rcases hout with h | ⟨r, hr, h⟩
    · rw [h, List.mem_singleton] at hmem
      rw [hmem] at hs
      have := congrArg List.length hs
      simp only [List.length_append, List.length_singleton] at this
      omega
    · rw [h, List.mem_singleton] at hmem
      have h1 := parentOf_spec q r hr
      rw [hmem] at hs
      rw [h1] at hs
      have := congrArg List.length hs
      simp only [List.length_append, List.length_singleton] at this
      omega
  · refine setFieldsToNil_null_of_antichain _ desired hok ?_ x hx
    intro a ha b hb _
    rcases hout with h | ⟨r, _, h⟩ <;>
      · rw [h, List.mem_singleton] at ha hb
        rw [ha, hb]

theorem full_sibling_set_collapses_witness :
    NestedFieldNoCopy exampleTier (Split "spec.tier")
        = (.map [("cpu", .scalar "1"), ("memory", .scalar "2")], true, none)
      ∧ (NestedFieldNoCopy exampleTierDesired (Split "spec.tier")).2.1 = false
      ∧ replaceWithParentIfAllSiblingsDeleted MapOrder.insertion exampleTier exampleTierDesired
          ["spec.tier.cpu", "spec.tier.memory"] = ["spec.tier"]
      ∧ NestedFieldNoCopy (setFieldsToNil exampleTierDesired ["spec.tier"]).1 (Split "spec.tier")
          = (.null, true, none)
      ∧ ∀ k ∈ mapKeys [("cpu", Value.scalar "1"), ("memory", Value.scalar "2")],
          Join ["spec.tier", k] ∉ replaceWithParentIfAllSiblingsDeleted MapOrder.insertion
            exampleTier exampleTierDesired ["spec.tier.cpu", "spec.tier.memory"] :=
  ⟨rfl, by decide, by decide, rfl,
    (full_sibling_set_collapses MapOrder.insertion exampleTier exampleTierDesired "spec.tier"
      [("cpu", .scalar "1"), ("memory", .scalar "2")] ["spec.tier.cpu", "spec.tier.memory"]
      rfl (by decide) (by decide) (by unfold isSegment; decide) (List.Perm.refl _)).2.1⟩

/-! ## What a pass returns, whatever the order of the groups -/

theorem foldl_processGroup_result_mono (observed desired : Object) (gs : List parentInfo) :
    ∀ (st : loopState) (x : String), x ∈ st.result →
      x ∈ (gs.foldl (processGroup observed desired) st).result := by
  induction gs with
  | nil => intro st x h; exact h
  | cons g rest ih =>
    intro st x h
    rw [List.foldl_cons]
    exact ih _ x ((processGroup_result observed desired st g x).2 (Or.inl h))

/-- When no group's parent is a path of a group and nothing of the groups is
processed yet, the loop appends the parent of every collapsing group and every
path of every other group. -/
theorem foldl_processGroup_complete (observed desired : Object) (gs : List parentInfo) :
    (gs.map parentInfo.parent).Nodup →
    (∀ g ∈ gs, ∀ g2 ∈ gs, ∀ x, x ∈ g.children → x ∈ g2.children → g.parent = g2.parent) →
    (∀ g ∈ gs, ∀ g2 ∈ gs, g2.parent ∉ g.children) →
    ∀ (st : loopState),
      (∀ g ∈ gs, (∀ x ∈ g.children, x ∉ st.processedPaths) ∧ g.parent ∉ st.processedPaths) →
      ∀ g ∈ gs,
        (groupCollapses observed desired g = true →
            g.parent ∈ (gs.foldl (processGroup observed desired) st).result)
          ∧ (groupCollapses observed desired g = false →
              ∀ x ∈ g.children, x ∈ (gs.foldl (processGroup observed desired) st).result) := by
  induction gs with
  | nil => intro _ _ _ st _ g hg; simp at hg
  | cons g0 rest ih =>
    intro hN hC hX st hS g hg
    rw [List.map_cons, List.nodup_cons] at hN
    rw [List.foldl_cons]
    have hS0 := hS g0 (List.mem_cons_self _ _)
    rcases List.mem_cons.1 hg with rfl | hmem
    · refine ⟨fun hc => ?_, fun hc x hx => ?_⟩
      · apply foldl_processGroup_result_mono
        exact (processGroup_result observed desired st g g.parent).2
          (Or.inr (Or.inr ⟨hc, rfl, hS0.2⟩))
      · apply foldl_processGroup_result_mono
        exact (processGroup_result observed desired st g x).2
          (Or.inr (Or.inl ⟨hc, hx, hS0.1 x hx⟩))
    · apply ih hN.2
        (fun a ha b hb => hC a (List.mem_cons_of_mem _ ha) b (List.mem_cons_of_mem _ hb))
        (fun a ha b hb => hX a (List.mem_cons_of_mem _ ha) b (List.mem_cons_of_mem _ hb))
        (processGroup observed desired st g0) ?_ g hmem
      intro g2 hg2
      have hg2' : g2 ∈ g0 :: rest := List.mem_cons_of_mem _ hg2
      have hne : g0.parent ≠ g2.parent := by
        intro e
        exact hN.1 (e ▸ List.mem_map_of_mem _ hg2)
      refine ⟨fun x hx hproc => ?_, fun hproc => ?_⟩
      · rcases (processGroup_processed observed desired st g0 x).1 hproc with h | h | ⟨_, h⟩
        · exact (hS g2 hg2').1 x hx h
        · exact hne (hC g0 (List.mem_cons_self _ _) g2 hg2' x h hx)
        · exact hX g2 hg2' g0 (List.mem_cons_self _ _) (h ▸ hx)
      · rcases (processGroup_processed observed desired st g0 g2.parent).1 hproc with
          h | h | ⟨_, h⟩
        · exact (hS g2 hg2').2 h
        · exact hX g0 (List.mem_cons_self _ _) g2 hg2' h
        · exact hne h.symm

theorem groupCollapses_congr (observed desired : Object) (g g2 : parentInfo)
    (hp : g.parent = g2.parent) (hl : g.children.length = g2.children.length) :
    groupCollapses observed desired g = groupCollapses observed desired g2 := by
  unfold groupCollapses
  rw [hp, hl]

theorem collapsesAt_iff (observed desired : Object) (L : List String) (q : String) :
    collapsesAt observed desired L q
      ↔ ∃ g ∈ groupByParent [] L, groupCollapses observed desired g = true ∧ g.parent = q := by
  obtain ⟨_, hch, hgrp⟩ := groups_spec L
  constructor
  · rintro ⟨⟨c, hc, hpc⟩, hcol⟩
    obtain ⟨g, hg, hgp, _⟩ := hgrp c hc q hpc
    refine ⟨g, hg, ?_, hgp⟩
    rw [← hcol]
    apply groupCollapses_congr _ _ _ _ hgp
    rw [(hch g hg).1, hgp]
  · rintro ⟨g, hg, hcol, rfl⟩
    obtain ⟨hchildren, hne⟩ := hch g hg
    obtain ⟨c, hc⟩ := List.exists_mem_of_ne_nil _ hne
    have hc2 := hc
    rw [hchildren, List.mem_filter] at hc2
    refine ⟨⟨c, hc2.1, by simpa using hc2.2⟩, ?_⟩
    rw [← hcol]
    exact groupCollapses_congr observed desired _ g rfl (by rw [← hchildren])

/-- In a list without ancestor pair, no parent under which paths are grouped is
itself a path of the list. -/
theorem parent_not_mem_of_noAncestorPair (L : List String) (hanti : noAncestorPair L)
    (c q : String) (hc : c ∈ L) (hpc : parentOf c = some q) : q ∉ L := by
  intro hq
  have hs := parentOf_spec c q hpc
  have hpre : Split q <+: Split c := by rw [hs]; exact List.prefix_append _ _
  have := hanti q hq c hc hpre
  rw [this] at hs
  have := congrArg List.length hs
  simp only [List.length_append, List.length_singleton] at this
  omega

/-- The paths of a pass's result over a list without ancestor pair, whatever
the order in which the groups are ranged: the paths of the list whose group
does not collapse, and the parents of the groups that collapse. -/
theorem collapsePass_mem_iff (o : MapOrder) (observed desired : Object) (L : List String)
    (hanti : noAncestorPair L) (x : String) :
    x ∈ collapsePass o observed desired L
      ↔ (x ∈ L ∧ ∀ q, parentOf x = some q → ¬ collapsesAt observed desired L q)
          ∨ collapsesAt observed desired L x := by
  obtain ⟨hnd, hch, hgrp⟩ := groups_spec L
  have hperm := o.perm L (groupByParent [] L)
  have hchild : ∀ g ∈ groupByParent [] L, ∀ c ∈ g.children,
      c ∈ L ∧ parentOf c = some g.parent := by
    intro g hg c hc
    rw [(hch g hg).1, List.mem_filter] at hc
    exact ⟨hc.1, by simpa using hc.2⟩
  have hparent : ∀ g ∈ groupByParent [] L, g.parent ∉ L := by
    intro g hg
    obtain ⟨c, hc⟩ := List.exists_mem_of_ne_nil _ (hch g hg).2
    obtain ⟨hcL, hcp⟩ := hchild g hg c hc
    exact parent_not_mem_of_noAncestorPair L hanti c g.parent hcL hcp
  have hcomplete := foldl_processGroup_complete observed desired
    (o.order L (groupByParent [] L))
    ((hperm.map _).nodup_iff.2 hnd)
    (fun g hg g2 hg2 x hx hx2 => by
      have h1 := (hchild g (hperm.mem_iff.1 hg) x hx).2
      have h2 := (hchild g2 (hperm.mem_iff.1 hg2) x hx2).2
      exact Option.some.inj (h1.symm.trans h2))
    (fun g hg g2 hg2 hmem =>
      hparent g2 (hperm.mem_iff.1 hg2) (hchild g (hperm.mem_iff.1 hg) _ hmem).1)
    ⟨[], []⟩ (fun g _ => ⟨fun x _ => by simp, by simp⟩)
  constructor
  · intro hx
    rcases collapsePass_mem o observed desired L x hx with ⟨h1, h2⟩ | ⟨g, hg, hc, rfl⟩
    · left
      refine ⟨h1, fun q hq hcol => ?_⟩
      obtain ⟨g, hg, hc, hgp⟩ := (collapsesAt_iff observed desired L q).1 hcol
      apply h2 g hg hc
      rw [(hch g hg).1, List.mem_filter]
      exact ⟨h1, by simpa [hgp] using hq⟩
    · exact Or.inr ((collapsesAt_iff observed desired L g.parent).2 ⟨g, hg, hc, rfl⟩)
  · rintro (⟨hxL, hno⟩ | hcol)
    · unfold collapsePass
      rw [List.mem_append]
      cases hp : parentOf x with
      | none =>
        right
        rw [List.mem_filter]
        refine ⟨hxL, ?_⟩
        simp only [decide_eq_true_eq]
        intro hproc
        rcases (foldl_processGroup_processed observed desired _ _ x).1 hproc with
          h | ⟨g, hg, h | ⟨_, h⟩⟩
        · simp at h
        · have := (hchild g (hperm.mem_iff.1 hg) x h).2
          rw [hp] at this
          cases this
        · exact hparent g (hperm.mem_iff.1 hg) (h ▸ hxL)
      | some q =>
        left
        obtain ⟨g, hg, hgp, hxg⟩ := hgrp x hxL q hp
        have hnc : groupCollapses observed desired g = false := by
          cases hc : groupCollapses observed desired g with
          | false => rfl
          | true =>
            exact absurd ((collapsesAt_iff observed desired L q).2 ⟨g, hg, hc, hgp⟩)
              (hno q hp)
        exact (hcomplete g (hperm.mem_iff.2 hg)).2 hnc x hxg
    · obtain ⟨g, hg, hc, rfl⟩ := (collapsesAt_iff observed desired L x).1 hcol
      unfold collapsePass
      rw [List.mem_append]
      exact Or.inl ((hcomplete g (hperm.mem_iff.2 hg)).1 hc)

theorem collapsesAt_perm (observed desired : Object) {L L2 : List String} (h : L.Perm L2)
    (q : String) : collapsesAt observed desired L q ↔ collapsesAt observed desired L2 q := by
  unfold collapsesAt
  have h1 : (∃ c ∈ L, parentOf c = some q) ↔ ∃ c ∈ L2, parentOf c = some q := by
    constructor
    · rintro ⟨c, hc, hp⟩; exact ⟨c, h.mem_iff.1 hc, hp⟩
    · rintro ⟨c, hc, hp⟩; exact ⟨c, h.mem_iff.2 hc, hp⟩
  have h2 := groupCollapses_congr observed desired
    ⟨q, L.filter (fun c => decide (parentOf c = some q))⟩
    ⟨q, L2.filter (fun c => decide (parentOf c = some q))⟩ rfl
    (h.filter _).length_eq
  rw [h1, h2]

theorem noAncestorPair_perm {L L2 : List String} (h : L.Perm L2) (ha : noAncestorPair L) :
    noAncestorPair L2 :=
  fun p hp q hq hpre => ha p (h.mem_iff.2 hp) q (h.mem_iff.2 hq) hpre

/-- A pass over two arrangements of a list without repetition and ancestor
pair, with any two orders of the groups, returns two arrangements of one list. -/
theorem collapsePass_perm (o o2 : MapOrder) (observed desired : Object) {L L2 : List String}
    (h : L.Perm L2) (hnd : L.Nodup) (hanti : noAncestorPair L) :
    (collapsePass o observed desired L).Perm (collapsePass o2 observed desired L2) := by
  rw [List.perm_ext_iff_of_nodup (collapsePass_nodup o observed desired L hnd)
    (collapsePass_nodup o2 observed desired L2 (h.nodup_iff.1 hnd))]
  intro x
  rw [collapsePass_mem_iff o observed desired L hanti x,
    collapsePass_mem_iff o2 observed desired L2 (noAncestorPair_perm h hanti) x,
    collapsesAt_perm observed desired h x, h.mem_iff]
  constructor
  · rintro (⟨h1, h2⟩ | h3)
    · exact Or.inl ⟨h1, fun q hq hc => h2 q hq ((collapsesAt_perm observed desired h q).2 hc)⟩
    · exact Or.inr h3
  · rintro (⟨h1, h2⟩ | h3)
    · exact Or.inl ⟨h1, fun q hq hc => h2 q hq ((collapsesAt_perm observed desired h q).1 hc)⟩
    · exact Or.inr h3

theorem replaceLoop_perm (o o2 : MapOrder) (observed desired : Object) :
    ∀ (fuel : Nat) (L L2 : List String), L.Perm L2 → L.Nodup →
      (∀ p ∈ L, (NestedFieldNoCopy observed (Split p)).2.1 = true) → noAncestorPair L →
      (replaceLoop o observed desired fuel L).Perm (replaceLoop o2 observed desired fuel L2) := by
  intro fuel
  induction fuel with
  | zero => intro L L2 h _ _ _; exact h
  | succ k ih =>
    intro L L2 h hnd hres hanti
    by_cases hL : L = []
    · subst hL
      have : L2 = [] := h.symm.eq_nil
      subst this
      rw [replaceLoop_nil, replaceLoop_nil]
    · have hL2 : L2 ≠ [] := fun e => hL (by subst e; exact h.eq_nil)
      have hpass := collapsePass_perm o o2 observed desired h hnd hanti
      rw [replaceLoop_succ _ _ _ _ _ hL, replaceLoop_succ _ _ _ _ _ hL2]
      have hlen : (collapsePass o observed desired L).length ≠ L.length ↔
          (collapsePass o2 observed desired L2).length ≠ L2.length := by
        rw [hpass.length_eq, h.length_eq]
      by_cases hc : (collapsePass o observed desired L).length ≠ L.length
      · rw [if_pos hc, if_pos (hlen.1 hc)]
        exact ih _ _ hpass (collapsePass_nodup o observed desired L hnd)
          (collapsePass_found o observed desired L hres)
          (collapsePass_noAncestorPair o observed desired L hnd hres hanti)
      · rw [if_neg hc, if_neg (fun e => hc (hlen.2 e))]
        exact hpass

/-- C13: on observed `a: {b: {c: 1}}` and an empty desired document the list
`[a.b.c, a.b]` gives `[a.b, a]` when the group of `a.b` is ranged before the
group of `a`, and `[a]` when it is ranged after; so does its arrangement
`[a.b, a.b.c]`.  In `[a.b, a]` the child `a.b` stays beside the parent `a` that
replaced it. -/
theorem compactor_order_matters :
    ["a.b.c", "a.b"].Perm ["a.b", "a.b.c"]
      ∧ replaceWithParentIfAllSiblingsDeleted MapOrder.insertion exampleNested []
          ["a.b.c", "a.b"] = ["a.b", "a"]
      ∧ replaceWithParentIfAllSiblingsDeleted MapOrder.reversed exampleNested []
          ["a.b.c", "a.b"] = ["a"]
      ∧ replaceWithParentIfAllSiblingsDeleted MapOrder.insertion exampleNested []
          ["a.b", "a.b.c"] = ["a"]
      ∧ replaceWithParentIfAllSiblingsDeleted MapOrder.reversed exampleNested []
          ["a.b", "a.b.c"] = ["a.b", "a"]
      ∧ "a.b" ∉ ["a"] :=
  ⟨List.Perm.swap _ _ _, by decide, by decide, by decide, by decide, by decide⟩

/-- Without an ancestor pair the order does not matter: for two path lists that
are permutations of each other, hold no path twice, no path that is a proper
segment-prefix of another, and only paths found in observed, the compactor
returns the same set of paths for both, whatever the orders in which the groups
are ranged. -/
theorem compactor_order_independent (o o2 : MapOrder) (observed desired : Object)
    (M M2 : List String) (hperm : M.Perm M2) (hnd : M.Nodup)
    (hres : ∀ p ∈ M, (NestedFieldNoCopy observed (Split p)).2.1 = true)
    (hanti : noAncestorPair M) :
    ∀ x, x ∈ replaceWithParentIfAllSiblingsDeleted o observed desired M
      ↔ x ∈ replaceWithParentIfAllSiblingsDeleted o2 observed desired M2 := by
  intro x
  unfold replaceWithParentIfAllSiblingsDeleted
  rw [← hperm.length_eq]
  exact (replaceLoop_perm o o2 observed desired M.length M M2 hperm hnd hres hanti).mem_iff

theorem compactor_order_independent_witness :
    ["a.b.c", "a.b.d", "a.e"].Perm ["a.e", "a.b.c", "a.b.d"]
      ∧ ["a.b.c", "a.b.d", "a.e"].Nodup
      ∧ (∀ p ∈ ["a.b.c", "a.b.d", "a.e"],
          (NestedFieldNoCopy exampleTwoLevels (Split p)).2.1 = true)
      ∧ noAncestorPair ["a.b.c", "a.b.d", "a.e"]
      ∧ ∀ x, x ∈ replaceWithParentIfAllSiblingsDeleted MapOrder.insertion exampleTwoLevels []
            ["a.b.c", "a.b.d", "a.e"]
          ↔ x ∈ replaceWithParentIfAllSiblingsDeleted MapOrder.reversed exampleTwoLevels []
            ["a.e", "a.b.c", "a.b.d"] :=
  have hp : ["a.b.c", "a.b.d", "a.e"].Perm ["a.e", "a.b.c", "a.b.d"] :=
    @List.perm_append_comm String ["a.b.c", "a.b.d"] ["a.e"]
  ⟨hp, by decide, by decide, by unfold noAncestorPair; decide,
    compactor_order_independent MapOrder.insertion MapOrder.reversed exampleTwoLevels []
      ["a.b.c", "a.b.d", "a.e"] ["a.e", "a.b.c", "a.b.d"] hp (by decide) (by decide)
      (by unfold noAncestorPair; decide)⟩

/-! ## Failure is atomic -/

/-- C24: when `ensureParentPath` returns an error the mapping is as it was, and
so `setFieldsToNil` on a single path that fails leaves the document as it was. -/
theorem failure_is_atomic :
    (∀ (obj : Object) (path : List String), (ensureParentPath obj path).2 ≠ none →
        (ensureParentPath obj path).1 = obj)
      ∧ ∀ (d : Object) (p : String), (setFieldsToNil d [p]).2 ≠ none →
          (setFieldsToNil d [p]).1 = d := by
  refine ⟨fun obj path h => ensureParentPathFrom_error path 0 obj h, fun d p h => ?_⟩
  exact (setFieldsToNil_cons_none d p [] ((setFieldsToNil_single_error_iff d p).1 h)).1

theorem failure_is_atomic_witness :
    (ensureParentPath exampleScalarParent ["a", "b"]).2 ≠ none
      ∧ (ensureParentPath exampleScalarParent ["a", "b"]).1 = exampleScalarParent
      ∧ (setFieldsToNil exampleScalarParent ["a.b.c"]).2 ≠ none
      ∧ (setFieldsToNil exampleScalarParent ["a.b.c"]).1 = exampleScalarParent :=
  ⟨by decide, failure_is_atomic.1 exampleScalarParent ["a", "b"] (by decide), by decide,
    failure_is_atomic.2 exampleScalarParent "a.b.c" (by decide)⟩

/-! ## The dotted form -/

/-- C23, as stated, fails: the three field names `metadata`, `labels`,
`app.kubernetes.io/name` flatten to a string that splits into five segments. -/
theorem dotted_name_does_not_round_trip :
    Split (pathToString [.FieldName "metadata", .FieldName "labels",
        .FieldName "app.kubernetes.io/name"])
      ≠ fieldNamesOf [.FieldName "metadata", .FieldName "labels",
        .FieldName "app.kubernetes.io/name"] := by
  decide

/-- C23, amended: for a field path that has at least one field name and whose
field names hold no dot, splitting `pathToString p` on the dot gives exactly the
field names of `p`, in order. -/
theorem pathToString_round_trip (p : List PathElement) (hne : fieldNamesOf p ≠ [])
    (hseg : ∀ name ∈ fieldNamesOf p, isSegment name) :
    Split (pathToString p) = fieldNamesOf p := by
  rw [pathToString, filterMap_fieldName]
  exact Split_Join _ hne hseg

theorem pathToString_round_trip_witness :
    fieldNamesOf [.FieldName "spec", .Index 0, .FieldName "tier"] ≠ []
      ∧ (∀ name ∈ fieldNamesOf [.FieldName "spec", .Index 0, .FieldName "tier"],
          isSegment name)
      ∧ Split (pathToString [.FieldName "spec", .Index 0, .FieldName "tier"])
          = fieldNamesOf [.FieldName "spec", .Index 0, .FieldName "tier"] :=
  ⟨by decide, by unfold isSegment; decide,
    pathToString_round_trip [.FieldName "spec", .Index 0, .FieldName "tier"] (by decide)
      (by unfold isSegment; decide)⟩

/-! ## The debug helper -/

/-- C25: on an object holding a record whose `Manager` equals the writer and
whose field-set is absent, `DebugManagedFields` does not return: it dereferences
the nil `FieldsV1`. -/
theorem DebugManagedFields_panics :
    DebugManagedFields exampleNoFieldSet "manager" = none
      ∧ getOwnedFieldPaths exampleCodec exampleNoFieldSet "manager" = .ok [] :=
  ⟨rfl, rfl⟩

theorem debugLoop_ok (fieldManager : String) (mfs : List ManagedFieldsEntry) :
    (∀ mf ∈ mfs, mf.Manager = fieldManager → mf.FieldsV1 ≠ none) →
    ∀ (all : List String) (t : Option TargetManagerInfo),
      ∃ t2, debugLoop fieldManager mfs all t
        = some (all ++ mfs.map ManagedFieldsEntry.Manager, t2) := by
  induction mfs with
  | nil => intro _ all t; exact ⟨t, by simp [debugLoop]⟩
  | cons mf rest ih =>
    intro h all t
    have hrest := ih (fun mf2 h2 => h mf2 (List.mem_cons_of_mem _ h2))
    rw [debugLoop]
    by_cases hm : mf.Manager = fieldManager
    · rw [if_pos hm]
      cases hf : mf.FieldsV1 with
      | none => exact absurd hf (h mf (List.mem_cons_self _ _) hm)
      | some raw =>
        obtain ⟨t2, ht2⟩ := hrest (all ++ [mf.Manager])
          (some ⟨mf.Manager, mf.Operation, mf.APIVersion, raw⟩)
        exact ⟨t2, by simp [ht2]⟩
    · rw [if_neg hm]
      obtain ⟨t2, ht2⟩ := hrest (all ++ [mf.Manager]) t
      exact ⟨t2, by simp [ht2]⟩

/-- When every record of the writer holds a field-set, `DebugManagedFields`
returns, and `allManagers` lists the manager of every record in order. -/
theorem DebugManagedFields_ok (obj : Unstructured) (fieldManager : String)
    (h : ∀ mf ∈ obj.managedFields, mf.Manager = fieldManager → mf.FieldsV1 ≠ none) :
    ∃ t, DebugManagedFields obj fieldManager
      = some ⟨obj.managedFields.map ManagedFieldsEntry.Manager, t, fieldManager⟩ := by
  obtain ⟨t2, ht2⟩ := debugLoop_ok fieldManager obj.managedFields h [] none
  exact ⟨t2, by simp [DebugManagedFields, ht2]⟩

/-! ## Collapse loses no deletion -/

theorem coveredBy_mono {out out2 : List String} (h : ∀ x ∈ out, x ∈ out2) (p : String)
    (hp : coveredBy out p) : coveredBy out2 p := by
  obtain ⟨x, hx, hpre⟩ := hp
  exact ⟨x, h x hx, hpre⟩

theorem keepChildren_result_mono (children : List String) :
    ∀ (st : loopState) (x : String), x ∈ st.result → x ∈ (keepChildren children st).result :=
  fun st x h => (keepChildren_result children st x).2 (Or.inl h)

/-- The loop keeps every processed path covered by `result`. -/
theorem processGroup_covers (observed desired : Object) (st : loopState) (g : parentInfo)
    (hg : ∀ c ∈ g.children, Split g.parent <+: Split c)
    (hst : ∀ x ∈ st.processedPaths, coveredBy st.result x) :
    ∀ x ∈ (processGroup observed desired st g).processedPaths,
      coveredBy (processGroup observed desired st g).result x := by
  intro x hx
  have hmono : ∀ y ∈ st.result, y ∈ (processGroup observed desired st g).result :=
    fun y hy => (processGroup_result observed desired st g y).2 (Or.inl hy)
  have hparent : groupCollapses observed desired g = true →
      coveredBy (processGroup observed desired st g).result g.parent := by
    intro hc
    by_cases hp : g.parent ∈ st.processedPaths
    · exact coveredBy_mono hmono _ (hst _ hp)
    · exact ⟨g.parent, (processGroup_result observed desired st g g.parent).2
        (Or.inr (Or.inr ⟨hc, rfl, hp⟩)), List.prefix_refl _⟩
  rcases (processGroup_processed observed desired st g x).1 hx with h | h | ⟨hc, rfl⟩
  · exact coveredBy_mono hmono _ (hst x h)
  · by_cases hp : x ∈ st.processedPaths
    · exact coveredBy_mono hmono _ (hst x hp)
    · cases hc : groupCollapses observed desired g with
      | false =>
        exact ⟨x, (processGroup_result observed desired st g x).2
          (Or.inr (Or.inl ⟨hc, h, hp⟩)), List.prefix_refl _⟩
      | true =>
        obtain ⟨y, hy, hpre⟩ := hparent hc
        exact ⟨y, hy, hpre.trans (hg x h)⟩
  · exact hparent hc

theorem foldl_processGroup_covers (observed desired : Object) (gs : List parentInfo) :
    (∀ g ∈ gs, ∀ c ∈ g.children, Split g.parent <+: Split c) →
    ∀ (st : loopState), (∀ x ∈ st.processedPaths, coveredBy st.result x) →
      ∀ x ∈ (gs.foldl (processGroup observed desired) st).processedPaths,
        coveredBy (gs.foldl (processGroup observed desired) st).result x := by
  induction gs with
  | nil => intro _ st hst x hx; exact hst x hx
  | cons g rest ih =>
    intro hg st hst
    rw [List.foldl_cons]
    exact ih (fun g2 h2 => hg g2 (List.mem_cons_of_mem _ h2)) _
      (processGroup_covers observed desired st g (hg g (List.mem_cons_self _ _)) hst)

theorem group_children_below (L : List String) (g : parentInfo) (hg : g ∈ groupByParent [] L) :
    ∀ c ∈ g.children, c ∈ L ∧ Split g.parent <+: Split c := by
  obtain ⟨_, hch, _⟩ := groups_spec L
  intro c hc
  rw [(hch g hg).1, List.mem_filter] at hc
  have hs := parentOf_spec c g.parent (by simpa using hc.2)
  exact ⟨hc.1, by rw [hs]; exact List.prefix_append _ _⟩

/-- A pass covers every path of its input. -/
theorem collapsePass_covers (o : MapOrder) (observed desired : Object) (L : List String) :
    ∀ p ∈ L, coveredBy (collapsePass o observed desired L) p := by
  intro p hp
  have hperm := o.perm L (groupByParent [] L)
  have hcov := foldl_processGroup_covers observed desired (o.order L (groupByParent [] L))
    (fun g hg c hc => (group_children_below L g (hperm.mem_iff.1 hg) c hc).2)
    ⟨[], []⟩ (by simp)
  unfold collapsePass
  by_cases hproc : p ∈ ((o.order L (groupByParent [] L)).foldl
      (processGroup observed desired) ⟨[], []⟩).processedPaths
  · exact coveredBy_mono (fun x hx => List.mem_append_left _ hx) p (hcov p hproc)
  · exact ⟨p, List.mem_append_right _ (List.mem_filter.2 ⟨hp, by simpa using hproc⟩),
      List.prefix_refl _⟩

/-- Every path of a pass's result is a path of the input or an ancestor of one. -/
theorem collapsePass_from (o : MapOrder) (observed desired : Object) (L : List String) :
    ∀ x ∈ collapsePass o observed desired L, ∃ p ∈ L, Split x <+: Split p := by
  intro x hx
  rcases collapsePass_mem o observed desired L x hx with ⟨h1, _⟩ | ⟨g, hg, _, rfl⟩
  · exact ⟨x, h1, List.prefix_refl _⟩
  · obtain ⟨_, hch, _⟩ := groups_spec L
    obtain ⟨c, hc⟩ := List.exists_mem_of_ne_nil _ (hch g hg).2
    exact ⟨c, (group_children_below L g hg c hc).1, (group_children_below L g hg c hc).2⟩

/-- C22: every path of `M` is covered by the compactor's output (the path itself
or an ancestor of it is in the output), and every path of the output is a path
of `M` or a segment-prefix of one. -/
theorem collapse_loses_nothing (o : MapOrder) (observed desired : Object) (M : List String) :
    (∀ p ∈ M, coveredBy (replaceWithParentIfAllSiblingsDeleted o observed desired M) p)
      ∧ ∀ x ∈ replaceWithParentIfAllSiblingsDeleted o observed desired M,
          ∃ p ∈ M, Split x <+: Split p := by
  constructor
  · refine replaceLoop_invariant o observed desired (fun L => ∀ p ∈ M, coveredBy L p)
      (fun L hL p hp => ?_) M.length M (fun p hp => ⟨p, hp, List.prefix_refl _⟩)
    obtain ⟨x, hx, hpre⟩ := hL p hp
    obtain ⟨y, hy, hpre2⟩ := collapsePass_covers o observed desired L x hx
    exact ⟨y, hy, hpre2.trans hpre⟩
  · refine replaceLoop_invariant o observed desired
      (fun L => ∀ x ∈ L, ∃ p ∈ M, Split x <+: Split p)
      (fun L hL x hx => ?_) M.length M (fun x hx => ⟨x, hx, List.prefix_refl _⟩)
    obtain ⟨y, hy, hpre⟩ := collapsePass_from o observed desired L x hx
    obtain ⟨p, hp, hpre2⟩ := hL y hy
    exact ⟨p, hp, hpre.trans hpre2⟩

theorem collapse_loses_nothing_witness :
    "a.b.c" ∈ ["a.b", "a.b.c"]
      ∧ coveredBy (replaceWithParentIfAllSiblingsDeleted MapOrder.reversed exampleNested []
          ["a.b", "a.b.c"]) "a.b.c"
      ∧ ∀ x ∈ replaceWithParentIfAllSiblingsDeleted MapOrder.reversed exampleNested []
          ["a.b", "a.b.c"], ∃ p ∈ ["a.b", "a.b.c"], Split x <+: Split p :=
  ⟨by decide,
    (collapse_loses_nothing MapOrder.reversed exampleNested [] ["a.b", "a.b.c"]).1 "a.b.c"
      (by decide),
    (collapse_loses_nothing MapOrder.reversed exampleNested [] ["a.b", "a.b.c"]).2⟩

end Xfn

namespace UsageWebhook

/-! ## The usage webhook -/

theorem validateNoUsages_of_list (c : Collaborators) (u : Resource) (opts : DeleteOptions)
    (items : List Usage)
    (hlist : c.list (c.inUseIndexValue u.apiVersion u.kind u.name) = .ok items)
    (hpatch : patchAttempted c u opts = true →
      c.patch (withDeletionAttempt c u opts) u = none) :
    (items = [] → validateNoUsages c u opts = some (Allowed ""))
      ∧ (∀ first rest msg, items = first :: rest → inUseMessage c first rest = some msg →
          validateNoUsages c u opts = some (conflict msg)) := by
  unfold validateNoUsages
  rw [hlist]
  refine ⟨fun h => (by rw [h]), fun first rest msg h hmsg => ?_⟩
  rw [h]
  simp only [hmsg]
  by_cases hp : patchAttempted c u opts = true
  · rw [if_pos hp, hpatch hp]
  · rw [if_neg hp]

/-- When the message can be built (the first Usage has no `by`, or a `by` whose
reference is resolved), a DELETE request whose decodings, list query and patch
succeed is refused with code 409 iff the Usage list is non-empty, and is allowed
otherwise. -/
theorem deletion_blocked_when_message_builds (c : Collaborators) (request : Request)
    (u : Resource) (opts : DeleteOptions) (items : List Usage)
    (hop : request.Operation = .Delete)
    (hu : c.unmarshalObject request.OldObject = .ok u)
    (hopts : c.unmarshalOptions request.Options = .ok opts)
    (hlist : c.list (c.inUseIndexValue u.apiVersion u.kind u.name) = .ok items)
    (hpatch : patchAttempted c u opts = true →
      c.patch (withDeletionAttempt c u opts) u = none)
    (hmsg : ∀ first rest, items = first :: rest → ∀ usedBy, first.By = some usedBy →
      usedBy.ResourceRef ≠ none) :
    ∃ r, Handle c request = some r
      ∧ ((r.Allowed = false ∧ r.Code = 409) ↔ items ≠ [])
      ∧ (items = [] → r.Allowed = true) := by
  have hH : Handle c request = validateNoUsages c u opts := by
    unfold Handle
    rw [hop]
    simp only [hu, hopts]
  obtain ⟨h1, h2⟩ := validateNoUsages_of_list c u opts items hlist hpatch
  rw [hH]
  cases items with
  | nil =>
    refine ⟨Allowed "", h1 rfl, ⟨fun h => absurd h.1 (by decide), fun h => absurd rfl h⟩,
      fun _ => rfl⟩
  | cons first rest =>
    have hsome : ∃ msg, inUseMessage c first rest = some msg := by
      unfold inUseMessage
      cases hb : first.By with
      | none =>
        cases hre : first.Reason with
        | none => exact ⟨_, rfl⟩
        | some reason => exact ⟨_, rfl⟩
      | some usedBy =>
        cases hr : usedBy.ResourceRef with
        | none => exact absurd hr (hmsg first rest rfl usedBy hb)
        | some name =>
          simp only [hr]
          exact ⟨_, rfl⟩
    obtain ⟨msg, hm⟩ := hsome
    exact ⟨conflict msg, h2 first rest msg rfl hm,
      ⟨fun _ => List.cons_ne_nil _ _, fun _ => ⟨rfl, rfl⟩⟩, fun h => (by cases h)⟩

theorem deletion_blocked_when_message_builds_witness :
    ∃ r, Handle exampleInUse ⟨.Delete, "old", "options"⟩ = some r
      ∧ r.Allowed = false ∧ r.Code = 409 := by
  obtain ⟨r, hr, hiff, _⟩ := deletion_blocked_when_message_builds exampleInUse
    ⟨.Delete, "old", "options"⟩ ⟨"v1", "Bucket", "b", none⟩ ⟨none⟩
    [⟨"u1", some ⟨"Cluster", some "c"⟩, none⟩] rfl rfl rfl rfl (fun _ => rfl)
    (fun first rest h usedBy hb => by
      cases h
      cases hb
      exact Option.some_ne_none _)
  exact ⟨r, hr, hiff.2 (List.cons_ne_nil _ _)⟩

/-- C21: for a DELETE request whose old object and options decode and whose
Usage list query succeeds, with one Usage indexed for the resource whose `by`
holds no resolved reference, `Handle` does not answer: `inUseMessage` panics on
`first.Spec.By.ResourceRef.Name` before the response is built. -/
theorem deletion_request_panics :
    exampleUnresolved.unmarshalObject "old" = .ok ⟨"v1", "Bucket", "b", none⟩
      ∧ exampleUnresolved.unmarshalOptions "options" = .ok ⟨none⟩
      ∧ exampleUnresolved.list (exampleUnresolved.inUseIndexValue "v1" "Bucket" "b")
          = .ok [⟨"u1", some ⟨"Cluster", none⟩, none⟩]
      ∧ Handle exampleUnresolved ⟨.Delete, "old", "options"⟩ = none :=
  ⟨rfl, rfl, rfl, rfl⟩

end UsageWebhook
